import Mathlib

/-!
# Verification of the response-time-analysis library core

This file is a shallow embedding, in Lean 4, of the core of a Rust
library for computing worst-case response-time bounds
(`response-time-analysis`).  All time quantities (`Time`, `Duration`,
`Service`, `Instant`/`Offset`) are `u64` newtypes over a discrete time
base in the source; they are modelled as `Nat`.  Unchecked `u64`
subtraction in the source halts the program on underflow; in this
embedding `Nat` subtraction truncates at zero, and every theorem about
an expression whose source form could underflow is stated so that the
truncated and the exact interpretation agree (or the divergence is the
very subject of the theorem).  Likewise `u64` division halts on a zero
divisor, so theorems about quotients carry positivity hypotheses for
the divisors involved.

The embedding covers:
* `fixed_point.rs`: `SearchFailure`, `search_with_offset`, `search`,
  `max_response_time`;
* `supply/{dedicated,periodic,constrained}.rs`: `provided_service` and
  `service_time` for the three supply models;
* `arrival/{periodic,sporadic,curve,propagated,never,aggregated}.rs`:
  `number_arrivals` and the step iterators;
* `wcet/{scalar,curve}.rs`: scalar costs and the extrapolating cost curve;
* `fixed_priority/fully_preemptive.rs`: `dedicated_uniproc_rta`
  instantiated with scalar WCETs and periodic arrivals.
-/

/-! ## Fixed-point search (`fixed_point.rs`) -/

/-- `SearchFailure::DivergenceLimitExceeded { offset, limit }`, the sole
error variant of the fixed-point search. -/
structure SearchFailure where
  offset : Nat
  limit : Nat
deriving DecidableEq, Repr

/-- `SearchResult = Result<Duration, SearchFailure>`. -/
inductive SearchResult where
  | ok (val : Nat)
  | err (failure : SearchFailure)
deriving DecidableEq, Repr

/-- The loop of `search_with_offset` (fixed_point.rs:32-48).  The source
iterates `while assumed_response_time <= divergence_limit`, each round
computing `response_time_bound = supply.service_time(workload(R)) - offset`
(abstracted here into one function `f`), returning `Ok` on convergence
(`response_time_bound <= assumed_response_time`) and `Err` once the limit is
exceeded.  Each continuing round strictly increases `R`, so starting from
`R = 1` the loop body runs at most `limit + 1` times; the structural `fuel`
counter makes the recursion well-founded without changing the result (the
fuel-exhaustion branch is unreachable for `fuel = limit + 1`, because by then
`R > limit`, which is exactly the `Err` exit of the source loop). -/
def searchLoop (f : Nat → Nat) (offset limit : Nat) : Nat → Nat → SearchResult
  | 0, _ => .err ⟨offset, limit⟩
  | fuel + 1, R =>
    if R ≤ limit then
      let R' := f R
      if R' ≤ R then .ok R' else searchLoop f offset limit fuel R'
    else .err ⟨offset, limit⟩

/-- `search_with_offset(supply, offset, divergence_limit, workload)`
(fixed_point.rs:22-49).  The supply enters only through its
`service_time` function, passed as `st`. -/
def searchWithOffset (st : Nat → Nat) (offset limit : Nat) (rhs : Nat → Nat) : SearchResult :=
  searchLoop (fun R => st (rhs R) - offset) offset limit (limit + 1) 1

/-- `search(supply, divergence_limit, workload_bound)` (fixed_point.rs:84-101):
the offset-0 instance of the search. -/
def fpSearch (st : Nat → Nat) (limit : Nat) (rhs : Nat → Nat) : SearchResult :=
  searchWithOffset st 0 limit rhs

/-- The iteration sequence of the fixed-point search: `R₀ = 1` (the
smallest time unit), `R_{k+1} = f R_k` where `f R = st (rhs R) - offset`. -/
def iterSeq (f : Nat → Nat) : Nat → Nat
  | 0 => 1
  | k + 1 => f (iterSeq f k)

/-- The comparator closure of `max_response_time` (fixed_point.rs:108-120):
an error compares greater than anything; two `Ok` values compare by
their contents. -/
def rtCmp : SearchResult → SearchResult → Ordering
  | .err _, _ => .gt
  | .ok _, .err _ => .lt
  | .ok x, .ok y => compare x y

/-- `max_response_time` (fixed_point.rs:106-124).  Rust's
`Iterator::max_by` keeps the current maximum while the comparator
answers `Greater` and otherwise replaces it (so that among equal
maxima the last wins); an empty input yields `Ok(0)`. -/
def maxResponseTime (results : List SearchResult) : SearchResult :=
  (results.foldl
      (fun acc x =>
        match acc with
        | none => some x
        | some a => if rtCmp a x = .gt then some a else some x)
      none).getD (.ok 0)

/-! ## Supply models (`supply/`) -/

/-- `Dedicated::provided_service` (dedicated.rs:20-22): the identity. -/
def dedicatedProvidedService (delta : Nat) : Nat := delta

/-- `Dedicated::service_time` (dedicated.rs:24-26): the identity. -/
def dedicatedServiceTime (demand : Nat) : Nat := demand

/-- `Periodic::provided_service` (periodic.rs:24-42), the supply-bound
function of the periodic resource model of Shin & Lee.  `slack > delta`
is rendered as `delta < slack`; the `if x < delta` guard makes the
truncated subtraction `delta - x` exact. -/
def periodicProvidedService (budget period delta : Nat) : Nat :=
  let slack := period - budget
  if delta < slack then 0
  else
    let fullPeriods := (delta - slack) / period
    let x := slack + slack + period * fullPeriods
    let fractionalPeriod := if x < delta then delta - x else 0
    budget * fullPeriods + fractionalPeriod

/-- `Periodic::service_time` (periodic.rs:44-63).  The source computes
`slack + demand - full_budget`, which associates as
`(slack + demand) - full_budget`. -/
def periodicServiceTime (budget period demand : Nat) : Nat :=
  if demand = 0 then 0
  else
    let slack := period - budget
    let fullPeriods := demand / budget
    let fullBudget := budget * fullPeriods
    let fractionalBudget := if fullBudget < demand then slack + demand - fullBudget else 0
    slack + period * fullPeriods + fractionalBudget

/-- `Constrained::provided_service` (constrained.rs:37-52). -/
def constrainedProvidedService (budget deadline period delta : Nat) : Nat :=
  let shift := period - budget
  if delta < shift then 0
  else
    let fullPeriods := (delta - shift) / period
    let x := shift + period * fullPeriods + deadline - budget
    let fractionalPeriod := if x < delta then min budget (delta - x) else 0
    budget * fullPeriods + fractionalPeriod

/-- `Constrained::service_time` (constrained.rs:54-73).  The source's
`demand - full_budget + self.period - budget` associates as
`((demand - full_budget) + period) - budget`. -/
def constrainedServiceTime (budget deadline period demand : Nat) : Nat :=
  if demand = 0 then 0
  else
    let fullPeriods := demand / budget
    let fullBudget := budget * fullPeriods
    let fractionalBudget :=
      if fullBudget < demand then demand - fullBudget + period - budget else 0
    deadline - budget + period * fullPeriods + fractionalBudget

/-- The three supply models implementing the `SupplyBound` trait. -/
inductive SupplyModel where
  | dedicated
  | periodic (budget period : Nat)
  | constrained (budget deadline period : Nat)

/-- Dispatch of `SupplyBound::provided_service`. -/
def SupplyModel.providedService : SupplyModel → Nat → Nat
  | .dedicated => dedicatedProvidedService
  | .periodic b t => periodicProvidedService b t
  | .constrained b d t => constrainedProvidedService b d t

/-- Dispatch of `SupplyBound::service_time`. -/
def SupplyModel.serviceTime : SupplyModel → Nat → Nat
  | .dedicated => dedicatedServiceTime
  | .periodic b t => periodicServiceTime b t
  | .constrained b d t => constrainedServiceTime b d t

/-- Well-formedness of a supply model: the constructor assertions
(`budget <= period` for `Periodic`, `budget <= deadline <= period` for
`Constrained`), plus positivity of the budget, without which the `u64`
divisions `demand / budget` in the source `service_time` functions halt
the program. -/
def SupplyModel.WF : SupplyModel → Prop
  | .dedicated => True
  | .periodic b t => 0 < b ∧ b ≤ t
  | .constrained b d t => 0 < b ∧ b ≤ d ∧ d ≤ t

/-! ## Arrival bounds (`arrival/`) -/

/-- `divide_with_ceil(a, b) = a / b + (a % b > 0)` (arrival/mod.rs:78-80). -/
def divideWithCeil (a b : Nat) : Nat :=
  a / b + (if 0 < a % b then 1 else 0)

/-- `Periodic::number_arrivals` (arrival/periodic.rs:19-21):
`⌈delta / period⌉`. -/
def periodicNumberArrivals (period delta : Nat) : Nat :=
  divideWithCeil delta period

/-- `Sporadic::number_arrivals` (arrival/sporadic.rs:43-49):
`⌈(delta + jitter) / min_inter_arrival⌉` for positive `delta`, else 0. -/
def sporadicNumberArrivals (minInterArrival jitter delta : Nat) : Nat :=
  if 0 < delta then divideWithCeil (delta + jitter) minInterArrival else 0

/-- The scan of `Curve::lookup_arrivals` (arrival/curve.rs:195-206),
with the running index made explicit: at index `i` the source returns
`njobs - 1 = i + 1` for the first entry with `delta <= min_distance[i]`.
If the scan falls off the end, the source halts (`panic`); that branch
is rendered as `i + 1` past the last index, which keeps the value equal
to `countP (< delta) + 1` in all cases and is unreachable whenever
`delta` is at most some stored distance. -/
def lookupAux (delta : Nat) : List Nat → Nat → Nat
  | [], i => i + 1
  | d :: rest, i => if delta ≤ d then i + 1 else lookupAux delta rest (i + 1)

/-- `Curve::lookup_arrivals` (arrival/curve.rs:195-206). -/
def lookupArrivals (md : List Nat) (delta : Nat) : Nat :=
  lookupAux delta md 0

/-- `Curve::number_arrivals` for the delta-min representation
(arrival/curve.rs:236-250): long intervals are resolved by
super-additivity into `delta / D` full repetitions of the largest
stored distance `D` (worth `len` jobs each) plus a looked-up tail. -/
def curveNumberArrivals (md : List Nat) (delta : Nat) : Nat :=
  if 0 < delta then
    let largest := md.getLastD 0
    let pfx := delta / largest
    let prefixJobs := pfx * md.length
    let tail := delta % largest
    if md.headD 0 < tail then prefixJobs + lookupArrivals md tail
    else prefixJobs + (if 0 < tail then 1 else 0)
  else 0

/-- `Curve::extrapolate_next` (arrival/curve.rs:116-124):
`max_{0 <= k <= n/2} (min_distance[k] + min_distance[n-k-1])`. -/
def curveExtrapolateNext (md : List Nat) : Nat :=
  (((List.range (md.length / 2 + 1)).map
      (fun k => md.getD k 0 + md.getD (md.length - k - 1) 0)).foldr max 0)

/-- One push of `Curve::extrapolate`'s loop body
(arrival/curve.rs:133-137). -/
def curveExtendOnce (md : List Nat) : List Nat :=
  md ++ [curveExtrapolateNext md]

/-- The loop of `Curve::extrapolate` (arrival/curve.rs:133-137):
`while largest_known_distance() < horizon { push(extrapolate_next()) }`,
rendered with a structural `fuel` bound on the number of pushes. -/
def curveExtrapolateAux (horizon : Nat) : Nat → List Nat → List Nat
  | 0, md => md
  | fuel + 1, md =>
    if md.getLastD 0 < horizon then curveExtrapolateAux horizon fuel (curveExtendOnce md)
    else md

/-- `Curve::extrapolate` (arrival/curve.rs:126-137), including the
`can_extrapolate` guard (at least two stored distances).  The source
loop has no fuel; here the fuel is `len · 2^horizon + 1`, which is
proven sufficient whenever the loop terminates at all: each block of
`len` pushes at least doubles the last stored distance (the term
`k = len - 1` of `extrapolate_next`'s maximum), so when the largest
stored distance is positive the loop exits within the fuel bound
(`curveExtrapolate_reaches` below), and when it is zero the source
loop either does not run (`horizon = 0`) or never terminates (every
pushed value is again 0), and no theorem below concerns that case. -/
def curveExtrapolate (md : List Nat) (horizon : Nat) : List Nat :=
  if 2 ≤ md.length then curveExtrapolateAux horizon (md.length * 2 ^ horizon + 1) md
  else md

/-- `ExtrapolatingCurve::number_arrivals` (arrival/curve.rs:327-338):
for positive `delta`, first extrapolate the wrapped prefix up to
`delta + 1`, then query it. -/
def extrapolatingNumberArrivals (md : List Nat) (delta : Nat) : Nat :=
  if delta = 0 then 0
  else curveNumberArrivals (curveExtrapolate md (delta + 1)) delta

/-- The arrival-bound models of the library (the `Vec`/slice instance
is the n-ary iteration of the binary `sum_of`). -/
inductive AModel where
  | periodic (period : Nat)
  | sporadic (minInterArrival jitter : Nat)
  | curve (md : List Nat)
  | extrapolating (md : List Nat)
  | propagated (jitter : Nat) (inner : AModel)
  | never
  | sumOf (a b : AModel)

/-- Dispatch of `ArrivalBound::number_arrivals` over the models:
`Propagated::number_arrivals` (arrival/propagated.rs:29-36) queries the
inner model at `delta + jitter` for positive `delta`; `Never` yields 0;
`SumOf` adds componentwise (arrival/aggregated.rs:33-36). -/
def AModel.numberArrivals : AModel → Nat → Nat
  | .periodic t => periodicNumberArrivals t
  | .sporadic t j => sporadicNumberArrivals t j
  | .curve md => curveNumberArrivals md
  | .extrapolating md => extrapolatingNumberArrivals md
  | .propagated j inner => fun delta =>
      if 0 < delta then inner.numberArrivals (delta + j) else 0
  | .never => fun _ => 0
  | .sumOf a b => fun delta => a.numberArrivals delta + b.numberArrivals delta

/-- Well-formedness of an arrival model.  Periods must be positive (the
source divides by them).  A delta-min prefix must be non-empty (constructor
assertion), sorted (the documented meaning of a delta-min vector, enforced
by `FromIterator`), and its largest entry positive (the source divides and
takes remainders by it; for the lazily extrapolating curve, a sorted
prefix whose largest entry is zero is all zero, and the source's
extrapolation loop pushes zeroes forever on any positive query). -/
def AModel.WF : AModel → Prop
  | .periodic t => 0 < t
  | .sporadic t _ => 0 < t
  | .curve md => md ≠ [] ∧ List.Chain (· ≤ ·) 0 md ∧ 0 < md.getLastD 0
  | .extrapolating md =>
      md ≠ [] ∧ List.Chain (· ≤ ·) 0 md ∧ 0 < md.getLastD 0
  | .propagated _ inner => inner.WF
  | .never => True
  | .sumOf a b => a.WF ∧ b.WF

/-! ## Cost models (`wcet/`) -/

/-- `Scalar::cost_of_jobs` (wcet/scalar.rs:28-30): `wcet * n`. -/
def scalarCostOfJobs (wcet n : Nat) : Nat := wcet * n

/-- `wcet::Curve::cost_of_jobs` (wcet/curve.rs:63-82): super-additive
resolution of `n` into full repetitions of the stored prefix plus a
stored remainder. -/
def wcetCostOfJobs (w : List Nat) (n : Nat) : Nat :=
  if w ≠ [] ∧ 0 < n then
    let x := n / w.length
    let y := n % w.length
    let pfx := if 0 < x then w.getLastD 0 * x else 0
    let sfx := if 0 < y then w.getD (y - 1) 0 else 0
    pfx + sfx
  else 0

/-- `wcet::Curve::extrapolate_next` (wcet/curve.rs:176-185):
`min_{0 <= k <= n/2} (wcet_of_n_jobs[k] + wcet_of_n_jobs[n-k-1])`
(over a non-empty index range; rendered as a fold over the mapped
range, seeded with the `k = 0` term). -/
def wcetExtrapolateNext (w : List Nat) : Nat :=
  (((List.range (w.length / 2 + 1)).map
      (fun k => w.getD k 0 + w.getD (w.length - k - 1) 0)).foldr min
    (w.getD 0 0 + w.getD (w.length - 1) 0))

/-- One push of `wcet::Curve::extrapolate`'s loop body. -/
def wcetExtendOnce (w : List Nat) : List Nat :=
  w ++ [wcetExtrapolateNext w]

/-- The loop of `wcet::Curve::extrapolate` (wcet/curve.rs:187-194):
`while len < n - 1 { push(extrapolate_next()) }`.  Each push grows the
list by one, so `fuel = target` rounds always suffice. -/
def wcetExtrapolateAux (target : Nat) : Nat → List Nat → List Nat
  | 0, w => w
  | fuel + 1, w =>
    if w.length < target then wcetExtrapolateAux target fuel (wcetExtendOnce w)
    else w

/-- `wcet::Curve::extrapolate(n)` (wcet/curve.rs:187-194), including the
guard requiring at least three samples. -/
def wcetExtrapolate (w : List Nat) (n : Nat) : List Nat :=
  if 3 ≤ w.length then wcetExtrapolateAux (n - 1) n w else w

/-! ## The lazily extrapolating curves as state transformers (claim C9)

`ExtrapolatingCurve` (arrivals) and `wcet::ExtrapolatingCurve` (costs)
own an inner mutable prefix behind `Rc<RefCell<...>>`.  A run of the
program is a sequence of queries; each query first extends the cached
prefix and then reads it.  The fold below threads that hidden state
through a list of earlier queries. -/

/-- The cached delta-min prefix after a sequence of
`ExtrapolatingCurve::number_arrivals` queries: a query at `delta = 0`
leaves the cache untouched, any other query extrapolates to
`delta + 1` (arrival/curve.rs:327-338). -/
def ecArrivalState (md : List Nat) (queries : List Nat) : List Nat :=
  queries.foldl (fun s q => if q = 0 then s else curveExtrapolate s (q + 1)) md

/-- The value returned by `ExtrapolatingCurve::number_arrivals delta`
after the queries in `queries` have already been cached. -/
def ecArrivalQuery (md : List Nat) (queries : List Nat) (delta : Nat) : Nat :=
  if delta = 0 then 0
  else curveNumberArrivals (curveExtrapolate (ecArrivalState md queries) (delta + 1)) delta

/-- The cached cost prefix after a sequence of
`wcet::ExtrapolatingCurve::cost_of_jobs` queries: a query at `n`
extrapolates to `n + 1` (wcet/curve.rs:158-174). -/
def ecWcetState (w : List Nat) (queries : List Nat) : List Nat :=
  queries.foldl (fun s q => wcetExtrapolate s (q + 1)) w

/-- The value returned by `wcet::ExtrapolatingCurve::cost_of_jobs n`
after the queries in `queries` have already been cached. -/
def ecWcetQuery (w : List Nat) (queries : List Nat) (n : Nat) : Nat :=
  wcetCostOfJobs (wcetExtrapolate (ecWcetState w queries) (n + 1)) n

/-! ## FP fully-preemptive RTA (`fixed_priority/fully_preemptive.rs`)

`dedicated_uniproc_rta` instantiated, as in the test suite and claim C3,
with scalar WCETs and periodic (zero-jitter) arrivals: the interference
is a slice of RBFs, each pairing a scalar WCET `c` with periodic
arrivals of period `t`, so its `service_needed(delta)` is
`sum over (c, t) of c * ⌈delta / t⌉`. -/

/-- `RBF::service_needed` for a scalar WCET and periodic arrivals
(demand/rbf.rs:22-25): `cost_of_jobs(number_arrivals(delta))`. -/
def rbfPeriodicScalar (c t delta : Nat) : Nat :=
  scalarCostOfJobs c (periodicNumberArrivals t delta)

/-- `service_needed` of a slice of scalar-cost periodic-arrival RBFs
(demand/slice.rs / demand/aggregate.rs: the sum over components). -/
def sliceServiceNeeded (tasks : List (Nat × Nat)) (delta : Nat) : Nat :=
  (tasks.map (fun ct => rbfPeriodicScalar ct.1 ct.2 delta)).sum

/-- `fixed_priority::fully_preemptive::dedicated_uniproc_rta`
(fully_preemptive.rs:27-96) for a task under analysis with scalar WCET
`c` and periodic arrivals of period `t`, against interfering demand
`interference` (a list of `(WCET, period)` pairs).

Mirrors the source: (1) the busy-window bound `L` is a fixed-point
search on the dedicated supply for the total demand; (2) for each
offset `A` in the search space, a fixed-point search for `A + F` with
right-hand side `blocking + (tua.service_needed(A+1) - rem_cost) +
interference.service_needed(AF)` where `blocking = 0` and
`rem_cost = c - c = 0`, returning `F + rem_cost` with `F = AF - A`;
(3) the search space is `step_offsets(tua) = steps_iter().map(x - 1)`
truncated by `A < L` — the task's periodic steps are `j*t + 1`, so the
offsets are the multiples `j*t < L`, i.e. `j < ⌈L / t⌉`; (4) the
results are reduced by `max_response_time`. -/
def dedicatedUniprocRTA (interference : List (Nat × Nat)) (c t limit : Nat) : SearchResult :=
  match fpSearch dedicatedServiceTime limit
      (fun l => sliceServiceNeeded interference l + rbfPeriodicScalar c t l) with
  | .err f => .err f
  | .ok L =>
    let remCost := c - c
    let rta := fun A =>
      match fpSearch dedicatedServiceTime limit
          (fun af => 0 + (rbfPeriodicScalar c t (A + 1) - remCost)
            + sliceServiceNeeded interference af) with
      | .err f => .err f
      | .ok AF => .ok (AF - A + remCost)
    let searchSpace := (List.range (divideWithCeil L t)).map (fun j => j * t)
    maxResponseTime (searchSpace.map rta)

/-! ## Step iterators (`steps_iter`) -/

/-- The step-size vector of `Curve::steps_iter` (arrival/curve.rs:253-259):
the consecutive differences of `0 :: min_distance`, with zero
differences dropped. -/
def curveDiffs (md : List Nat) : List Nat :=
  (((0 :: md).zip md).map (fun p => p.2 - p.1)).filter (fun d => d ≠ 0)

/-- The values yielded by `Curve::steps_iter` (arrival/curve.rs:261-281):
starting from 1, the running sum cycles through the step sizes. -/
def curveStepsSeq (md : List Nat) : Nat → Nat
  | 0 => 1
  | k + 1 =>
    curveStepsSeq md k + (curveDiffs md).getD (k % (curveDiffs md).length) 0

/-- The per-period step profile of a delta-min curve: 0 at 0, else one
plus the number of stored distances strictly below the tail. -/
def curveStepFn (md : List Nat) (r : Nat) : Nat :=
  if r = 0 then 0 else md.countP (fun x => decide (x < r)) + 1

/-- One advance of the read positions of `itertools`' merge of two
sorted iterators followed by `dedup` (arrival/aggregated.rs:38): the
side holding the smaller current value advances; on a tie both advance,
since the deduped merge emits the shared value once. -/
def mergeAdvance (f g : Nat → Option Nat) (s : Nat × Nat) : Nat × Nat :=
  match f s.1, g s.2 with
  | none, none => s
  | some _, none => (s.1 + 1, s.2)
  | none, some _ => (s.1, s.2 + 1)
  | some a, some b =>
      if a < b then (s.1 + 1, s.2)
      else if b < a then (s.1, s.2 + 1)
      else (s.1 + 1, s.2 + 1)

/-- The merge's read positions after `k` emitted values. -/
def mergeState (f g : Nat → Option Nat) : Nat → Nat × Nat
  | 0 => (0, 0)
  | k + 1 => mergeAdvance f g (mergeState f g k)

/-- The `k`-th value emitted by the deduped merge of two sorted
iterators (arrival/aggregated.rs:38, and n-ary as `kmerge` at
arrival/aggregated.rs:14): the smaller of the two current values. -/
def mergeOut (f g : Nat → Option Nat) (k : Nat) : Option Nat :=
  match f (mergeState f g k).1, g (mergeState f g k).2 with
  | none, none => none
  | some a, none => some a
  | none, some b => some b
  | some a, some b => some (min a b)

/-- The scan performed lazily by the `filter` in
`Propagated::steps_iter` (arrival/propagated.rs:39-49): starting at
read position `i`, skip inner steps of value at most `jitter + 1`.
The steps of a well-formed inner model start at 1 and increase
strictly, so the value at index `i` is at least `i + 1` and the scan
halts within `jitter + 2` probes; the structural `fuel` renders
exactly those runs (an ill-formed inner iterator that repeats small
values forever would make the source's filter spin). -/
def skipScan (j : Nat) (f : Nat → Option Nat) : Nat → Nat → Nat
  | 0, i => i
  | fuel + 1, i =>
    match f i with
    | some x => if x ≤ j + 1 then skipScan j f fuel (i + 1) else i
    | none => i

/-- The read position of the first inner step exceeding `jitter + 1`. -/
def propagatedSkip (j : Nat) (f : Nat → Option Nat) : Nat :=
  skipScan j f (j + 2) 0

/-- One `advance` of `ExtrapolatingCurve::steps_iter`
(arrival/curve.rs:347-356): extend the cached prefix until the
`njobs` cursor reads a stored distance exceeding `dist`, and return
that distance.  The source advances the cursor one index at a time
over the sorted prefix, extrapolating as needed, so the distance it
stops at is the first stored value greater than `dist`; here that
value is read off by counting the stored values at most `dist`. -/
def ecDistNext (md : List Nat) (dist : Nat) : Nat :=
  (curveExtrapolate md (dist + 1)).getD
    ((curveExtrapolate md (dist + 1)).countP (fun x => decide (x ≤ dist))) 0

/-- The `dist` held by `ExtrapolatingCurve::steps_iter` after `k`
advances (arrival/curve.rs:358-366: the iterator yields `1 + dist`
and then advances). -/
def ecStepsDist (md : List Nat) : Nat → Nat
  | 0 => 0
  | k + 1 => ecDistNext md (ecStepsDist md k)

/-- `v` is one of the distances of the (unbounded, deterministic)
extension of the delta-min prefix `md` — the sequence the memoizing
`ExtrapolatingCurve` grows towards. -/
def ecIsVal (md : List Nat) (v : Nat) : Prop :=
  ∃ j, v ∈ curveExtendOnce^[j] md

/-- The arrival models whose efficient `steps_iter` is compared against
the brute-force step enumeration (claim C7): the standalone models
together with the jitter-propagated model, binary sums (the `Vec`/slice
`kmerge` instance is the n-ary iteration of the binary merge), and the
lazily extrapolating curve.  `Never`'s iterator is empty, so the
yielded values are `Option`s. -/
inductive StepModel where
  | periodic (period : Nat)
  | sporadic (minInterArrival jitter : Nat)
  | curve (md : List Nat)
  | never
  | propagated (jitter : Nat) (inner : StepModel)
  | sumOf (a b : StepModel)
  | extrapolating (md : List Nat)

/-- `number_arrivals` of a step model (`Propagated::number_arrivals`,
arrival/propagated.rs:30-37; `SumOf::number_arrivals`,
arrival/aggregated.rs:33-35; `ExtrapolatingCurve::number_arrivals`,
arrival/curve.rs:328-338). -/
def StepModel.numberArrivals : StepModel → Nat → Nat
  | .periodic t => periodicNumberArrivals t
  | .sporadic t j => sporadicNumberArrivals t j
  | .curve md => curveNumberArrivals md
  | .never => fun _ => 0
  | .propagated j inner => fun delta =>
      if 0 < delta then inner.numberArrivals (delta + j) else 0
  | .sumOf a b => fun delta => a.numberArrivals delta + b.numberArrivals delta
  | .extrapolating md => extrapolatingNumberArrivals md

/-- The `k`-th value yielded by the efficient `steps_iter` of each model.

* `Periodic` (arrival/periodic.rs:23-25): `(0..).map(|j| period * j + 1)`.
* `Sporadic` (arrival/sporadic.rs:51-59): `once(1)` followed by
  `(1..).filter(|j| j * T > J).map(|j| j * T + 1 - J)`; for `0 < T` the
  qualifying indices are exactly `j ≥ J / T + 1`, so the `k`-th filtered
  element (zero-based `k - 1`) is `j = J / T + k`.
* `Curve` (arrival/curve.rs:252-282): the cyclic running sum above.
* `Never` (arrival/never.rs:15-17): the empty iterator.
* `Propagated` (arrival/propagated.rs:39-49): `once(1)` chained with
  the inner steps filtered to those beyond `jitter + 1` and shifted
  earlier by `jitter`; on a strictly increasing inner iterator the
  filter drops exactly the read positions before `propagatedSkip`.
* `SumOf` (arrival/aggregated.rs:37-39): the deduped merge.
* `ExtrapolatingCurve` (arrival/curve.rs:340-381): `1 + dist` for the
  successive `dist`s of the advancing cursor; in the degenerate case
  of a single stored distance, the periodic process it implies. -/
def StepModel.steps : StepModel → Nat → Option Nat
  | .periodic t => fun k => some (t * k + 1)
  | .sporadic t j => fun k =>
      if k = 0 then some 1 else some (t * (j / t + k) + 1 - j)
  | .curve md => fun k => some (curveStepsSeq md k)
  | .never => fun _ => none
  | .propagated j inner => fun k =>
      if k = 0 then some 1
      else
        match inner.steps (k - 1 + propagatedSkip j inner.steps) with
        | some x => some (x - j)
        | none => none
  | .sumOf a b => mergeOut a.steps b.steps
  | .extrapolating md => fun k =>
      if 2 ≤ md.length then some (1 + ecStepsDist md k)
      else some (md.headD 0 * k + 1)

/-- Well-formedness for the step-iterator comparison: positive periods;
for a delta-min `Curve` the conditions of `AModel.WF` plus uniqueness
of the largest stored distance (it occurs exactly once in the prefix) —
the amended hypothesis forced by the counterexample `[2, 5, 5]`; for
`Propagated` a well-formed inner model that bounds at least one arrival
in a window of length `1 + jitter` — the amended hypothesis forced by
the counterexample `Propagated(Never)`, whose iterator yields 1 even
though its arrival bound never steps; for the lazily extrapolating
curve the conditions of `AModel.WF` (no uniqueness needed: its
iterator reads distinct stored distances rather than cycling through
differences). -/
def StepModel.WF : StepModel → Prop
  | .periodic t => 0 < t
  | .sporadic t _ => 0 < t
  | .curve md =>
      md ≠ [] ∧ List.Chain (· ≤ ·) 0 md ∧ 0 < md.getLastD 0 ∧
        md.count (md.getLastD 0) = 1
  | .never => True
  | .propagated j inner => inner.WF ∧ 0 < inner.numberArrivals (1 + j)
  | .sumOf a b => a.WF ∧ b.WF
  | .extrapolating md =>
      md ≠ [] ∧ List.Chain (· ≤ ·) 0 md ∧ 0 < md.getLastD 0

/-- The well-behavedness of a step iterator's output stream: values
exceed their index (they start at 1 and increase), an exhausted
iterator stays exhausted, and yielded values increase strictly. -/
def StreamOK (f : Nat → Option Nat) : Prop :=
  (∀ k x, f k = some x → k + 1 ≤ x)
    ∧ (∀ k, f k = none → f (k + 1) = none)
    ∧ (∀ k1 k2 x1 x2, k1 < k2 → f k1 = some x1 → f k2 = some x2 → x1 < x2)

/-! ## Further definitions used by the verification -/

/-- The specification's formula for the periodic supply-bound function
(spec section 4.4): `0` when `Δ ≤ σ`, else `q·B + max(0, Δ − x)` with
`q = ⌊(Δ − σ)/T⌋` and `x = 2σ + q·T`.  On `Nat`, `max(0, a − b)` is the
truncated difference. -/
def specPeriodicProvided (budget period delta : Nat) : Nat :=
  let sigma := period - budget
  if delta ≤ sigma then 0
  else
    let q := (delta - sigma) / period
    let x := 2 * sigma + q * period
    q * budget + (delta - x)

/-- The specification's formula for the periodic `service_time`
(spec section 4.4): zero when `S = 0`, else `σ + q·T + (σ + r if r > 0
else 0)` with `q = ⌊S/B⌋` and `r = S − q·B`. -/
def specPeriodicServiceTime (budget period s : Nat) : Nat :=
  if s = 0 then 0
  else
    let sigma := period - budget
    let q := s / budget
    let r := s - q * budget
    sigma + q * period + (if 0 < r then sigma + r else 0)

/-- The brute-force step enumeration
(`ArrivalBound::brute_force_steps_iter`, arrival/mod.rs:39-48),
restricted to a bounded window: every `Δ ≥ 1` up to `bound` at which
`number_arrivals` increases. -/
def bruteForceStepsUpTo (na : Nat → Nat) (bound : Nat) : List Nat :=
  (List.range (bound + 1)).filter (fun d => 0 < d ∧ na (d - 1) < na d)

/-- The nonzero consecutive differences of a list relative to a base
value: a recursive rendering of `curveDiffs` used for reasoning. -/
def nzdRel (b : Nat) : List Nat → List Nat
  | [] => []
  | x :: xs => if x - b = 0 then nzdRel x xs else (x - b) :: nzdRel x xs

/-- The demand model of the underflow scenario for claim C10: an RBF
pairing the delta-min curve `[1, 10]` with a scalar WCET of 1
(so `service_needed = number_arrivals`). -/
def c10TuaServiceNeeded (delta : Nat) : Nat :=
  scalarCostOfJobs 1 (curveNumberArrivals [1, 10] delta)

/-- The interfering demand of the underflow scenario for claim C10:
a scalar WCET of 4 with periodic arrivals of period 5. -/
def c10Interference (delta : Nat) : Nat :=
  rbfPeriodicScalar 4 5 delta

/-- The busy-window right-hand side of the C10 scenario: everybody's
demand (`bw_demand_bound` as set up by the callers of
`bound_response_time`). -/
def c10BusyWindowRhs (delta : Nat) : Nat :=
  c10TuaServiceNeeded delta + c10Interference delta

/-- The per-offset right-hand side of the C10 scenario
(`offset_demand_bound A delta`): the demand of the task under analysis
through offset `A` (its RBF queried at `A + ε`) plus the interfering
demand over `delta`. -/
def c10OffsetDemandBound (A delta : Nat) : Nat :=
  c10TuaServiceNeeded (A + 1) + c10Interference delta

/-- Whether a search result is a divergence failure. -/
def rtIsErr : SearchResult → Bool
  | .err _ => true
  | .ok _ => false

/-- The bound contained in an `Ok` result (0 for failures). -/
def rtVal : SearchResult → Nat
  | .ok v => v
  | .err _ => 0

/-! ## Arithmetic of the supply models -/

/-- Closed form of `Periodic::service_time` for positive demand:
with `q = S / B` and `r = S % B`, the result is `σ + T·q`, plus
`σ + r` if the residual `r` is positive. -/
lemma periodicServiceTime_eq (B T S : Nat) (hB : 0 < B) (hS : 0 < S) :
    periodicServiceTime B T S =
      if S % B = 0 then (T - B) + T * (S / B)
      else (T - B) + T * (S / B) + ((T - B) + S % B) := by
  have h1 := Nat.div_add_mod S B
  simp only [periodicServiceTime]
  rw [if_neg (by omega)]
  by_cases hr : S % B = 0
  · rw [if_neg (by omega), if_pos hr]
    omega
  · rw [if_pos (by omega), if_neg hr]
    omega

/-- Closed form of `Periodic::provided_service` beyond the slack: with
`q = (Δ - σ) / T` and `r = (Δ - σ) % T`, the result is
`B·q + (r - σ)` (truncated subtraction). -/
lemma periodicProvidedService_eq (B T Δ : Nat) (hBT : B ≤ T) (hΔ : T - B ≤ Δ) :
    periodicProvidedService B T Δ =
      B * ((Δ - (T - B)) / T) + ((Δ - (T - B)) % T - (T - B)) := by
  have h1 := Nat.div_add_mod (Δ - (T - B)) T
  simp only [periodicProvidedService]
  rw [if_neg (by omega)]
  by_cases hx : (T - B) + (T - B) + T * ((Δ - (T - B)) / T) < Δ
  · rw [if_pos hx]; omega
  · rw [if_neg hx]; omega

/-- Closed form of `Constrained::service_time` for positive demand. -/
lemma constrainedServiceTime_eq (B D T S : Nat) (hB : 0 < B) (hS : 0 < S) :
    constrainedServiceTime B D T S =
      if S % B = 0 then (D - B) + T * (S / B)
      else (D - B) + T * (S / B) + (S % B + T - B) := by
  have h1 := Nat.div_add_mod S B
  simp only [constrainedServiceTime]
  rw [if_neg (by omega)]
  by_cases hr : S % B = 0
  · rw [if_neg (by omega), if_pos hr]
    omega
  · rw [if_pos (by omega), if_neg hr]
    omega

/-- Closed form of `Constrained::provided_service` beyond the shift:
with `q = (Δ - shift) / T` and `r = (Δ - shift) % T`, the result is
`B·q + min B (r - (D - B))` (truncated subtraction). -/
lemma constrainedProvidedService_eq (B D T Δ : Nat) (hBD : B ≤ D) (hDT : D ≤ T)
    (hΔ : T - B ≤ Δ) :
    constrainedProvidedService B D T Δ =
      B * ((Δ - (T - B)) / T) + min B ((Δ - (T - B)) % T - (D - B)) := by
  have h1 := Nat.div_add_mod (Δ - (T - B)) T
  simp only [constrainedProvidedService]
  rw [if_neg (by omega)]
  by_cases hx : (T - B) + T * ((Δ - (T - B)) / T) + D - B < Δ
  · rw [if_pos hx]
    have h3 : Δ - ((T - B) + T * ((Δ - (T - B)) / T) + D - B)
        = (Δ - (T - B)) % T - (D - B) := by omega
    rw [h3]
  · rw [if_neg hx]
    have h3 : (Δ - (T - B)) % T - (D - B) = 0 := by omega
    rw [h3]
    simp

/-- `Periodic::provided_service` is monotone (in the interval length). -/
lemma periodicProvidedService_mono (B T : Nat) (hBT : B ≤ T) (hT : 0 < T) :
    Monotone (periodicProvidedService B T) := by
  apply monotone_nat_of_le_succ
  intro Δ
  by_cases h0 : Δ < T - B
  · simp only [periodicProvidedService]
    rw [if_pos h0]
    exact Nat.zero_le _
  · rw [periodicProvidedService_eq B T Δ hBT (by omega),
      periodicProvidedService_eq B T (Δ + 1) hBT (by omega)]
    have h1 := Nat.div_add_mod (Δ - (T - B)) T
    have hrT := Nat.mod_lt (Δ - (T - B)) hT
    by_cases hc : (Δ - (T - B)) % T + 1 < T
    · have he : Δ + 1 - (T - B) = T * ((Δ - (T - B)) / T) + ((Δ - (T - B)) % T + 1) := by
        omega
      rw [he, Nat.mul_add_div hT, Nat.mul_add_mod,
        Nat.div_eq_of_lt hc, Nat.mod_eq_of_lt hc, Nat.add_zero]
      omega
    · have he : Δ + 1 - (T - B) = T * ((Δ - (T - B)) / T) + T := by omega
      rw [he, Nat.mul_add_div hT, Nat.mul_add_mod, Nat.div_self hT, Nat.mod_self]
      have hb : B * ((Δ - (T - B)) / T + 1) = B * ((Δ - (T - B)) / T) + B := by ring
      rw [hb]
      omega

/-- `Constrained::provided_service` is monotone (in the interval length). -/
lemma constrainedProvidedService_mono (B D T : Nat) (hBD : B ≤ D) (hDT : D ≤ T)
    (hT : 0 < T) : Monotone (constrainedProvidedService B D T) := by
  apply monotone_nat_of_le_succ
  intro Δ
  by_cases h0 : Δ < T - B
  · simp only [constrainedProvidedService]
    rw [if_pos h0]
    exact Nat.zero_le _
  · rw [constrainedProvidedService_eq B D T Δ hBD hDT (by omega),
      constrainedProvidedService_eq B D T (Δ + 1) hBD hDT (by omega)]
    have h1 := Nat.div_add_mod (Δ - (T - B)) T
    have hrT := Nat.mod_lt (Δ - (T - B)) hT
    by_cases hc : (Δ - (T - B)) % T + 1 < T
    · have he : Δ + 1 - (T - B) = T * ((Δ - (T - B)) / T) + ((Δ - (T - B)) % T + 1) := by
        omega
      rw [he, Nat.mul_add_div hT, Nat.mul_add_mod,
        Nat.div_eq_of_lt hc, Nat.mod_eq_of_lt hc, Nat.add_zero]
      have hm : min B ((Δ - (T - B)) % T - (D - B))
          ≤ min B ((Δ - (T - B)) % T + 1 - (D - B)) := by omega
      omega
    · have he : Δ + 1 - (T - B) = T * ((Δ - (T - B)) / T) + T := by omega
      rw [he, Nat.mul_add_div hT, Nat.mul_add_mod, Nat.div_self hT, Nat.mod_self]
      have hb : B * ((Δ - (T - B)) / T + 1) = B * ((Δ - (T - B)) / T) + B := by ring
      rw [hb]
      have hm : min B ((Δ - (T - B)) % T - (D - B)) ≤ B := by omega
      omega

/-- `SupplyBound::provided_service` is monotone for every well-formed
supply model. -/
lemma providedService_mono (s : SupplyModel) (h : s.WF) :
    Monotone s.providedService := by
  cases s with
  | dedicated => exact fun a b hab => hab
  | periodic B T =>
    exact periodicProvidedService_mono B T h.2 (Nat.lt_of_lt_of_le h.1 h.2)
  | constrained B D T =>
    obtain ⟨hb, hbd, hdt⟩ := h
    exact constrainedProvidedService_mono B D T hbd hdt (by omega)

/-- Quotient and remainder of an explicitly decomposed dividend. -/
lemma div_mod_of_decomp (T a b x : Nat) (hT : 0 < T) (hb : b < T)
    (hx : x = T * a + b) : x / T = a ∧ x % T = b := by
  subst hx
  rw [Nat.mul_add_div hT, Nat.mul_add_mod, Nat.div_eq_of_lt hb, Nat.mod_eq_of_lt hb,
    Nat.add_zero]
  exact ⟨rfl, rfl⟩

/-- Closed form of `Periodic::service_time` on a decomposed demand
`S = B·q + r` with `r < B`. -/
lemma periodicServiceTime_decomp (B T q r : Nat) (hB : 0 < B) (hr : r < B)
    (hpos : 0 < B * q + r) :
    periodicServiceTime B T (B * q + r) =
      if r = 0 then (T - B) + T * q
      else (T - B) + T * q + ((T - B) + r) := by
  obtain ⟨hdiv, hmod⟩ := div_mod_of_decomp B q r (B * q + r) hB hr rfl
  rw [periodicServiceTime_eq B T _ hB hpos, hdiv, hmod]

/-- Closed form of `Constrained::service_time` on a decomposed demand
`S = B·q + r` with `r < B`. -/
lemma constrainedServiceTime_decomp (B D T q r : Nat) (hB : 0 < B) (hr : r < B)
    (hpos : 0 < B * q + r) :
    constrainedServiceTime B D T (B * q + r) =
      if r = 0 then (D - B) + T * q
      else (D - B) + T * q + (r + T - B) := by
  obtain ⟨hdiv, hmod⟩ := div_mod_of_decomp B q r (B * q + r) hB hr rfl
  rw [constrainedServiceTime_eq B D T _ hB hpos, hdiv, hmod]

/-- Closed form of `Periodic::provided_service` on a decomposed
interval `Δ = (T - B) + T·q + r` with `r < T`. -/
lemma periodicProvidedService_decomp (B T q r : Nat) (hBT : B ≤ T) (hr : r < T) :
    periodicProvidedService B T ((T - B) + T * q + r) = B * q + (r - (T - B)) := by
  have hT : 0 < T := by omega
  obtain ⟨hdiv, hmod⟩ :=
    div_mod_of_decomp T q r ((T - B) + T * q + r - (T - B)) hT hr (by omega)
  rw [periodicProvidedService_eq B T _ hBT (by omega), hdiv, hmod]

/-- Closed form of `Constrained::provided_service` on a decomposed
interval `Δ = (T - B) + T·q + r` with `r < T`. -/
lemma constrainedProvidedService_decomp (B D T q r : Nat) (hBD : B ≤ D) (hDT : D ≤ T)
    (hr : r < T) :
    constrainedProvidedService B D T ((T - B) + T * q + r)
      = B * q + min B (r - (D - B)) := by
  have hT : 0 < T := by omega
  obtain ⟨hdiv, hmod⟩ :=
    div_mod_of_decomp T q r ((T - B) + T * q + r - (T - B)) hT hr (by omega)
  rw [constrainedProvidedService_eq B D T _ hBD hDT (by omega), hdiv, hmod]

/-- `Periodic::provided_service` vanishes on the empty interval. -/
lemma periodicProvidedService_zero (B T : Nat) (hBT : B ≤ T) (hT : 0 < T) :
    periodicProvidedService B T 0 = 0 := by
  by_cases h : 0 < T - B
  · simp only [periodicProvidedService]
    rw [if_pos h]
  · have h0 : periodicProvidedService B T 0
        = periodicProvidedService B T ((T - B) + T * 0 + 0) := by
      rw [show (T - B) + T * 0 + 0 = 0 from by omega]
    rw [h0, periodicProvidedService_decomp B T 0 0 hBT hT]
    simp

/-- `Constrained::provided_service` vanishes on the empty interval. -/
lemma constrainedProvidedService_zero (B D T : Nat) (hBD : B ≤ D) (hDT : D ≤ T)
    (hT : 0 < T) : constrainedProvidedService B D T 0 = 0 := by
  by_cases h : 0 < T - B
  · simp only [constrainedProvidedService]
    rw [if_pos h]
  · have h0 : constrainedProvidedService B D T 0
        = constrainedProvidedService B D T ((T - B) + T * 0 + 0) := by
      rw [show (T - B) + T * 0 + 0 = 0 from by omega]
    rw [h0, constrainedProvidedService_decomp B D T 0 0 hBD hDT hT]
    simp

/-- `Periodic::service_time` is monotone (in the demanded service). -/
lemma periodicServiceTime_mono (B T : Nat) (hB : 0 < B) (hBT : B ≤ T) :
    Monotone (periodicServiceTime B T) := by
  apply monotone_nat_of_le_succ
  intro S
  obtain ⟨q, r, hS, hr⟩ : ∃ q r, S = B * q + r ∧ r < B :=
    ⟨S / B, S % B, (Nat.div_add_mod S B).symm, Nat.mod_lt _ hB⟩
  subst hS
  by_cases hc : r + 1 < B
  · have h2 : B * q + r + 1 = B * q + (r + 1) := by omega
    rw [h2, periodicServiceTime_decomp B T q (r + 1) hB hc (by omega),
      if_neg (by omega : ¬(r + 1 = 0))]
    rcases Nat.eq_zero_or_pos (B * q + r) with h0 | h0
    · rw [h0]
      simp [periodicServiceTime]
    · rw [periodicServiceTime_decomp B T q r hB hr h0]
      split_ifs <;> omega
  · have hexpB : B * (q + 1) = B * q + B := by ring
    have hexpT : T * (q + 1) = T * q + T := by ring
    have h2 : B * q + r + 1 = B * (q + 1) + 0 := by omega
    rw [h2, periodicServiceTime_decomp B T (q + 1) 0 hB hB (by omega), if_pos rfl]
    rcases Nat.eq_zero_or_pos (B * q + r) with h0 | h0
    · rw [h0]
      simp [periodicServiceTime]
    · rw [periodicServiceTime_decomp B T q r hB hr h0]
      split_ifs <;> omega

/-- `Constrained::service_time` is monotone (in the demanded service). -/
lemma constrainedServiceTime_mono (B D T : Nat) (hB : 0 < B) (hBD : B ≤ D)
    (hDT : D ≤ T) : Monotone (constrainedServiceTime B D T) := by
  apply monotone_nat_of_le_succ
  intro S
  obtain ⟨q, r, hS, hr⟩ : ∃ q r, S = B * q + r ∧ r < B :=
    ⟨S / B, S % B, (Nat.div_add_mod S B).symm, Nat.mod_lt _ hB⟩
  subst hS
  by_cases hc : r + 1 < B
  · have h2 : B * q + r + 1 = B * q + (r + 1) := by omega
    rw [h2, constrainedServiceTime_decomp B D T q (r + 1) hB hc (by omega),
      if_neg (by omega : ¬(r + 1 = 0))]
    rcases Nat.eq_zero_or_pos (B * q + r) with h0 | h0
    · rw [h0]
      simp [constrainedServiceTime]
    · rw [constrainedServiceTime_decomp B D T q r hB hr h0]
      split_ifs <;> omega
  · have hexpB : B * (q + 1) = B * q + B := by ring
    have hexpT : T * (q + 1) = T * q + T := by ring
    have h2 : B * q + r + 1 = B * (q + 1) + 0 := by omega
    rw [h2, constrainedServiceTime_decomp B D T (q + 1) 0 hB hB (by omega), if_pos rfl]
    rcases Nat.eq_zero_or_pos (B * q + r) with h0 | h0
    · rw [h0]
      simp [constrainedServiceTime]
    · rw [constrainedServiceTime_decomp B D T q r hB hr h0]
      split_ifs <;> omega

/-- `SupplyBound::service_time` is monotone for every well-formed
supply model. -/
lemma serviceTime_mono (s : SupplyModel) (h : s.WF) : Monotone s.serviceTime := by
  cases s with
  | dedicated => exact fun a b hab => hab
  | periodic B T =>
    obtain ⟨hb, hbt⟩ := h
    exact periodicServiceTime_mono B T hb hbt
  | constrained B D T =>
    obtain ⟨hb, hbd, hdt⟩ := h
    exact constrainedServiceTime_mono B D T hb hbd hdt

/-- Exact inversion for `Periodic`: the demanded service is provided in
full, and exactly, at the service time. -/
lemma periodic_inverse_exact (B T S : Nat) (hB : 0 < B) (hBT : B ≤ T) :
    periodicProvidedService B T (periodicServiceTime B T S) = S := by
  have hT : 0 < T := by omega
  obtain ⟨q, r, hS, hr⟩ : ∃ q r, S = B * q + r ∧ r < B :=
    ⟨S / B, S % B, (Nat.div_add_mod S B).symm, Nat.mod_lt _ hB⟩
  subst hS
  rcases Nat.eq_zero_or_pos (B * q + r) with h0 | h0
  · rw [h0]
    show periodicProvidedService B T (periodicServiceTime B T 0) = 0
    rw [show periodicServiceTime B T 0 = 0 from by simp [periodicServiceTime]]
    exact periodicProvidedService_zero B T hBT hT
  · rw [periodicServiceTime_decomp B T q r hB hr h0]
    by_cases hr0 : r = 0
    · rw [if_pos hr0]
      have harg : (T - B) + T * q = (T - B) + T * q + 0 := by omega
      rw [harg, periodicProvidedService_decomp B T q 0 hBT hT]
      omega
    · rw [if_neg hr0]
      rw [periodicProvidedService_decomp B T q ((T - B) + r) hBT (by omega)]
      omega

/-- Exact inversion, one instant earlier, for `Periodic`: one time unit
before the service time, exactly `S - 1` units have been provided. -/
lemma periodic_inverse_pred (B T S : Nat) (hB : 0 < B) (hBT : B ≤ T) (hS : 0 < S) :
    periodicProvidedService B T (periodicServiceTime B T S - 1) = S - 1 := by
  have hT : 0 < T := by omega
  obtain ⟨q, r, hS2, hr⟩ : ∃ q r, S = B * q + r ∧ r < B :=
    ⟨S / B, S % B, (Nat.div_add_mod S B).symm, Nat.mod_lt _ hB⟩
  subst hS2
  rw [periodicServiceTime_decomp B T q r hB hr hS]
  by_cases hr0 : r = 0
  · subst hr0
    obtain ⟨p, hp⟩ : ∃ p, q = p + 1 := by
      rcases Nat.eq_zero_or_pos q with h | h
      · subst h; omega
      · exact ⟨q - 1, by omega⟩
    subst hp
    have hexpT : T * (p + 1) = T * p + T := by ring
    have hexpB : B * (p + 1) = B * p + B := by ring
    rw [if_pos rfl]
    have harg : (T - B) + T * (p + 1) - 1 = (T - B) + T * p + (T - 1) := by omega
    rw [harg, periodicProvidedService_decomp B T p (T - 1) hBT (by omega)]
    omega
  · rw [if_neg hr0]
    have harg : (T - B) + T * q + ((T - B) + r) - 1
        = (T - B) + T * q + ((T - B) + r - 1) := by omega
    rw [harg, periodicProvidedService_decomp B T q ((T - B) + r - 1) hBT (by omega)]
    omega

/-- Exact inversion for `Constrained`. -/
lemma constrained_inverse_exact (B D T S : Nat) (hB : 0 < B) (hBD : B ≤ D)
    (hDT : D ≤ T) :
    constrainedProvidedService B D T (constrainedServiceTime B D T S) = S := by
  have hT : 0 < T := by omega
  obtain ⟨q, r, hS, hr⟩ : ∃ q r, S = B * q + r ∧ r < B :=
    ⟨S / B, S % B, (Nat.div_add_mod S B).symm, Nat.mod_lt _ hB⟩
  subst hS
  rcases Nat.eq_zero_or_pos (B * q + r) with h0 | h0
  · rw [h0]
    show constrainedProvidedService B D T (constrainedServiceTime B D T 0) = 0
    rw [show constrainedServiceTime B D T 0 = 0 from by simp [constrainedServiceTime]]
    exact constrainedProvidedService_zero B D T hBD hDT hT
  · rw [constrainedServiceTime_decomp B D T q r hB hr h0]
    by_cases hr0 : r = 0
    · rw [if_pos hr0]
      obtain ⟨p, hp⟩ : ∃ p, q = p + 1 := by
        rcases Nat.eq_zero_or_pos q with h | h
        · subst h; omega
        · exact ⟨q - 1, by omega⟩
      subst hp
      have hexpT : T * (p + 1) = T * p + T := by ring
      have hexpB : B * (p + 1) = B * p + B := by ring
      by_cases hDTeq : D < T
      · have harg : (D - B) + T * (p + 1) = (T - B) + T * p + D := by omega
        rw [harg, constrainedProvidedService_decomp B D T p D hBD hDT hDTeq]
        have hm : min B (D - (D - B)) = B := by omega
        omega
      · have harg : (D - B) + T * (p + 1) = (T - B) + T * (p + 1) + 0 := by omega
        rw [harg, constrainedProvidedService_decomp B D T (p + 1) 0 hBD hDT hT]
        have hm : min B (0 - (D - B)) = 0 := by omega
        omega
    · rw [if_neg hr0]
      have harg : (D - B) + T * q + (r + T - B) = (T - B) + T * q + ((D - B) + r) := by
        omega
      rw [harg, constrainedProvidedService_decomp B D T q ((D - B) + r) hBD hDT (by omega)]
      have hm : min B ((D - B) + r - (D - B)) = r := by omega
      omega

/-- Exact inversion, one instant earlier, for `Constrained`. -/
lemma constrained_inverse_pred (B D T S : Nat) (hB : 0 < B) (hBD : B ≤ D)
    (hDT : D ≤ T) (hS : 0 < S) :
    constrainedProvidedService B D T (constrainedServiceTime B D T S - 1) = S - 1 := by
  have hT : 0 < T := by omega
  obtain ⟨q, r, hS2, hr⟩ : ∃ q r, S = B * q + r ∧ r < B :=
    ⟨S / B, S % B, (Nat.div_add_mod S B).symm, Nat.mod_lt _ hB⟩
  subst hS2
  rw [constrainedServiceTime_decomp B D T q r hB hr hS]
  by_cases hr0 : r = 0
  · subst hr0
    obtain ⟨p, hp⟩ : ∃ p, q = p + 1 := by
      rcases Nat.eq_zero_or_pos q with h | h
      · subst h; omega
      · exact ⟨q - 1, by omega⟩
    subst hp
    have hexpT : T * (p + 1) = T * p + T := by ring
    have hexpB : B * (p + 1) = B * p + B := by ring
    rw [if_pos rfl]
    have harg : (D - B) + T * (p + 1) - 1 = (T - B) + T * p + (D - 1) := by omega
    rw [harg, constrainedProvidedService_decomp B D T p (D - 1) hBD hDT (by omega)]
    have hm : min B (D - 1 - (D - B)) = B - 1 := by omega
    omega
  · rw [if_neg hr0]
    have harg : (D - B) + T * q + (r + T - B) - 1
        = (T - B) + T * q + ((D - B) + r - 1) := by omega
    rw [harg, constrainedProvidedService_decomp B D T q ((D - B) + r - 1) hBD hDT (by omega)]
    have hm : min B ((D - B) + r - 1 - (D - B)) = r - 1 := by omega
    omega

/-- Exact inversion for every well-formed supply model:
`provided_service (service_time S) = S`. -/
lemma supply_inverse_exact (s : SupplyModel) (h : s.WF) (S : Nat) :
    s.providedService (s.serviceTime S) = S := by
  cases s with
  | dedicated => rfl
  | periodic B T =>
    obtain ⟨hb, hbt⟩ := h
    exact periodic_inverse_exact B T S hb hbt
  | constrained B D T =>
    obtain ⟨hb, hbd, hdt⟩ := h
    exact constrained_inverse_exact B D T S hb hbd hdt

/-- Exact inversion, one instant earlier, for every well-formed supply
model and positive demand. -/
lemma supply_inverse_pred (s : SupplyModel) (h : s.WF) (S : Nat) (hS : 0 < S) :
    s.providedService (s.serviceTime S - 1) = S - 1 := by
  cases s with
  | dedicated => rfl
  | periodic B T =>
    obtain ⟨hb, hbt⟩ := h
    exact periodic_inverse_pred B T S hb hbt hS
  | constrained B D T =>
    obtain ⟨hb, hbd, hdt⟩ := h
    exact constrained_inverse_pred B D T S hb hbd hdt hS

/-! ## Behaviour of the fixed-point search -/

/-- If the loop of `search_with_offset` converges, and the current
iterate is either the initial `1` or the image of a smaller iterate,
then for a monotone iteration map the returned value is an exact fixed
point.  (From the invariant `f p = R` with `p < R`, monotonicity forces
`R ≤ f R`, so convergence `f R ≤ R` pins `f R = R`.) -/
lemma searchLoop_ok_fix (f : Nat → Nat) (hf : Monotone f) (A L : Nat) :
    ∀ fuel R r, (R ≤ 1 ∨ ∃ p, p < R ∧ f p = R) →
      searchLoop f A L fuel R = .ok r → f r = r := by
  intro fuel
  induction fuel with
  | zero =>
    intro R r _ h
    simp [searchLoop] at h
  | succ fu ih =>
    intro R r hinv h
    simp only [searchLoop] at h
    by_cases hL : R ≤ L
    · rw [if_pos hL] at h
      by_cases hc : f R ≤ R
      · rw [if_pos hc] at h
        have hr : r = f R := by
          cases h
          rfl
        subst hr
        rcases hinv with h1 | ⟨p, hp, hfp⟩
        · rcases Nat.lt_or_ge (f R) R with hlt | hge
          · -- then f R < R ≤ 1, so f R = 0 and R = 1; f 0 ≤ f 1 = 0
            have hR1 : R = 1 := by omega
            have hfR0 : f R = 0 := by omega
            have := hf (Nat.zero_le R)
            rw [hfR0]
            omega
          · have : f R = R := by omega
            rw [this]
            exact this
        · have : R ≤ f R := by
            have := hf (Nat.le_of_lt hp)
            omega
          have hfix : f R = R := by omega
          rw [hfix]
          exact hfix
      · rw [if_neg hc] at h
        exact ih (f R) r (Or.inr ⟨R, by omega, rfl⟩) h
    · rw [if_neg hL] at h
      cases h

/-- Trace of the loop of `search_with_offset`: starting from the `m`-th
iterate, if the next `d` iterates stay within the limit and strictly
increase, and at index `m + d` the loop first terminates (by exceeding
the limit or by converging), the result is as the source computes it.
The limit check precedes the convergence check, exactly as in the
source's `while` loop. -/
lemma searchLoop_trace (f : Nat → Nat) (A L : Nat) :
    ∀ d fuel m,
      (∀ j, j < m + d → iterSeq f j ≤ L ∧ iterSeq f j < iterSeq f (j + 1)) →
      (∀ j, j < m → iterSeq f j ≤ L ∧ iterSeq f j < iterSeq f (j + 1)) →
      (L < iterSeq f (m + d) ∨ iterSeq f (m + d + 1) ≤ iterSeq f (m + d)) →
      d < fuel →
      searchLoop f A L fuel (iterSeq f m) =
        if L < iterSeq f (m + d) then SearchResult.err ⟨A, L⟩
        else SearchResult.ok (iterSeq f (m + d + 1)) := by
  intro d
  induction d with
  | zero =>
    intro fuel m hmin _ hk hfuel
    obtain ⟨fu, rfl⟩ : ∃ fu, fuel = fu + 1 := ⟨fuel - 1, by omega⟩
    simp only [Nat.add_zero] at hk ⊢
    simp only [searchLoop]
    by_cases hL : L < iterSeq f m
    · rw [if_neg (by omega), if_pos hL]
    · rw [if_pos (by omega : iterSeq f m ≤ L)]
      have hc : iterSeq f (m + 1) ≤ iterSeq f m := by
        rcases hk with h | h
        · omega
        · exact h
      have hfm : f (iterSeq f m) = iterSeq f (m + 1) := rfl
      rw [hfm, if_pos hc, if_neg hL]
  | succ d ih =>
    intro fuel m hmin hlow hk hfuel
    obtain ⟨fu, rfl⟩ : ∃ fu, fuel = fu + 1 := ⟨fuel - 1, by omega⟩
    have hm := hmin m (by omega)
    simp only [searchLoop]
    rw [if_pos hm.1]
    have hfm : f (iterSeq f m) = iterSeq f (m + 1) := rfl
    rw [hfm]
    rw [if_neg (by have := hm.2; omega)]
    have hres := ih fu (m + 1)
      (by intro j hj; exact hmin j (by omega))
      (by intro j hj; exact hmin j (by omega))
      (by have : m + 1 + d = m + (d + 1) := by omega
          rw [this]
          exact hk)
      (by omega)
    have heq : m + 1 + d = m + (d + 1) := by omega
    rw [heq] at hres
    exact hres

/-- From the very start (`R₀ = 1`, fuel `L + 1`): the full
characterization of `search_with_offset` in terms of its iteration
sequence. -/
lemma searchWithOffset_eq_of_trace (st rhs : Nat → Nat) (A L k : Nat)
    (hmin : ∀ j, j < k →
      iterSeq (fun R => st (rhs R) - A) j ≤ L ∧
        iterSeq (fun R => st (rhs R) - A) j < iterSeq (fun R => st (rhs R) - A) (j + 1))
    (hk : L < iterSeq (fun R => st (rhs R) - A) k ∨
      iterSeq (fun R => st (rhs R) - A) (k + 1) ≤ iterSeq (fun R => st (rhs R) - A) k) :
    searchWithOffset st A L rhs =
      if L < iterSeq (fun R => st (rhs R) - A) k then SearchResult.err ⟨A, L⟩
      else SearchResult.ok (iterSeq (fun R => st (rhs R) - A) (k + 1)) := by
  have hgrow : ∀ j, j ≤ k → j + 1 ≤ iterSeq (fun R => st (rhs R) - A) j := by
    intro j hj
    induction j with
    | zero => simp [iterSeq]
    | succ i ihi =>
      have h1 := ihi (by omega)
      have h2 := (hmin i (by omega)).2
      omega
  have hkL : k ≤ L := by
    rcases Nat.eq_zero_or_pos k with h | h
    · omega
    · have h1 := hmin (k - 1) (by omega)
      have h2 := hgrow (k - 1) (by omega)
      omega
  have := searchLoop_trace (fun R => st (rhs R) - A) A L k (L + 1) 0
    (by intro j hj; exact hmin j (by omega))
    (by intro j hj; omega)
    (by simpa using hk)
    (by omega)
  simpa [searchWithOffset, iterSeq] using this

/-- The source `Periodic::provided_service` agrees with the
specification's formula. -/
lemma specPeriodicProvided_agrees (B T Δ : Nat) (hB : 0 < B) (hBT : B ≤ T) :
    periodicProvidedService B T Δ = specPeriodicProvided B T Δ := by
  simp only [periodicProvidedService, specPeriodicProvided]
  by_cases h1 : Δ < T - B
  · rw [if_pos h1, if_pos (by omega)]
  · rw [if_neg h1]
    by_cases h2 : Δ ≤ T - B
    · rw [if_pos h2]
      have h3 : Δ - (T - B) = 0 := by omega
      rw [h3]
      simp
      omega
    · rw [if_neg h2]
      have hbq : B * ((Δ - (T - B)) / T) = ((Δ - (T - B)) / T) * B :=
        Nat.mul_comm _ _
      have htq : T * ((Δ - (T - B)) / T) = ((Δ - (T - B)) / T) * T :=
        Nat.mul_comm _ _
      split_ifs <;> omega

/-- The source `Periodic::service_time` agrees with the specification's
formula. -/
lemma specPeriodicServiceTime_agrees (B T S : Nat) (hB : 0 < B) (hBT : B ≤ T) :
    periodicServiceTime B T S = specPeriodicServiceTime B T S := by
  simp only [periodicServiceTime, specPeriodicServiceTime]
  by_cases h0 : S = 0
  · rw [if_pos h0, if_pos h0]
  · rw [if_neg h0, if_neg h0]
    have hle : S / B * B ≤ S := Nat.div_mul_le_self S B
    have hbq : B * (S / B) = S / B * B := Nat.mul_comm _ _
    have htq : T * (S / B) = S / B * T := Nat.mul_comm _ _
    split_ifs <;> omega

/-- **C1** (confirmed).  For every well-formed supply model (Dedicated,
Periodic, or Constrained), every offset `A`, divergence limit `L`, and
monotone right-hand side `rhs`: if `search_with_offset` returns
`Ok R`, then `service_time (rhs R) - A = R` — the returned value is an
exact fixed point of the iteration map. -/
theorem claimC1_convergence_identity (s : SupplyModel) (hWF : s.WF)
    (rhs : Nat → Nat) (hrhs : Monotone rhs) (A L R : Nat)
    (hok : searchWithOffset s.serviceTime A L rhs = .ok R) :
    s.serviceTime (rhs R) - A = R := by
  have hf : Monotone (fun x => s.serviceTime (rhs x) - A) := by
    intro a b hab
    have h1 := serviceTime_mono s hWF (hrhs hab)
    simp only
    omega
  exact searchLoop_ok_fix _ hf A L (L + 1) 1 R (Or.inl le_rfl) hok

/-- Witness for C1 at a concrete input: the dedicated supply with the
constant demand 1 converges to the fixed point 1. -/
theorem claimC1_witness :
    SupplyModel.dedicated.serviceTime ((fun _ => 1) 1) - 0 = 1 :=
  claimC1_convergence_identity .dedicated trivial (fun _ => 1) monotone_const 0 5 1
    (by decide)

/-- **C2** (confirmed).  `search_with_offset` computes the sequence
`R₀ = 1`, `R_{k+1} = service_time (rhs R_k) - A`; at the first index
`k` at which the loop exits — because the iterate exceeds the limit
(`L < R_k`, checked first) or because it converges
(`R_{k+1} ≤ R_k`) — it returns `Err ⟨A, L⟩` (the sole error variant,
carrying exactly the given offset and limit) in the former case and
`Ok R_{k+1}` in the latter. -/
theorem claimC2_search_trace (st rhs : Nat → Nat) (A L k : Nat)
    (hmin : ∀ j, j < k →
      iterSeq (fun R => st (rhs R) - A) j ≤ L ∧
        iterSeq (fun R => st (rhs R) - A) j < iterSeq (fun R => st (rhs R) - A) (j + 1))
    (hk : L < iterSeq (fun R => st (rhs R) - A) k ∨
      iterSeq (fun R => st (rhs R) - A) (k + 1) ≤ iterSeq (fun R => st (rhs R) - A) k) :
    searchWithOffset st A L rhs =
      if L < iterSeq (fun R => st (rhs R) - A) k then SearchResult.err ⟨A, L⟩
      else SearchResult.ok (iterSeq (fun R => st (rhs R) - A) (k + 1)) :=
  searchWithOffset_eq_of_trace st rhs A L k hmin hk

/-- Witness for C2 at a concrete input: with the identity supply and
`rhs R = R + 1` the iterates `1, 2, 3, 4` exceed the limit 3 without
converging, so the search reports divergence with offset 0 and
limit 3. -/
theorem claimC2_witness :
    searchWithOffset (fun x => x) 0 3 (fun R => R + 1) = SearchResult.err ⟨0, 3⟩ := by
  have h := claimC2_search_trace (fun x => x) (fun R => R + 1) 0 3 3
    (by decide) (by decide)
  rw [if_pos (by decide)] at h
  exact h

/-- **C3** (confirmed).  The FP fully-preemptive RTA on a dedicated
uniprocessor with scalar WCETs and periodic arrivals: task set
`[(1,4),(1,5),(3,9),(3,18)]` (decreasing priority, each task analyzed
against the higher-priority tasks) yields the bounds `[1,2,7,18]`; in
the overloaded set `[(1,2),(1,3),(3,9),(3,18)]` the third and fourth
tasks report `DivergenceLimitExceeded`. -/
theorem claimC3_fp_rta_scenarios :
    dedicatedUniprocRTA [] 1 4 100 = .ok 1 ∧
    dedicatedUniprocRTA [(1, 4)] 1 5 100 = .ok 2 ∧
    dedicatedUniprocRTA [(1, 4), (1, 5)] 3 9 100 = .ok 7 ∧
    dedicatedUniprocRTA [(1, 4), (1, 5), (3, 9)] 3 18 100 = .ok 18 ∧
    dedicatedUniprocRTA [(1, 2), (1, 3)] 3 9 100 = .err ⟨0, 100⟩ ∧
    dedicatedUniprocRTA [(1, 2), (1, 3), (3, 9)] 3 18 100 = .err ⟨0, 100⟩ := by
  decide

/-- **C4** (confirmed, under positive budgets).  For each well-formed
supply model and every positive demanded service `S`:
`provided_service (service_time S) = S` exactly, and
`provided_service (service_time S - 1) < S`. -/
theorem claimC4_pseudo_inverse (s : SupplyModel) (hWF : s.WF) (S : Nat) (hS : 0 < S) :
    s.providedService (s.serviceTime S) = S ∧
      s.providedService (s.serviceTime S - 1) < S := by
  refine ⟨supply_inverse_exact s hWF S, ?_⟩
  have h := supply_inverse_pred s hWF S hS
  omega

/-- Witness for C4 at a concrete input: the periodic supply with
budget 3 and period 5, at `S = 4`. -/
theorem claimC4_witness :
    (SupplyModel.periodic 3 5).providedService
        ((SupplyModel.periodic 3 5).serviceTime 4) = 4 ∧
      (SupplyModel.periodic 3 5).providedService
        ((SupplyModel.periodic 3 5).serviceTime 4 - 1) < 4 :=
  claimC4_pseudo_inverse (.periodic 3 5) ⟨by decide, by decide⟩ 4 (by decide)

/-- **C5** (confirmed, under positive budgets).  The periodic supply
model realizes the specification's closed formulas for
`provided_service` and `service_time`, and on `T = 5`, `B = 3`
produces exactly the tabulated values. -/
theorem claimC5_periodic_supply_formulas :
    (∀ B T Δ, 0 < B → B ≤ T →
      periodicProvidedService B T Δ = specPeriodicProvided B T Δ) ∧
    (∀ B T S, 0 < B → B ≤ T →
      periodicServiceTime B T S = specPeriodicServiceTime B T S) ∧
    (List.range 16).map (periodicProvidedService 3 5) =
      [0, 0, 0, 0, 0, 1, 2, 3, 3, 3, 4, 5, 6, 6, 6, 7] ∧
    (List.range 15).map (fun i => periodicServiceTime 3 5 (i + 1)) =
      [5, 6, 7, 10, 11, 12, 15, 16, 17, 20, 21, 22, 25, 26, 27] := by
  refine ⟨?_, ?_, by decide, by decide⟩
  · intro B T Δ hB hBT
    exact specPeriodicProvided_agrees B T Δ hB hBT
  · intro B T S hB hBT
    exact specPeriodicServiceTime_agrees B T S hB hBT

/-- Witness for C5 at a concrete input: both formula equivalences at
`B = 3`, `T = 5`, argument 7. -/
theorem claimC5_witness :
    periodicProvidedService 3 5 7 = specPeriodicProvided 3 5 7 ∧
      periodicServiceTime 3 5 7 = specPeriodicServiceTime 3 5 7 :=
  ⟨claimC5_periodic_supply_formulas.1 3 5 7 (by decide) (by decide),
    claimC5_periodic_supply_formulas.2.1 3 5 7 (by decide) (by decide)⟩

/-- Once the running maximum of `max_response_time` holds an error, it
keeps it (the comparator ranks errors above everything). -/
lemma maxResponseTime_foldl_err (e : SearchFailure) (l : List SearchResult) :
    l.foldl
      (fun acc x =>
        match acc with
        | none => some x
        | some a => if rtCmp a x = .gt then some a else some x)
      (some (SearchResult.err e)) = some (SearchResult.err e) := by
  induction l with
  | nil => rfl
  | cons x xs ih =>
    simp only [List.foldl_cons]
    have h : rtCmp (SearchResult.err e) x = .gt := rfl
    rw [h, if_pos rfl]
    exact ih

/-- While the running maximum is an `Ok`, the first error encountered
takes over and is returned. -/
lemma maxResponseTime_foldl_ok_err (l : List SearchResult) :
    ∀ (v : Nat) (e : SearchResult), l.find? rtIsErr = some e →
      l.foldl
        (fun acc x =>
          match acc with
          | none => some x
          | some a => if rtCmp a x = .gt then some a else some x)
        (some (SearchResult.ok v)) = some e := by
  induction l with
  | nil => intro v e h; cases h
  | cons x xs ih =>
    intro v e h
    cases x with
    | err f =>
      have hfind : SearchResult.err f = e := by
        have : rtIsErr (SearchResult.err f) = true := rfl
        rw [List.find?_cons_of_pos _ this] at h
        cases h
        rfl
      simp only [List.foldl_cons]
      have hc : rtCmp (SearchResult.ok v) (SearchResult.err f) = .lt := rfl
      rw [hc]
      rw [if_neg (by decide : ¬ (Ordering.lt = Ordering.gt))]
      rw [maxResponseTime_foldl_err f xs, hfind]
    | ok w =>
      have hfind : xs.find? rtIsErr = some e := by
        have : rtIsErr (SearchResult.ok w) = false := rfl
        rwa [List.find?_cons_of_neg _ (by simp [this])] at h
      simp only [List.foldl_cons]
      by_cases hc : rtCmp (SearchResult.ok v) (SearchResult.ok w) = .gt
      · rw [if_pos hc]
        exact ih v e hfind
      · rw [if_neg hc]
        exact ih w e hfind

/-- On an all-`Ok` suffix, the fold computes the running maximum of the
contained values. -/
lemma maxResponseTime_foldl_all_ok (l : List SearchResult) :
    ∀ v : Nat, (∀ x ∈ l, rtIsErr x = false) →
      l.foldl
        (fun acc x =>
          match acc with
          | none => some x
          | some a => if rtCmp a x = .gt then some a else some x)
        (some (SearchResult.ok v)) = some (.ok ((l.map rtVal).foldl max v)) := by
  induction l with
  | nil => intro v _; rfl
  | cons x xs ih =>
    intro v hall
    cases x with
    | err f =>
      have := hall (SearchResult.err f) (by simp)
      simp [rtIsErr] at this
    | ok w =>
      have hxs : ∀ x ∈ xs, rtIsErr x = false := fun x hx => hall x (by simp [hx])
      simp only [List.foldl_cons, List.map_cons]
      have hcc : rtCmp (SearchResult.ok v) (SearchResult.ok w) = compare v w := rfl
      by_cases hc : rtCmp (SearchResult.ok v) (SearchResult.ok w) = .gt
      · rw [if_pos hc]
        have hwv : w < v := by
          rw [hcc] at hc
          exact Nat.compare_eq_gt.mp hc
        have hmax : max v (rtVal (SearchResult.ok w)) = v := by
          show max v w = v
          omega
        rw [ih v hxs, hmax]
      · rw [if_neg hc]
        have hvw : v ≤ w := by
          rw [hcc] at hc
          rcases Nat.lt_trichotomy v w with h | h | h
          · omega
          · omega
          · exact absurd (Nat.compare_eq_gt.mpr h) hc
        have hmax : max v (rtVal (SearchResult.ok w)) = w := by
          show max v w = w
          omega
        rw [ih w hxs, hmax]

/-- **C8** (confirmed).  `max_response_time` over a finite sequence of
search results: if some element is a divergence failure, the first one
(in iteration order) is returned; if all elements are `Ok`, the
maximum contained bound is returned; the empty sequence yields
`Ok 0`. -/
theorem claimC8_max_response_time :
    (∀ (l : List SearchResult) (e : SearchResult), l.find? rtIsErr = some e →
        maxResponseTime l = e) ∧
    (∀ l : List SearchResult, (∀ x ∈ l, rtIsErr x = false) →
        maxResponseTime l = .ok ((l.map rtVal).foldl max 0)) ∧
    maxResponseTime [] = .ok 0 := by
  refine ⟨?_, ?_, rfl⟩
  · intro l e h
    cases l with
    | nil => cases h
    | cons x xs =>
      cases x with
      | err f =>
        have hfe : SearchResult.err f = e := by
          have : rtIsErr (SearchResult.err f) = true := rfl
          rw [List.find?_cons_of_pos _ this] at h
          cases h
          rfl
        simp only [maxResponseTime, List.foldl_cons]
        rw [maxResponseTime_foldl_err f xs, hfe]
        rfl
      | ok w =>
        have hfind : xs.find? rtIsErr = some e := by
          have : rtIsErr (SearchResult.ok w) = false := rfl
          rwa [List.find?_cons_of_neg _ (by simp [this])] at h
        simp only [maxResponseTime, List.foldl_cons]
        rw [maxResponseTime_foldl_ok_err xs w e hfind]
        rfl
  · intro l hall
    cases l with
    | nil => rfl
    | cons x xs =>
      cases x with
      | err f =>
        have := hall (SearchResult.err f) (by simp)
        simp [rtIsErr] at this
      | ok w =>
        have hxs : ∀ x ∈ xs, rtIsErr x = false := fun x hx => hall x (by simp [hx])
        simp only [maxResponseTime, List.foldl_cons, List.map_cons]
        rw [maxResponseTime_foldl_all_ok xs w hxs]
        have : max 0 (rtVal (SearchResult.ok w)) = w := by
          show max 0 w = w
          omega
        rw [this]
        rfl

/-- Witness for C8 at concrete inputs: the first failure is propagated
past both a smaller `Ok` and a later failure. -/
theorem claimC8_witness :
    maxResponseTime [.ok 3, .err ⟨2, 9⟩, .err ⟨4, 9⟩] = .err ⟨2, 9⟩ :=
  claimC8_max_response_time.1 [.ok 3, .err ⟨2, 9⟩, .err ⟨4, 9⟩] (.err ⟨2, 9⟩) (by decide)

/-- **C10** (corrected).  The subtraction
`supply.service_time(offset_demand_bound(A, R)) - A` inside
`search_with_offset` cannot underflow whenever the right-hand-side
value *exceeds the service the supply can have provided strictly
before the offset*, i.e. `provided_service(A - ε) < odb(A, R)`: under
that (amended) proviso `service_time(odb(A, R)) ≥ A` for every
well-formed supply model.  The claim's original proviso — that
`odb(A, R)` is at least the demand of the task under analysis through
offset `A` — does not suffice; see the counterexample. -/
theorem claimC10_no_underflow_amended (s : SupplyModel) (hWF : s.WF)
    (A R : Nat) (odb : Nat → Nat → Nat)
    (hodb : s.providedService (A - 1) < odb A R) :
    A ≤ s.serviceTime (odb A R) := by
  by_contra hlt
  have h1 : s.serviceTime (odb A R) ≤ A - 1 := by omega
  have h2 : s.providedService (s.serviceTime (odb A R)) ≤ s.providedService (A - 1) :=
    providedService_mono s hWF h1
  rw [supply_inverse_exact s hWF (odb A R)] at h2
  omega

/-- Witness for the amended C10 at a concrete input: on the dedicated
supply, with offset 5 and a right-hand-side value of 9 (which exceeds
`provided_service(4) = 4`), no underflow occurs. -/
theorem claimC10_witness :
    5 ≤ SupplyModel.dedicated.serviceTime ((fun _ _ => 9) 5 1) :=
  claimC10_no_underflow_amended .dedicated trivial 5 1 (fun _ _ => 9) (by decide)

/-- Counterexample to C10 as stated.  Take the dedicated supply, the
demand of the task under analysis given by the delta-min curve
`[1, 10]` with unit WCET, and interference of WCET 4 every 5 time
units.  The busy-window search (`bound_response_time` step 1) returns
`max_bw = 10`; the demand's `steps_iter` yields 11, so the offset
`A = 11 - 1 = 10 ≤ max_bw` is in the generated search space; at the
first iterate `R = 1` the claim's proviso holds
(`odb(10, 1) = 7 ≥ 3 = ` demand of the task under analysis through
offset 10), and yet `service_time(odb(10, 1)) = 7 < 10 = A`, so the
unchecked subtraction `service_time(...) - offset` underflows. -/
theorem claimC10_counterexample :
    fpSearch dedicatedServiceTime 100 c10BusyWindowRhs = .ok 10 ∧
    curveStepsSeq [1, 10] 2 = 11 ∧
    c10TuaServiceNeeded (10 + 1) ≤ c10OffsetDemandBound 10 1 ∧
    dedicatedServiceTime (c10OffsetDemandBound 10 1) < 10 := by
  decide

/-! ## Delta-min curves: representation of `number_arrivals` -/

/-- Every element of a chain-sorted list dominates the base. -/
lemma chain_le_of_mem {b : Nat} {l : List Nat} (h : List.Chain (· ≤ ·) b l) :
    ∀ x ∈ l, b ≤ x := by
  induction l generalizing b with
  | nil => intro x hx; cases hx
  | cons y ys ih =>
    rcases List.chain_cons.mp h with ⟨hby, hys⟩
    intro x hx
    rcases List.mem_cons.mp hx with rfl | hx
    · exact hby
    · exact le_trans hby (ih hys x hx)

/-- The base is below the last element of a chain. -/
lemma chain_le_getLastD {b : Nat} {l : List Nat} (h : List.Chain (· ≤ ·) b l) :
    b ≤ l.getLastD b := by
  induction l generalizing b with
  | nil => exact le_rfl
  | cons y ys ih =>
    rcases List.chain_cons.mp h with ⟨hby, hys⟩
    rw [List.getLastD_cons]
    exact le_trans hby (ih hys)

/-- Every element of a chain-sorted non-empty list is below its last
element. -/
lemma chain_mem_le_getLastD {b : Nat} {l : List Nat} (h : List.Chain (· ≤ ·) b l) :
    ∀ x ∈ l, x ≤ l.getLastD b := by
  induction l generalizing b with
  | nil => intro x hx; cases hx
  | cons y ys ih =>
    rcases List.chain_cons.mp h with ⟨_, hys⟩
    intro x hx
    rw [List.getLastD_cons]
    rcases List.mem_cons.mp hx with rfl | hx
    · exact chain_le_getLastD hys
    · exact ih hys x hx

/-- The last element (with default) of a non-empty list is a member. -/
lemma getLastD_mem {l : List Nat} (h : l ≠ []) (d : Nat) : l.getLastD d ∈ l := by
  induction l generalizing d with
  | nil => exact absurd rfl h
  | cons y ys ih =>
    rw [List.getLastD_cons]
    rcases Nat.decEq ys.length 0 with _ | _
    all_goals
      cases ys with
      | nil => exact List.mem_cons_self _ _
      | cons z zs => exact List.mem_cons_of_mem _ (ih (by simp) y)

/-- Counting elements below `v + 1` splits into counting below `v`
plus the multiplicity of `v` itself. -/
lemma countP_lt_succ_split (v : Nat) (l : List Nat) :
    l.countP (fun x => decide (x < v + 1))
      = l.countP (fun x => decide (x < v)) + l.count v := by
  induction l with
  | nil => rfl
  | cons y ys ih =>
    simp only [List.countP_cons, List.count_cons, ih]
    by_cases h1 : y < v + 1
    · by_cases h2 : y < v
      · have hne : ¬ (y = v) := by omega
        simp [h1, h2, hne]
        omega
      · have heq : y = v := by omega
        simp [h1, h2, heq]
        omega
    · have h2 : ¬ y < v := by omega
      have hne : ¬ (y = v) := by omega
      simp [h1, h2, hne]

/-- Counting below a threshold is monotone in the threshold. -/
lemma countP_lt_mono (l : List Nat) {a b : Nat} (h : a ≤ b) :
    l.countP (fun x => decide (x < a)) ≤ l.countP (fun x => decide (x < b)) := by
  induction l with
  | nil => exact le_rfl
  | cons y ys ih =>
    simp only [List.countP_cons]
    by_cases h1 : y < a
    · simp [h1, show y < b from by omega]
      omega
    · by_cases h2 : y < b <;> simp [h1, h2] <;> omega

/-- The scan of `lookup_arrivals` over a chain-sorted list returns the
count of stored distances strictly below the query, plus one (offset
by the start index of the scan). -/
lemma lookupAux_eq (delta : Nat) :
    ∀ (b : Nat) (l : List Nat), List.Chain (· ≤ ·) b l →
      ∀ i, lookupAux delta l i = i + l.countP (fun x => decide (x < delta)) + 1 := by
  intro b l
  induction l generalizing b with
  | nil => intro _ i; rfl
  | cons y ys ih =>
    intro h i
    rcases List.chain_cons.mp h with ⟨hby, hys⟩
    simp only [lookupAux]
    by_cases hc : delta ≤ y
    · rw [if_pos hc]
      have hz : (y :: ys).countP (fun x => decide (x < delta)) = 0 := by
        rw [List.countP_eq_zero]
        intro a ha
        rcases List.mem_cons.mp ha with rfl | ha
        · simp
          omega
        · have := chain_le_of_mem hys a ha
          simp
          omega
      rw [hz]
    · rw [if_neg hc]
      rw [ih y hys (i + 1)]
      have : (y :: ys).countP (fun x => decide (x < delta))
          = ys.countP (fun x => decide (x < delta)) + 1 :=
        List.countP_cons_of_pos _ _ (by simp; omega)
      omega

/-- Representation of `Curve::number_arrivals` for a well-formed
delta-min prefix: full repetitions of the largest stored distance plus
the per-period step profile of the tail. -/
lemma curveNumberArrivals_repr (md : List Nat) (hne : md ≠ [])
    (hch : List.Chain (· ≤ ·) 0 md) (hD : 0 < md.getLastD 0) (Δ : Nat) :
    curveNumberArrivals md Δ =
      (Δ / md.getLastD 0) * md.length + curveStepFn md (Δ % md.getLastD 0) := by
  rcases Nat.eq_zero_or_pos Δ with h0 | h0
  · subst h0
    simp [curveNumberArrivals, curveStepFn]
  · simp only [curveNumberArrivals, if_pos h0]
    obtain ⟨y, ys, rfl⟩ : ∃ y ys, md = y :: ys :=
      ⟨md.headD 0, md.tail, by cases md with
        | nil => exact absurd rfl hne
        | cons a as => rfl⟩
    rcases List.chain_cons.mp hch with ⟨_, hys⟩
    set D := (y :: ys).getLastD 0 with hDdef
    set r := Δ % D with hrdef
    by_cases hhead : (y :: ys).headD 0 < r
    · rw [if_pos hhead]
      simp only [lookupArrivals]
      rw [lookupAux_eq r 0 (y :: ys) hch 0]
      have hr0 : r ≠ 0 := by
        simp only [List.headD_cons] at hhead
        omega
      simp [curveStepFn, hr0]
    · rw [if_neg hhead]
      simp only [List.headD_cons] at hhead
      by_cases hr0 : r = 0
      · rw [hr0]
        simp [curveStepFn]
      · rw [if_pos (by omega : 0 < r)]
        have hz : (y :: ys).countP (fun x => decide (x < r)) = 0 := by
          rw [List.countP_eq_zero]
          intro a ha
          rcases List.mem_cons.mp ha with rfl | ha
          · simp
            omega
          · have := chain_le_of_mem hys a ha
            simp
            omega
        simp [curveStepFn, hr0, hz]

/-- The step profile never exceeds the number of stored distances, on
tails below the largest stored distance. -/
lemma curveStepFn_le (md : List Nat) (hne : md ≠ [])
    (hch : List.Chain (· ≤ ·) 0 md) (r : Nat) (hr : r ≤ md.getLastD 0) :
    curveStepFn md r ≤ md.length := by
  simp only [curveStepFn]
  by_cases hr0 : r = 0
  · simp [hr0]
  · rw [if_neg hr0]
    have hmem := getLastD_mem hne 0
    have hle := List.countP_le_length (l := md) (p := fun x => decide (x < r))
    rcases Nat.eq_or_lt_of_le hle with heq | hlt
    · exfalso
      have := List.countP_eq_length.mp heq _ hmem
      simp only [decide_eq_true_eq] at this
      omega
    · omega

/-- `Curve::number_arrivals` is monotone for a well-formed delta-min
prefix. -/
lemma curveNumberArrivals_mono (md : List Nat) (hne : md ≠ [])
    (hch : List.Chain (· ≤ ·) 0 md) (hD : 0 < md.getLastD 0) :
    Monotone (curveNumberArrivals md) := by
  apply monotone_nat_of_le_succ
  intro Δ
  rw [curveNumberArrivals_repr md hne hch hD, curveNumberArrivals_repr md hne hch hD]
  have h1 := Nat.div_add_mod Δ (md.getLastD 0)
  have hrD := Nat.mod_lt Δ hD
  by_cases hc : Δ % md.getLastD 0 + 1 < md.getLastD 0
  · obtain ⟨hdiv, hmod⟩ := div_mod_of_decomp (md.getLastD 0) (Δ / md.getLastD 0)
      (Δ % md.getLastD 0 + 1) (Δ + 1) hD hc (by omega)
    rw [hdiv, hmod]
    have hmono : curveStepFn md (Δ % md.getLastD 0)
        ≤ curveStepFn md (Δ % md.getLastD 0 + 1) := by
      simp only [curveStepFn]
      by_cases hr0 : Δ % md.getLastD 0 = 0
      · rw [if_pos hr0]
        exact Nat.zero_le _
      · rw [if_neg hr0, if_neg (by omega)]
        have := countP_lt_mono md (show Δ % md.getLastD 0 ≤ Δ % md.getLastD 0 + 1 by omega)
        omega
    omega
  · obtain ⟨hdiv, hmod⟩ := div_mod_of_decomp (md.getLastD 0) (Δ / md.getLastD 0 + 1) 0
      (Δ + 1) hD hD
      (by have : md.getLastD 0 * (Δ / md.getLastD 0 + 1)
              = md.getLastD 0 * (Δ / md.getLastD 0) + md.getLastD 0 := by ring
          omega)
    rw [hdiv, hmod]
    have hstep := curveStepFn_le md hne hch (Δ % md.getLastD 0) (by omega)
    have hexp : (Δ / md.getLastD 0 + 1) * md.length
        = (Δ / md.getLastD 0) * md.length + md.length := by ring
    have hz : curveStepFn md 0 = 0 := rfl
    rw [hz]
    omega

/-! ## Ceiling division and the periodic/sporadic arrival bounds -/

/-- `divide_with_ceil` computes the ceiling of the division. -/
lemma divideWithCeil_eq_ceil (a b : Nat) (hb : 0 < b) :
    divideWithCeil a b = (a + b - 1) / b := by
  obtain ⟨q, r, ha, hr⟩ : ∃ q r, a = b * q + r ∧ r < b :=
    ⟨a / b, a % b, (Nat.div_add_mod a b).symm, Nat.mod_lt _ hb⟩
  subst ha
  obtain ⟨hdiv, hmod⟩ := div_mod_of_decomp b q r _ hb hr rfl
  simp only [divideWithCeil]
  rw [hdiv, hmod]
  by_cases hr0 : 0 < r
  · have hexp : b * (q + 1) = b * q + b := by ring
    obtain ⟨hdiv2, _⟩ :=
      div_mod_of_decomp b (q + 1) (r - 1) (b * q + r + b - 1) hb (by omega) (by omega)
    rw [hdiv2, if_pos hr0]
  · obtain ⟨hdiv2, _⟩ :=
      div_mod_of_decomp b q (b - 1) (b * q + r + b - 1) hb (by omega) (by omega)
    rw [hdiv2, if_neg hr0]
    omega

/-- `divide_with_ceil` is monotone in the dividend. -/
lemma divideWithCeil_mono (b : Nat) (hb : 0 < b) {a1 a2 : Nat} (h : a1 ≤ a2) :
    divideWithCeil a1 b ≤ divideWithCeil a2 b := by
  rw [divideWithCeil_eq_ceil a1 b hb, divideWithCeil_eq_ceil a2 b hb]
  exact Nat.div_le_div_right (by omega)

/-- `divide_with_ceil` of a positive dividend is positive. -/
lemma divideWithCeil_pos (a b : Nat) (ha : 0 < a) (hb : 0 < b) :
    0 < divideWithCeil a b := by
  simp only [divideWithCeil]
  rcases Nat.lt_or_ge a b with h | h
  · rw [Nat.div_eq_of_lt h, Nat.mod_eq_of_lt h, if_pos ha]
    omega
  · have := Nat.div_pos h hb
    omega

/-- `divide_with_ceil` at an exact multiple. -/
lemma divideWithCeil_mul (b k : Nat) (hb : 0 < b) :
    divideWithCeil (b * k) b = k := by
  simp only [divideWithCeil]
  rw [Nat.mul_div_cancel_left _ hb, Nat.mul_mod_right]
  simp

/-- `divide_with_ceil` just past an exact multiple. -/
lemma divideWithCeil_mul_succ (b k : Nat) (hb : 0 < b) :
    divideWithCeil (b * k + 1) b = k + 1 := by
  rcases Nat.lt_or_ge 1 b with h | h
  · obtain ⟨hdiv, hmod⟩ := div_mod_of_decomp b k 1 (b * k + 1) hb h rfl
    simp only [divideWithCeil]
    rw [hdiv, hmod, if_pos (by omega)]
  · have hb1 : b = 1 := by omega
    subst hb1
    simp [divideWithCeil, Nat.mod_one]

/-- A `Δ ≥ 1` is a step of the periodic arrival bound exactly when it
lies one past a multiple of the period. -/
lemma periodic_step_iff (T : Nat) (hT : 0 < T) (Δ : Nat) (hΔ : 0 < Δ) :
    (periodicNumberArrivals T (Δ - 1) < periodicNumberArrivals T Δ
      ↔ ∃ k, Δ = T * k + 1) := by
  simp only [periodicNumberArrivals]
  constructor
  · intro h
    obtain ⟨q, r, ha, hr⟩ : ∃ q r, Δ - 1 = T * q + r ∧ r < T :=
      ⟨(Δ - 1) / T, (Δ - 1) % T, (Nat.div_add_mod _ T).symm, Nat.mod_lt _ hT⟩
    by_cases hr0 : r = 0
    · exact ⟨q, by omega⟩
    · exfalso
      rw [ha] at h
      obtain ⟨hdiv1, hmod1⟩ := div_mod_of_decomp T q r _ hT hr rfl
      have hv1 : divideWithCeil (T * q + r) T = q + 1 := by
        simp only [divideWithCeil]
        rw [hdiv1, hmod1, if_pos (by omega)]
      rw [hv1] at h
      by_cases hc : r + 1 < T
      · have hΔe : Δ = T * q + (r + 1) := by omega
        rw [hΔe] at h
        obtain ⟨hdiv2, hmod2⟩ := div_mod_of_decomp T q (r + 1) _ hT hc rfl
        simp only [divideWithCeil] at h
        rw [hdiv2, hmod2, if_pos (by omega)] at h
        omega
      · have hΔe : Δ = T * (q + 1) := by
          have : T * (q + 1) = T * q + T := by ring
          omega
        rw [hΔe, divideWithCeil_mul T (q + 1) hT] at h
        omega
  · rintro ⟨k, rfl⟩
    have h1 : T * k + 1 - 1 = T * k := by omega
    rw [h1, divideWithCeil_mul T k hT, divideWithCeil_mul_succ T k hT]
    omega

/-- The `k`-th value `T·(J/T + k) + 1 − J` yielded by
`Sporadic::steps_iter` for `k ≥ 1`: it is at least 2 and a genuine
step of the sporadic arrival bound. -/
lemma sporadic_step_sound (T J k : Nat) (hT : 0 < T) (hk : 1 ≤ k) :
    2 ≤ T * (J / T + k) + 1 - J ∧
      sporadicNumberArrivals T J (T * (J / T + k) + 1 - J - 1)
        < sporadicNumberArrivals T J (T * (J / T + k) + 1 - J) := by
  have hj1 := Nat.div_add_mod J T
  have hmod := Nat.mod_lt J hT
  have hexp : T * (J / T + k) = T * (J / T) + T * k := by ring
  have hTk : T * 1 ≤ T * k := Nat.mul_le_mul_left T hk
  have hT1 : T * 1 = T := by ring
  have hjJ : J + 1 ≤ T * (J / T + k) := by omega
  refine ⟨by omega, ?_⟩
  simp only [sporadicNumberArrivals]
  rw [if_pos (by omega), if_pos (by omega)]
  rw [show T * (J / T + k) + 1 - J - 1 + J = T * (J / T + k) from by omega]
  rw [show T * (J / T + k) + 1 - J + J = T * (J / T + k) + 1 from by omega]
  rw [divideWithCeil_mul T _ hT, divideWithCeil_mul_succ T _ hT]
  omega

/-- Every step `Δ ≥ 2` of the sporadic arrival bound is of the form
`T·(J/T + k) + 1 − J` for some `k ≥ 1`. -/
lemma sporadic_step_complete (T J Δ : Nat) (hT : 0 < T) (hΔ : 2 ≤ Δ)
    (h : sporadicNumberArrivals T J (Δ - 1) < sporadicNumberArrivals T J Δ) :
    ∃ k, 1 ≤ k ∧ Δ = T * (J / T + k) + 1 - J := by
  simp only [sporadicNumberArrivals] at h
  rw [if_pos (by omega), if_pos (by omega)] at h
  obtain ⟨q, r, ha, hr⟩ : ∃ q r, Δ - 1 + J = T * q + r ∧ r < T :=
    ⟨(Δ - 1 + J) / T, (Δ - 1 + J) % T, (Nat.div_add_mod _ T).symm, Nat.mod_lt _ hT⟩
  by_cases hr0 : r = 0
  · -- Δ + J = T·q + 1; show q exceeds J/T and rebase it
    have hq1 : 1 ≤ q := by
      rcases Nat.eq_zero_or_pos q with h0 | h0
      · exfalso
        rw [h0] at ha
        simp at ha
        omega
      · exact h0
    have hqJ : J / T < q := by
      by_contra hle
      have h2 : T * q ≤ T * (J / T) := Nat.mul_le_mul_left T (by omega)
      have h3 := Nat.div_add_mod J T
      have h4 := Nat.mod_lt J hT
      omega
    refine ⟨q - J / T, by omega, ?_⟩
    rw [show J / T + (q - J / T) = q from by omega]
    omega
  · exfalso
    rw [ha] at h
    obtain ⟨hdiv1, hmod1⟩ := div_mod_of_decomp T q r _ hT hr rfl
    have hv1 : divideWithCeil (T * q + r) T = q + 1 := by
      simp only [divideWithCeil]
      rw [hdiv1, hmod1, if_pos (by omega)]
    rw [hv1] at h
    by_cases hc : r + 1 < T
    · have hΔe : Δ + J = T * q + (r + 1) := by omega
      rw [hΔe] at h
      obtain ⟨hdiv2, hmod2⟩ := div_mod_of_decomp T q (r + 1) _ hT hc rfl
      simp only [divideWithCeil] at h
      rw [hdiv2, hmod2, if_pos (by omega)] at h
      omega
    · have hΔe : Δ + J = T * (q + 1) := by
        have : T * (q + 1) = T * q + T := by ring
        omega
      rw [hΔe, divideWithCeil_mul T (q + 1) hT] at h
      omega

/-! ## The lazily extrapolating arrival curve -/

/-- Appending to a list moves its last element (with default). -/
lemma getLastD_append_single (l : List Nat) (v d : Nat) :
    (l ++ [v]).getLastD d = v := by
  induction l generalizing d with
  | nil => rfl
  | cons y ys ih =>
    rw [List.cons_append, List.getLastD_cons]
    exact ih y

/-- The head (with default) survives appending, for non-empty lists. -/
lemma headD_append_of_ne (l t : List Nat) (h : l ≠ []) (d : Nat) :
    (l ++ t).headD d = l.headD d := by
  cases l with
  | nil => exact absurd rfl h
  | cons y ys => rfl

/-- `getD 0` is the head with default. -/
lemma getD_zero_eq_headD (l : List Nat) (d : Nat) : l.getD 0 d = l.headD d := by
  cases l <;> rfl

/-- `getD` does not depend on the default below the length. -/
lemma getD_default_irrel (l : List Nat) :
    ∀ (i : Nat), i < l.length → ∀ (d1 d2 : Nat), l.getD i d1 = l.getD i d2 := by
  induction l with
  | nil => intro i hi; simp at hi
  | cons y ys ih =>
    intro i hi d1 d2
    cases i with
    | zero => rfl
    | succ j =>
      simp only [List.getD_cons_succ]
      exact ih j (by simpa using hi) d1 d2

/-- `getD (length - 1)` is the last element with default, for non-empty
lists. -/
lemma getD_length_sub_one (l : List Nat) (h : l ≠ []) (d : Nat) :
    l.getD (l.length - 1) d = l.getLastD d := by
  induction l generalizing d with
  | nil => exact absurd rfl h
  | cons y ys ih =>
    cases ys with
    | nil => rfl
    | cons z zs =>
      rw [List.getLastD_cons]
      have hlen : (y :: z :: zs).length - 1 = (z :: zs).length := by
        simp
      rw [hlen]
      have : (y :: z :: zs).getD (z :: zs).length d = (z :: zs).getD zs.length d := by
        simp [List.getD_cons_succ]
      rw [this]
      have h2 := ih (by simp) y
      have hlen2 : (z :: zs).length - 1 = zs.length := by simp
      rw [hlen2] at h2
      rw [getD_default_irrel (z :: zs) zs.length (by simp) d y]
      exact h2

/-- Any member is below the `max`-fold of a list of naturals. -/
lemma le_foldr_max (l : List Nat) (x : Nat) (hx : x ∈ l) : x ≤ l.foldr max 0 := by
  induction l with
  | nil => cases hx
  | cons y ys ih =>
    rcases List.mem_cons.mp hx with rfl | hx
    · exact le_max_left _ _
    · exact le_trans (ih hx) (le_max_right _ _)

/-- `Curve::extrapolate_next` dominates `head + last` (the `k = 0` term
of the maximum). -/
lemma curveExtrapolateNext_ge (md : List Nat) (hne : md ≠ []) :
    md.headD 0 + md.getLastD 0 ≤ curveExtrapolateNext md := by
  have hmem : md.getD 0 0 + md.getD (md.length - 0 - 1) 0 ∈
      (List.range (md.length / 2 + 1)).map
        (fun k => md.getD k 0 + md.getD (md.length - k - 1) 0) :=
    List.mem_map_of_mem _ (List.mem_range.mpr (by omega))
  have h := le_foldr_max _ _ hmem
  rw [getD_zero_eq_headD] at h
  have h2 : md.length - 0 - 1 = md.length - 1 := by omega
  rw [h2, getD_length_sub_one md hne 0] at h
  exact h

/-- One extrapolation step preserves sortedness. -/
lemma chain_append_single (b : Nat) (l : List Nat) (v : Nat)
    (h : List.Chain (· ≤ ·) b l) (hv : l.getLastD b ≤ v) :
    List.Chain (· ≤ ·) b (l ++ [v]) := by
  induction l generalizing b with
  | nil => exact List.chain_cons.mpr ⟨hv, List.Chain.nil⟩
  | cons y ys ih =>
    rcases List.chain_cons.mp h with ⟨hby, hys⟩
    rw [List.getLastD_cons] at hv
    exact List.chain_cons.mpr ⟨hby, ih y hys hv⟩

/-- The invariants preserved by iterated extrapolation: non-emptiness,
sortedness, the head, a lower bound on the length, and a monotone last
element. -/
lemma curveExtendOnce_iterate_invariants (md : List Nat) (hne : md ≠ [])
    (hch : List.Chain (· ≤ ·) 0 md) (k : Nat) :
    curveExtendOnce^[k] md ≠ [] ∧
      List.Chain (· ≤ ·) 0 (curveExtendOnce^[k] md) ∧
      (curveExtendOnce^[k] md).headD 0 = md.headD 0 ∧
      md.length ≤ (curveExtendOnce^[k] md).length ∧
      md.getLastD 0 ≤ (curveExtendOnce^[k] md).getLastD 0 := by
  induction k with
  | zero => exact ⟨hne, hch, rfl, le_rfl, le_rfl⟩
  | succ j ih =>
    obtain ⟨h1, h2, h3, h4, h5⟩ := ih
    rw [Function.iterate_succ_apply']
    set l := curveExtendOnce^[j] md with hl
    have hnext : l.getLastD 0 ≤ curveExtrapolateNext l := by
      have := curveExtrapolateNext_ge l h1
      omega
    refine ⟨by simp [curveExtendOnce], ?_, ?_, ?_, ?_⟩
    · exact chain_append_single 0 l _ h2 (by
        have := chain_le_getLastD h2
        have h0 : l.getLastD 0 = l.getLastD 0 := rfl
        omega)
    · rw [show curveExtendOnce l = l ++ [curveExtrapolateNext l] from rfl,
        headD_append_of_ne l _ h1]
      exact h3
    · have : (curveExtendOnce l).length = l.length + 1 := by
        simp [curveExtendOnce]
      omega
    · rw [show curveExtendOnce l = l ++ [curveExtrapolateNext l] from rfl,
        getLastD_append_single]
      omega

/-- Iterated extrapolation only appends: earlier iterates remain list
prefixes of later ones. -/
lemma curveExtendOnce_iterate_isPr (md : List Nat) (j k : Nat) (h : j ≤ k) :
    ∃ t, curveExtendOnce^[j] md ++ t = curveExtendOnce^[k] md := by
  have hstep : ∀ (d : Nat) (x : List Nat), ∃ t, x ++ t = curveExtendOnce^[d] x := by
    intro d
    induction d with
    | zero => exact fun x => ⟨[], by simp⟩
    | succ e ihe =>
      intro x
      obtain ⟨t, ht⟩ := ihe (curveExtendOnce x)
      refine ⟨[curveExtrapolateNext x] ++ t, ?_⟩
      rw [Function.iterate_succ_apply, ← ht]
      simp [curveExtendOnce]
  obtain ⟨t, ht⟩ := hstep (k - j) (curveExtendOnce^[j] md)
  refine ⟨t, ?_⟩
  rw [ht, ← Function.iterate_add_apply]
  congr 1
  omega

/-- The extrapolation loop is some number of single extensions. -/
lemma curveExtrapolateAux_iterate (h : Nat) :
    ∀ (fuel : Nat) (md : List Nat),
      ∃ k, curveExtrapolateAux h fuel md = curveExtendOnce^[k] md := by
  intro fuel
  induction fuel with
  | zero => exact fun md => ⟨0, rfl⟩
  | succ f ih =>
    intro md
    simp only [curveExtrapolateAux]
    by_cases hc : md.getLastD 0 < h
    · rw [if_pos hc]
      obtain ⟨k, hk⟩ := ih (curveExtendOnce md)
      exact ⟨k + 1, by rw [hk, Function.iterate_succ_apply]⟩
    · rw [if_neg hc]
      exact ⟨0, rfl⟩

/-- `Curve::extrapolate` is some number of single extensions. -/
lemma curveExtrapolate_iterate (md : List Nat) (h : Nat) :
    ∃ k, curveExtrapolate md h = curveExtendOnce^[k] md := by
  simp only [curveExtrapolate]
  by_cases hl : 2 ≤ md.length
  · rw [if_pos hl]
    exact curveExtrapolateAux_iterate h (md.length * 2 ^ h + 1) md
  · rw [if_neg hl]
    exact ⟨0, rfl⟩

/-- Iterated extension never empties the prefix. -/
lemma curveExtendOnce_iterate_ne (md : List Nat) (hne : md ≠ []) :
    ∀ k, curveExtendOnce^[k] md ≠ [] := by
  intro k
  induction k with
  | zero => exact hne
  | succ j ih =>
    rw [Function.iterate_succ_apply']
    simp [curveExtendOnce]

/-- Iterated extension grows the prefix linearly. -/
lemma curveExtendOnce_iterate_length (md : List Nat) :
    ∀ k, (curveExtendOnce^[k] md).length = md.length + k := by
  intro k
  induction k with
  | zero => rfl
  | succ j ih =>
    rw [Function.iterate_succ_apply']
    simp only [curveExtendOnce, List.length_append, List.length_cons,
      List.length_nil, ih]
    omega

/-- After `len` pushes the last stored distance at least doubles: the
push performed at length `2·len - 1` includes the `k = len - 1` term
`d[len-1] + d[len-1]` in `extrapolate_next`'s maximum, and the original
prefix is preserved by extension. -/
lemma curveExtendOnce_iterate_double (md : List Nat) (hne : md ≠ []) :
    2 * md.getLastD 0 ≤ (curveExtendOnce^[md.length] md).getLastD 0 := by
  have hm : 0 < md.length := List.length_pos.mpr hne
  have hsplit := Function.iterate_succ_apply' curveExtendOnce (md.length - 1) md
  rw [show (md.length - 1).succ = md.length from by omega] at hsplit
  rw [hsplit]
  simp only [curveExtendOnce]
  rw [getLastD_append_single]
  have hXlen := curveExtendOnce_iterate_length md (md.length - 1)
  have hk : md.length - 1 ∈ List.range
      ((curveExtendOnce^[md.length - 1] md).length / 2 + 1) := by
    rw [hXlen]
    exact List.mem_range.mpr (by omega)
  have hterm : (curveExtendOnce^[md.length - 1] md).getD (md.length - 1) 0
      + (curveExtendOnce^[md.length - 1] md).getD
          ((curveExtendOnce^[md.length - 1] md).length - (md.length - 1) - 1) 0
      ≤ curveExtrapolateNext (curveExtendOnce^[md.length - 1] md) :=
    le_foldr_max _ _ (List.mem_map_of_mem
      (fun k => (curveExtendOnce^[md.length - 1] md).getD k 0
        + (curveExtendOnce^[md.length - 1] md).getD
            ((curveExtendOnce^[md.length - 1] md).length - k - 1) 0) hk)
  have hidx : (curveExtendOnce^[md.length - 1] md).length - (md.length - 1) - 1
      = md.length - 1 := by
    rw [hXlen]
    omega
  rw [hidx] at hterm
  obtain ⟨t, ht⟩ := curveExtendOnce_iterate_isPr md 0 (md.length - 1) (by omega)
  rw [Function.iterate_zero_apply] at ht
  have hga : (curveExtendOnce^[md.length - 1] md).getD (md.length - 1) 0
      = md.getLastD 0 := by
    rw [← ht, List.getD_append md t 0 (md.length - 1) (by omega)]
    exact getD_length_sub_one md hne 0
  rw [hga] at hterm
  omega

/-- After `len·(2^t - 1)` pushes the last stored distance has grown by
a factor of `2^t`. -/
lemma curveExtendOnce_iterate_pow (md : List Nat) (hne : md ≠ []) :
    ∀ t, 2 ^ t * md.getLastD 0
      ≤ (curveExtendOnce^[md.length * (2 ^ t - 1)] md).getLastD 0 := by
  intro t
  induction t with
  | zero => simp
  | succ t ih =>
    have hXne := curveExtendOnce_iterate_ne md hne (md.length * (2 ^ t - 1))
    have hXlen := curveExtendOnce_iterate_length md (md.length * (2 ^ t - 1))
    have hdouble := curveExtendOnce_iterate_double
      (curveExtendOnce^[md.length * (2 ^ t - 1)] md) hXne
    have hcomp : curveExtendOnce^[(curveExtendOnce^[md.length * (2 ^ t - 1)] md).length]
        (curveExtendOnce^[md.length * (2 ^ t - 1)] md)
        = curveExtendOnce^[md.length * (2 ^ (t + 1) - 1)] md := by
      rw [← Function.iterate_add_apply]
      congr 1
      rw [hXlen]
      have h2 : 1 ≤ 2 ^ t := Nat.one_le_two_pow
      obtain ⟨s, hs⟩ : ∃ s, 2 ^ t = s + 1 := ⟨2 ^ t - 1, by omega⟩
      rw [pow_succ, hs]
      simp only [Nat.add_sub_cancel]
      have h3 : (s + 1) * 2 - 1 = 2 * s + 1 := by omega
      rw [h3]
      ring
    rw [← hcomp]
    have hstep : 2 * (2 ^ t * md.getLastD 0)
        ≤ 2 * (curveExtendOnce^[md.length * (2 ^ t - 1)] md).getLastD 0 := by
      omega
    have hpow : 2 ^ (t + 1) * md.getLastD 0 = 2 * (2 ^ t * md.getLastD 0) := by
      rw [pow_succ]
      ring
    omega

/-- The extrapolation loop exits at the horizon as soon as some number
of pushes within the fuel bound reaches it. -/
lemma curveExtrapolateAux_exit (h : Nat) :
    ∀ (k fuel : Nat) (md : List Nat), k ≤ fuel →
      h ≤ (curveExtendOnce^[k] md).getLastD 0 →
      h ≤ (curveExtrapolateAux h fuel md).getLastD 0 := by
  intro k
  induction k with
  | zero =>
    intro fuel md _ hlast
    rw [Function.iterate_zero_apply] at hlast
    cases fuel with
    | zero => exact hlast
    | succ f =>
      simp only [curveExtrapolateAux]
      rw [if_neg (by omega)]
      exact hlast
  | succ j ih =>
    intro fuel md hk hlast
    cases fuel with
    | zero => omega
    | succ f =>
      simp only [curveExtrapolateAux]
      by_cases hc : md.getLastD 0 < h
      · rw [if_pos hc]
        apply ih f (curveExtendOnce md) (by omega)
        rw [← Function.iterate_succ_apply]
        exact hlast
      · rw [if_neg hc]
        omega

/-- `Curve::extrapolate md h` ends at or beyond the horizon `h`
whenever extrapolation is possible (two stored distances) and the
largest stored distance is positive — exactly the runs on which the
source loop terminates. -/
lemma curveExtrapolate_reaches (md : List Nat) (h : Nat) (hne : md ≠ [])
    (hlen : 2 ≤ md.length) (hD : 0 < md.getLastD 0) :
    h ≤ (curveExtrapolate md h).getLastD 0 := by
  simp only [curveExtrapolate, if_pos hlen]
  apply curveExtrapolateAux_exit h (md.length * (2 ^ h - 1)) _ md ?_ ?_
  · have := Nat.mul_le_mul_left md.length (Nat.sub_le (2 ^ h) 1)
    omega
  · have hpow := curveExtendOnce_iterate_pow md hne h
    have h2 : h < 2 ^ h := Nat.lt_two_pow h
    have h3 : 2 ^ h * 1 ≤ 2 ^ h * md.getLastD 0 :=
      Nat.mul_le_mul_left (2 ^ h) (by omega)
    have h4 : 2 ^ h * 1 = 2 ^ h := by ring
    omega

/-- The scan of `lookup_arrivals` never leaves a prefix that already
contains a hit. -/
lemma lookupAux_append (δ : Nat) :
    ∀ (l t : List Nat) (i : Nat), (∃ x ∈ l, δ ≤ x) →
      lookupAux δ (l ++ t) i = lookupAux δ l i := by
  intro l
  induction l with
  | nil =>
    intro t i h
    obtain ⟨x, hx, _⟩ := h
    cases hx
  | cons y ys ih =>
    intro t i h
    simp only [List.cons_append, lookupAux]
    by_cases hc : δ ≤ y
    · rw [if_pos hc, if_pos hc]
    · rw [if_neg hc, if_neg hc]
      refine ih t (i + 1) ?_
      obtain ⟨x, hx, hδx⟩ := h
      rcases List.mem_cons.mp hx with rfl | hx
      · omega
      · exact ⟨x, hx, hδx⟩

/-- Queries strictly below the last stored distance are unaffected by
appended extrapolations. -/
lemma curveNumberArrivals_append (md t : List Nat) (hne : md ≠ []) (Δ : Nat)
    (hΔ1 : Δ < md.getLastD 0) (hΔ2 : Δ < (md ++ t).getLastD 0) :
    curveNumberArrivals (md ++ t) Δ = curveNumberArrivals md Δ := by
  rcases Nat.eq_zero_or_pos Δ with h0 | h0
  · subst h0
    rfl
  · simp only [curveNumberArrivals, if_pos h0]
    rw [Nat.div_eq_of_lt hΔ1, Nat.div_eq_of_lt hΔ2,
      Nat.mod_eq_of_lt hΔ1, Nat.mod_eq_of_lt hΔ2]
    rw [headD_append_of_ne md t hne]
    by_cases hh : md.headD 0 < Δ
    · rw [if_pos hh, if_pos hh]
      simp only [lookupArrivals]
      rw [lookupAux_append Δ md t 0 ⟨md.getLastD 0, getLastD_mem hne 0, by omega⟩]
      simp
    · rw [if_neg hh, if_neg hh]
      simp

/-- Two iterated extrapolations of the same prefix agree on any query
below both of their last stored distances. -/
lemma curveNumberArrivals_iterate_agree (md : List Nat) (hne : md ≠ [])
    (hch : List.Chain (· ≤ ·) 0 md) (j k Δ : Nat)
    (hj : Δ < (curveExtendOnce^[j] md).getLastD 0)
    (hk : Δ < (curveExtendOnce^[k] md).getLastD 0) :
    curveNumberArrivals (curveExtendOnce^[j] md) Δ
      = curveNumberArrivals (curveExtendOnce^[k] md) Δ := by
  have hne' : ∀ i, curveExtendOnce^[i] md ≠ [] := fun i =>
    (curveExtendOnce_iterate_invariants md hne hch i).1
  rcases Nat.le_total j k with hle | hle
  · obtain ⟨t, ht⟩ := curveExtendOnce_iterate_isPr md j k hle
    rw [← ht]
    exact (curveNumberArrivals_append _ t (hne' j) Δ hj (by rw [ht]; exact hk)).symm
  · obtain ⟨t, ht⟩ := curveExtendOnce_iterate_isPr md k j hle
    rw [← ht]
    exact curveNumberArrivals_append _ t (hne' k) Δ hk (by rw [ht]; exact hj)

/-- `ExtrapolatingCurve::number_arrivals` is monotone for a well-formed
wrapped prefix. -/
lemma extrapolatingNumberArrivals_mono (md : List Nat) (hne : md ≠ [])
    (hch : List.Chain (· ≤ ·) 0 md) (hD : 0 < md.getLastD 0) :
    Monotone (extrapolatingNumberArrivals md) := by
  intro Δ1 Δ2 h12
  simp only [extrapolatingNumberArrivals]
  by_cases h1 : Δ1 = 0
  · rw [if_pos h1]
    exact Nat.zero_le _
  · rw [if_neg h1, if_neg (by omega : ¬ (Δ2 = 0))]
    by_cases hlen : 2 ≤ md.length
    · obtain ⟨k1, hk1⟩ := curveExtrapolate_iterate md (Δ1 + 1)
      obtain ⟨k2, hk2⟩ := curveExtrapolate_iterate md (Δ2 + 1)
      have hr1 : Δ1 < (curveExtendOnce^[k1] md).getLastD 0 := by
        have := curveExtrapolate_reaches md (Δ1 + 1) hne hlen hD
        rw [hk1] at this
        omega
      have hr2 : Δ2 < (curveExtendOnce^[k2] md).getLastD 0 := by
        have := curveExtrapolate_reaches md (Δ2 + 1) hne hlen hD
        rw [hk2] at this
        omega
      have inv1 := curveExtendOnce_iterate_invariants md hne hch k1
      have inv2 := curveExtendOnce_iterate_invariants md hne hch k2
      rw [hk1, hk2]
      rcases Nat.le_total k1 k2 with hle | hle
      · have hcomp : curveExtendOnce^[k2] md
            = curveExtendOnce^[k2 - k1] (curveExtendOnce^[k1] md) := by
          rw [← Function.iterate_add_apply]
          congr 1
          omega
        have hlast : (curveExtendOnce^[k1] md).getLastD 0
            ≤ (curveExtendOnce^[k2] md).getLastD 0 := by
          rw [hcomp]
          exact (curveExtendOnce_iterate_invariants _ inv1.1 inv1.2.1 (k2 - k1)).2.2.2.2
        have heq := curveNumberArrivals_iterate_agree md hne hch k1 k2 Δ1 hr1 (by omega)
        rw [heq]
        exact curveNumberArrivals_mono _ inv2.1 inv2.2.1 (by omega) h12
      · have hcomp : curveExtendOnce^[k1] md
            = curveExtendOnce^[k1 - k2] (curveExtendOnce^[k2] md) := by
          rw [← Function.iterate_add_apply]
          congr 1
          omega
        have hlast : (curveExtendOnce^[k2] md).getLastD 0
            ≤ (curveExtendOnce^[k1] md).getLastD 0 := by
          rw [hcomp]
          exact (curveExtendOnce_iterate_invariants _ inv2.1 inv2.2.1 (k1 - k2)).2.2.2.2
        have hmono := curveNumberArrivals_mono _ inv1.1 inv1.2.1
          (by have := inv1.2.2.2.2; omega) h12
        have heq := curveNumberArrivals_iterate_agree md hne hch k1 k2 Δ2 (by omega) hr2
        omega
    · have hs1 : curveExtrapolate md (Δ1 + 1) = md := by
        simp only [curveExtrapolate, if_neg hlen]
      have hs2 : curveExtrapolate md (Δ2 + 1) = md := by
        simp only [curveExtrapolate, if_neg hlen]
      rw [hs1, hs2]
      exact curveNumberArrivals_mono md hne hch hD h12

/-- **C6** (confirmed).  Every well-formed arrival-bound model of the
library — periodic, sporadic, delta-min curve, lazily extrapolating
curve, jitter-propagated, never, and sums of such models — yields no
arrivals in an empty window and is monotone in the window length. -/
theorem claimC6_arrival_bounds_sound (m : AModel) (h : m.WF) :
    m.numberArrivals 0 = 0 ∧ Monotone m.numberArrivals := by
  induction m with
  | periodic T =>
    refine ⟨by simp [AModel.numberArrivals, periodicNumberArrivals, divideWithCeil], ?_⟩
    intro a b hab
    exact divideWithCeil_mono T h hab
  | sporadic T J =>
    refine ⟨rfl, ?_⟩
    intro a b hab
    simp only [AModel.numberArrivals, sporadicNumberArrivals]
    by_cases ha : 0 < a
    · rw [if_pos ha, if_pos (by omega)]
      exact divideWithCeil_mono T h (by omega)
    · rw [if_neg ha]
      exact Nat.zero_le _
  | curve md =>
    exact ⟨rfl, curveNumberArrivals_mono md h.1 h.2.1 h.2.2⟩
  | extrapolating md =>
    exact ⟨rfl, extrapolatingNumberArrivals_mono md h.1 h.2.1 h.2.2⟩
  | propagated J inner ih =>
    obtain ⟨hz, hm⟩ := ih h
    refine ⟨rfl, ?_⟩
    intro a b hab
    simp only [AModel.numberArrivals]
    by_cases ha : 0 < a
    · rw [if_pos ha, if_pos (by omega)]
      exact hm (by omega)
    · rw [if_neg ha]
      exact Nat.zero_le _
  | never => exact ⟨rfl, monotone_const⟩
  | sumOf a b iha ihb =>
    obtain ⟨ha, hb⟩ := h
    refine ⟨?_, ?_⟩
    · simp only [AModel.numberArrivals]
      rw [(iha ha).1, (ihb hb).1]
    · intro x y hxy
      simp only [AModel.numberArrivals]
      exact Nat.add_le_add ((iha ha).2 hxy) ((ihb hb).2 hxy)

/-- Witness for C6 at a concrete model: the sum of a periodic and a
sporadic arrival bound, evaluated at 0 and on the window pair 3 ≤ 7. -/
theorem claimC6_witness :
    (AModel.sumOf (.periodic 5) (.sporadic 10 3)).numberArrivals 0 = 0 ∧
      (AModel.sumOf (.periodic 5) (.sporadic 10 3)).numberArrivals 3
        ≤ (AModel.sumOf (.periodic 5) (.sporadic 10 3)).numberArrivals 7 :=
  ⟨(claimC6_arrival_bounds_sound (.sumOf (.periodic 5) (.sporadic 10 3))
      ⟨show 0 < 5 by decide, show 0 < 10 by decide⟩).1,
    (claimC6_arrival_bounds_sound (.sumOf (.periodic 5) (.sporadic 10 3))
      ⟨show 0 < 5 by decide, show 0 < 10 by decide⟩).2 (by omega)⟩

/-! ## The delta-min curve's step iterator -/

/-- `curveDiffs` coincides with the recursive nonzero-difference
construction. -/
lemma curveDiffs_eq_nzdRel_aux (l : List Nat) :
    ∀ b, (((b :: l).zip l).map (fun p => p.2 - p.1)).filter (fun d => d ≠ 0)
      = nzdRel b l := by
  induction l with
  | nil => intro b; rfl
  | cons x xs ih =>
    intro b
    show ((((b, x) :: (x :: xs).zip xs).map (fun p => p.2 - p.1)).filter
        (fun d => d ≠ 0)) = nzdRel b (x :: xs)
    simp only [List.map_cons, nzdRel]
    by_cases hc : x - b = 0
    · rw [if_pos hc, List.filter_cons_of_neg (by simp [hc])]
      exact ih x
    · rw [if_neg hc, List.filter_cons_of_pos (by simp [hc])]
      rw [ih x]

/-- `curveDiffs` coincides with the recursive nonzero-difference
construction. -/
lemma curveDiffs_eq_nzdRel (md : List Nat) : curveDiffs md = nzdRel 0 md :=
  curveDiffs_eq_nzdRel_aux md 0

/-- The nonzero differences are positive. -/
lemma nzdRel_pos : ∀ (b : Nat) (l : List Nat), ∀ d ∈ nzdRel b l, 0 < d := by
  intro b l
  induction l generalizing b with
  | nil => intro d hd; cases hd
  | cons x xs ih =>
    intro d hd
    simp only [nzdRel] at hd
    by_cases hc : x - b = 0
    · rw [if_pos hc] at hd
      exact ih x d hd
    · rw [if_neg hc] at hd
      rcases List.mem_cons.mp hd with rfl | hd
      · omega
      · exact ih x d hd

/-- The nonzero differences of a chain-sorted list telescope to the
distance from the base to the last element. -/
lemma nzdRel_sum : ∀ (b : Nat) (l : List Nat), List.Chain (· ≤ ·) b l →
    (nzdRel b l).sum = l.getLastD b - b := by
  intro b l
  induction l generalizing b with
  | nil => intro _; simp [nzdRel]
  | cons x xs ih =>
    intro h
    rcases List.chain_cons.mp h with ⟨hbx, hxs⟩
    have hlast := chain_le_getLastD hxs
    simp only [nzdRel, List.getLastD_cons]
    by_cases hc : x - b = 0
    · rw [if_pos hc, ih x hxs]
      omega
    · rw [if_neg hc]
      simp only [List.sum_cons]
      rw [ih x hxs]
      omega

/-- A positive partial sum of the nonzero differences, shifted by the
base, is a stored distance. -/
lemma nzdRel_takeSum_mem : ∀ (b : Nat) (l : List Nat), List.Chain (· ≤ ·) b l →
    ∀ j, 1 ≤ j → j ≤ (nzdRel b l).length →
      b + ((nzdRel b l).take j).sum ∈ l := by
  intro b l
  induction l generalizing b with
  | nil =>
    intro _ j hj hlen
    simp [nzdRel] at hlen
    omega
  | cons x xs ih =>
    intro h j hj hlen
    rcases List.chain_cons.mp h with ⟨hbx, hxs⟩
    simp only [nzdRel] at hlen ⊢
    by_cases hc : x - b = 0
    · rw [if_pos hc] at hlen ⊢
      have hbe : b = x := by omega
      subst hbe
      exact List.mem_cons_of_mem _ (ih b hxs j hj hlen)
    · rw [if_neg hc] at hlen ⊢
      cases j with
      | zero => omega
      | succ j' =>
        rcases Nat.eq_zero_or_pos j' with hj' | hj'
        · subst hj'
          simp only [List.take_succ_cons, List.take_zero, List.sum_cons, List.sum_nil]
          have : b + (x - b + 0) = x := by omega
          rw [this]
          exact List.mem_cons_self _ _
        · simp only [List.take_succ_cons, List.sum_cons]
          have hmem := ih x hxs j' hj' (by simpa using hlen)
          have : b + (x - b + ((nzdRel x xs).take j').sum)
              = x + ((nzdRel x xs).take j').sum := by omega
          rw [this]
          exact List.mem_cons_of_mem _ hmem

/-- Conversely, every stored distance arises as the base plus a partial
sum of the nonzero differences. -/
lemma nzdRel_mem_takeSum : ∀ (b : Nat) (l : List Nat), List.Chain (· ≤ ·) b l →
    ∀ v ∈ l, ∃ j, j ≤ (nzdRel b l).length ∧ b + ((nzdRel b l).take j).sum = v := by
  intro b l
  induction l generalizing b with
  | nil => intro _ v hv; cases hv
  | cons x xs ih =>
    intro h v hv
    rcases List.chain_cons.mp h with ⟨hbx, hxs⟩
    simp only [nzdRel]
    rcases List.mem_cons.mp hv with rfl | hv
    · by_cases hc : v - b = 0
      · rw [if_pos hc]
        exact ⟨0, by omega, by simp; omega⟩
      · rw [if_neg hc]
        refine ⟨1, by simp, ?_⟩
        simp only [List.take_succ_cons, List.take_zero, List.sum_cons, List.sum_nil]
        omega
    · obtain ⟨j, hj, hsum⟩ := ih x hxs v hv
      by_cases hc : x - b = 0
      · rw [if_pos hc]
        exact ⟨j, hj, by omega⟩
      · rw [if_neg hc]
        refine ⟨j + 1, by simpa using hj, ?_⟩
        simp only [List.take_succ_cons, List.sum_cons]
        omega

/-- Sums of take-prefixes grow with the element at the boundary. -/
lemma takeSum_succ (l : List Nat) :
    ∀ i, i < l.length → (l.take (i + 1)).sum = (l.take i).sum + l.getD i 0 := by
  induction l with
  | nil => intro i hi; simp at hi
  | cons y ys ih =>
    intro i hi
    cases i with
    | zero => simp
    | succ i' =>
      simp only [List.take_succ_cons, List.sum_cons, List.getD_cons_succ]
      rw [ih i' (by simpa using hi)]
      omega

/-- Sums of take-prefixes of a positive list are strictly increasing. -/
lemma takeSum_lt (l : List Nat) (hpos : ∀ d ∈ l, 0 < d) :
    ∀ j k, j < k → k ≤ l.length → (l.take j).sum < (l.take k).sum := by
  intro j k
  induction k with
  | zero => intro h _; omega
  | succ k' ihk =>
    intro hjk hk
    have hgd : 0 < l.getD k' 0 := by
      apply hpos
      have hk' : k' < l.length := by omega
      rw [List.getD_eq_getElem l 0 hk']
      exact List.getElem_mem hk'
    rw [takeSum_succ l k' (by omega)]
    rcases Nat.lt_or_ge j k' with h | h
    · have := ihk h (by omega)
      omega
    · have hje : j = k' := by omega
      subst hje
      omega

/-- Members of positive multiplicity. -/
lemma count_pos_iff_mem_nat (v : Nat) (l : List Nat) : 0 < l.count v ↔ v ∈ l :=
  List.count_pos_iff

/-- The step sizes of a well-formed curve telescope to the largest
stored distance. -/
lemma curveDiffs_sum (md : List Nat) (hch : List.Chain (· ≤ ·) 0 md) :
    (curveDiffs md).sum = md.getLastD 0 := by
  rw [curveDiffs_eq_nzdRel, nzdRel_sum 0 md hch]
  omega

/-- A well-formed curve has at least one nonzero step size. -/
lemma curveDiffs_length_pos (md : List Nat) (hch : List.Chain (· ≤ ·) 0 md)
    (hD : 0 < md.getLastD 0) : 0 < (curveDiffs md).length := by
  by_contra h
  have hnil : curveDiffs md = [] := List.length_eq_zero.mp (by omega)
  have := curveDiffs_sum md hch
  rw [hnil, List.sum_nil] at this
  omega

/-- All step sizes of the curve iterator are positive. -/
lemma curveDiffs_pos (md : List Nat) : ∀ d ∈ curveDiffs md, 0 < d := by
  rw [curveDiffs_eq_nzdRel]
  exact nzdRel_pos 0 md

/-- Closed form of the values yielded by `Curve::steps_iter`: one plus
full cycles of the total (the largest stored distance) plus a partial
sum of the cyclic step sizes. -/
lemma curveStepsSeq_closed (md : List Nat) (hm : 0 < (curveDiffs md).length) :
    ∀ k, curveStepsSeq md k =
      1 + (k / (curveDiffs md).length) * (curveDiffs md).sum
        + ((curveDiffs md).take (k % (curveDiffs md).length)).sum := by
  intro k
  induction k with
  | zero => simp [curveStepsSeq]
  | succ k ih =>
    rw [curveStepsSeq, ih]
    have h1 := Nat.div_add_mod k (curveDiffs md).length
    have hrm := Nat.mod_lt k hm
    by_cases hc : k % (curveDiffs md).length + 1 < (curveDiffs md).length
    · obtain ⟨hdiv, hmod⟩ := div_mod_of_decomp (curveDiffs md).length
        (k / (curveDiffs md).length) (k % (curveDiffs md).length + 1) (k + 1) hm hc
        (by omega)
      rw [hdiv, hmod]
      rw [takeSum_succ _ (k % (curveDiffs md).length) (by omega)]
      omega
    · obtain ⟨hdiv, hmod⟩ := div_mod_of_decomp (curveDiffs md).length
        (k / (curveDiffs md).length + 1) 0 (k + 1) hm hm
        (by
          have hexp : (curveDiffs md).length * (k / (curveDiffs md).length + 1)
              = (curveDiffs md).length * (k / (curveDiffs md).length)
                + (curveDiffs md).length := by ring
          omega)
      rw [hdiv, hmod]
      have hfull : ((curveDiffs md).take (k % (curveDiffs md).length + 1)).sum
          = (curveDiffs md).sum := by
        have h2 : k % (curveDiffs md).length + 1 = (curveDiffs md).length := by omega
        rw [h2, List.take_length]
      rw [takeSum_succ _ (k % (curveDiffs md).length) (by omega)] at hfull
      have hexp : (k / (curveDiffs md).length + 1) * (curveDiffs md).sum
          = (k / (curveDiffs md).length) * (curveDiffs md).sum
            + (curveDiffs md).sum := by ring
      simp only [List.take_zero, List.sum_nil]
      omega

/-- Every value yielded by `Curve::steps_iter` on a well-formed prefix
with a unique largest distance is positive and is a genuine step of
`Curve::number_arrivals`. -/
lemma curve_steps_sound (md : List Nat) (hne : md ≠ [])
    (hch : List.Chain (· ≤ ·) 0 md) (hD : 0 < md.getLastD 0)
    (huniq : md.count (md.getLastD 0) = 1) (k : Nat) :
    0 < curveStepsSeq md k ∧
      curveNumberArrivals md (curveStepsSeq md k - 1)
        < curveNumberArrivals md (curveStepsSeq md k) := by
  have hS := curveDiffs_sum md hch
  have hm := curveDiffs_length_pos md hch hD
  have hclosed := curveStepsSeq_closed md hm k
  rw [hS] at hclosed
  have hjlt : k % (curveDiffs md).length < (curveDiffs md).length := Nat.mod_lt k hm
  have hn : 0 < md.length := List.length_pos.mpr hne
  have hPlt : ((curveDiffs md).take (k % (curveDiffs md).length)).sum
      < md.getLastD 0 := by
    have := takeSum_lt (curveDiffs md) (curveDiffs_pos md)
      (k % (curveDiffs md).length) (curveDiffs md).length hjlt le_rfl
    rw [List.take_length] at this
    omega
  have hcomm : (k / (curveDiffs md).length) * md.getLastD 0
      = md.getLastD 0 * (k / (curveDiffs md).length) := Nat.mul_comm _ _
  refine ⟨by omega, ?_⟩
  rw [curveNumberArrivals_repr md hne hch hD, curveNumberArrivals_repr md hne hch hD]
  have hPmem : 1 ≤ ((curveDiffs md).take (k % (curveDiffs md).length)).sum →
      ((curveDiffs md).take (k % (curveDiffs md).length)).sum ∈ md := by
    intro hP1
    have hj1 : 1 ≤ k % (curveDiffs md).length := by
      rcases Nat.eq_zero_or_pos (k % (curveDiffs md).length) with h0 | h0
      · rw [h0] at hP1
        simp at hP1
      · exact h0
    have := nzdRel_takeSum_mem 0 md hch (k % (curveDiffs md).length) hj1
      (by rw [← curveDiffs_eq_nzdRel]; omega)
    rw [← curveDiffs_eq_nzdRel] at this
    simpa using this
  by_cases hPD : ((curveDiffs md).take (k % (curveDiffs md).length)).sum + 1
      < md.getLastD 0
  · -- step strictly inside the cycle
    obtain ⟨hdiv1, hmod1⟩ := div_mod_of_decomp (md.getLastD 0)
      (k / (curveDiffs md).length)
      ((curveDiffs md).take (k % (curveDiffs md).length)).sum
      (curveStepsSeq md k - 1) hD (by omega) (by omega)
    obtain ⟨hdiv2, hmod2⟩ := div_mod_of_decomp (md.getLastD 0)
      (k / (curveDiffs md).length)
      (((curveDiffs md).take (k % (curveDiffs md).length)).sum + 1)
      (curveStepsSeq md k) hD hPD (by omega)
    rw [hdiv1, hmod1, hdiv2, hmod2]
    have hstep : curveStepFn md ((curveDiffs md).take (k % (curveDiffs md).length)).sum
        < curveStepFn md (((curveDiffs md).take (k % (curveDiffs md).length)).sum + 1) := by
      simp only [curveStepFn]
      by_cases hP0 : ((curveDiffs md).take (k % (curveDiffs md).length)).sum = 0
      · rw [if_pos hP0, if_neg (by omega)]
        omega
      · rw [if_neg hP0, if_neg (by omega)]
        have hsplit := countP_lt_succ_split
          ((curveDiffs md).take (k % (curveDiffs md).length)).sum md
        have hcnt := (count_pos_iff_mem_nat _ md).mpr (hPmem (by omega))
        omega
    omega
  · -- step at the cycle boundary
    have hPeq : ((curveDiffs md).take (k % (curveDiffs md).length)).sum + 1
        = md.getLastD 0 := by omega
    obtain ⟨hdiv1, hmod1⟩ := div_mod_of_decomp (md.getLastD 0)
      (k / (curveDiffs md).length)
      ((curveDiffs md).take (k % (curveDiffs md).length)).sum
      (curveStepsSeq md k - 1) hD (by omega) (by omega)
    obtain ⟨hdiv2, hmod2⟩ := div_mod_of_decomp (md.getLastD 0)
      (k / (curveDiffs md).length + 1) 0 (curveStepsSeq md k) hD hD
      (by
        have hexp : md.getLastD 0 * (k / (curveDiffs md).length + 1)
            = md.getLastD 0 * (k / (curveDiffs md).length) + md.getLastD 0 := by ring
        omega)
    rw [hdiv1, hmod1, hdiv2, hmod2]
    have hexp2 : (k / (curveDiffs md).length + 1) * md.length
        = (k / (curveDiffs md).length) * md.length + md.length := by ring
    have hstep : curveStepFn md ((curveDiffs md).take (k % (curveDiffs md).length)).sum
        < md.length := by
      simp only [curveStepFn]
      by_cases hP0 : ((curveDiffs md).take (k % (curveDiffs md).length)).sum = 0
      · rw [if_pos hP0]
        omega
      · rw [if_neg hP0]
        have hmem := hPmem (by omega)
        have hcnt := (count_pos_iff_mem_nat _ md).mpr hmem
        have hsplit1 := countP_lt_succ_split
          ((curveDiffs md).take (k % (curveDiffs md).length)).sum md
        have hsplit2 := countP_lt_succ_split (md.getLastD 0) md
        have hall : md.countP (fun x => decide (x < md.getLastD 0 + 1)) = md.length := by
          rw [List.countP_eq_length]
          intro a ha
          have := chain_mem_le_getLastD hch a ha
          simp only [decide_eq_true_eq]
          omega
        rw [hPeq] at hsplit1
        omega
    have hz : curveStepFn md 0 = 0 := rfl
    rw [hz]
    omega

/-- Evaluation of the yielded sequence at full cycles `q` plus offset
`j` into the cycle. -/
lemma curveStepsSeq_at (md : List Nat) (hch : List.Chain (· ≤ ·) 0 md)
    (hm : 0 < (curveDiffs md).length) (q j : Nat) (hj : j < (curveDiffs md).length) :
    curveStepsSeq md ((curveDiffs md).length * q + j)
      = 1 + q * md.getLastD 0 + ((curveDiffs md).take j).sum := by
  have hS := curveDiffs_sum md hch
  have hcl := curveStepsSeq_closed md hm ((curveDiffs md).length * q + j)
  rw [hS] at hcl
  obtain ⟨hdiv, hmod⟩ := div_mod_of_decomp (curveDiffs md).length q j _ hm hj rfl
  rw [hdiv, hmod] at hcl
  exact hcl

/-- Every genuine step of `Curve::number_arrivals` on a well-formed
prefix with a unique largest distance is yielded by `steps_iter`. -/
lemma curve_steps_complete (md : List Nat) (hne : md ≠ [])
    (hch : List.Chain (· ≤ ·) 0 md) (hD : 0 < md.getLastD 0)
    (huniq : md.count (md.getLastD 0) = 1) (Δ : Nat) (hΔ : 0 < Δ)
    (hstep : curveNumberArrivals md (Δ - 1) < curveNumberArrivals md Δ) :
    ∃ k, curveStepsSeq md k = Δ := by
  have hS := curveDiffs_sum md hch
  have hm := curveDiffs_length_pos md hch hD
  have hn : 0 < md.length := List.length_pos.mpr hne
  have hdm := Nat.div_add_mod (Δ - 1) (md.getLastD 0)
  have hw : (Δ - 1) % md.getLastD 0 < md.getLastD 0 := Nat.mod_lt _ hD
  rw [curveNumberArrivals_repr md hne hch hD,
    curveNumberArrivals_repr md hne hch hD] at hstep
  by_cases hw0 : (Δ - 1) % md.getLastD 0 = 0
  · refine ⟨(curveDiffs md).length * ((Δ - 1) / md.getLastD 0) + 0, ?_⟩
    rw [curveStepsSeq_at md hch hm _ 0 hm]
    simp only [List.take_zero, List.sum_nil]
    have hcomm : (Δ - 1) / md.getLastD 0 * md.getLastD 0
        = md.getLastD 0 * ((Δ - 1) / md.getLastD 0) := Nat.mul_comm _ _
    omega
  · have h1 : curveStepFn md ((Δ - 1) % md.getLastD 0)
        = md.countP (fun x => decide (x < (Δ - 1) % md.getLastD 0)) + 1 := by
      simp only [curveStepFn]
      rw [if_neg hw0]
    have hcw : 0 < md.count ((Δ - 1) % md.getLastD 0) := by
      by_cases hc : (Δ - 1) % md.getLastD 0 + 1 < md.getLastD 0
      · obtain ⟨hdiv2, hmod2⟩ := div_mod_of_decomp (md.getLastD 0)
          ((Δ - 1) / md.getLastD 0) ((Δ - 1) % md.getLastD 0 + 1) Δ hD hc (by omega)
        rw [hdiv2, hmod2] at hstep
        have h2 : curveStepFn md ((Δ - 1) % md.getLastD 0 + 1)
            = md.countP (fun x => decide (x < (Δ - 1) % md.getLastD 0 + 1)) + 1 := by
          simp only [curveStepFn]
          rw [if_neg (by omega)]
        have hsplit := countP_lt_succ_split ((Δ - 1) % md.getLastD 0) md
        omega
      · have hwD : (Δ - 1) % md.getLastD 0 + 1 = md.getLastD 0 := by omega
        obtain ⟨hdiv2, hmod2⟩ := div_mod_of_decomp (md.getLastD 0)
          ((Δ - 1) / md.getLastD 0 + 1) 0 Δ hD hD
          (by
            have hexp : md.getLastD 0 * ((Δ - 1) / md.getLastD 0 + 1)
                = md.getLastD 0 * ((Δ - 1) / md.getLastD 0) + md.getLastD 0 := by ring
            omega)
        rw [hdiv2, hmod2] at hstep
        have hz : curveStepFn md 0 = 0 := rfl
        rw [hz] at hstep
        have hsplit1 := countP_lt_succ_split ((Δ - 1) % md.getLastD 0) md
        rw [hwD] at hsplit1
        have hsplit2 := countP_lt_succ_split (md.getLastD 0) md
        have hall : md.countP (fun x => decide (x < md.getLastD 0 + 1)) = md.length := by
          rw [List.countP_eq_length]
          intro a ha
          have := chain_mem_le_getLastD hch a ha
          simp only [decide_eq_true_eq]
          omega
        have hexp2 : ((Δ - 1) / md.getLastD 0 + 1) * md.length
            = (Δ - 1) / md.getLastD 0 * md.length + md.length := by ring
        omega
    have hmem := (count_pos_iff_mem_nat _ md).mp hcw
    obtain ⟨j, hjle, hjsum⟩ := nzdRel_mem_takeSum 0 md hch _ hmem
    rw [← curveDiffs_eq_nzdRel] at hjle hjsum
    have hjlt : j < (curveDiffs md).length := by
      by_contra hge
      have hj : j = (curveDiffs md).length := by omega
      rw [hj, List.take_length] at hjsum
      omega
    refine ⟨(curveDiffs md).length * ((Δ - 1) / md.getLastD 0) + j, ?_⟩
    rw [curveStepsSeq_at md hch hm _ j hjlt]
    have hcomm : (Δ - 1) / md.getLastD 0 * md.getLastD 0
        = md.getLastD 0 * ((Δ - 1) / md.getLastD 0) := Nat.mul_comm _ _
    omega

/-- The yielded curve sequence is strictly increasing. -/
lemma curveStepsSeq_strictMono (md : List Nat) (hm : 0 < (curveDiffs md).length) :
    StrictMono (curveStepsSeq md) := by
  apply strictMono_nat_of_lt_succ
  intro k
  rw [curveStepsSeq]
  have hmem : (curveDiffs md).getD (k % (curveDiffs md).length) 0 ∈ curveDiffs md := by
    have hlt : k % (curveDiffs md).length < (curveDiffs md).length := Nat.mod_lt k hm
    rw [List.getD_eq_getElem (curveDiffs md) 0 hlt]
    exact List.getElem_mem hlt
  have := curveDiffs_pos md _ hmem
  omega

/-- An exhausted well-behaved stream stays exhausted at all later
positions. -/
lemma streamOK_none_ge (f : Nat → Option Nat) (h : StreamOK f) :
    ∀ i j, i ≤ j → f i = none → f j = none := by
  intro i j hij hnone
  obtain ⟨d, rfl⟩ : ∃ d, j = i + d := ⟨j - i, by omega⟩
  clear hij
  induction d with
  | zero => exact hnone
  | succ e ih => exact h.2.1 (i + e) ih

/-- Walking a well-behaved stream back from a yielded value: earlier
positions hold values smaller by at least the distance. -/
lemma streamOK_some_le (f : Nat → Option Nat) (h : StreamOK f) :
    ∀ (d i : Nat) (y : Nat), f (i + d) = some y →
      ∃ x, f i = some x ∧ x + d ≤ y := by
  intro d
  induction d with
  | zero =>
    intro i y hy
    rw [Nat.add_zero] at hy
    exact ⟨y, hy, by omega⟩
  | succ e ih =>
    intro i y hy
    have hy' : f ((i + 1) + e) = some y := by
      rw [show (i + 1) + e = i + (e + 1) from by omega]
      exact hy
    obtain ⟨x1, hx1, hle1⟩ := ih (i + 1) y hy'
    cases hfi : f i with
    | none =>
      have hcon := h.2.1 i hfi
      rw [hcon] at hx1
      exact Option.noConfusion hx1
    | some x0 =>
      have hlt := h.2.2 i (i + 1) x0 x1 (by omega) hfi hx1
      exact ⟨x0, rfl, by omega⟩

/-- What the lazy filter scan of `Propagated::steps_iter` returns: the
positions before it hold values at most `jitter + 1`, the position it
stops at does not, and it never moves backwards. -/
lemma skipScan_spec (j : Nat) (f : Nat → Option Nat) :
    ∀ (fuel i : Nat), (∀ x, f (i + fuel) = some x → j + 1 < x) →
      (∀ q, i ≤ q → q < skipScan j f fuel i → ∃ x, f q = some x ∧ x ≤ j + 1)
        ∧ (∀ x, f (skipScan j f fuel i) = some x → j + 1 < x)
        ∧ i ≤ skipScan j f fuel i := by
  intro fuel
  induction fuel with
  | zero =>
    intro i hb
    rw [Nat.add_zero] at hb
    have hred : skipScan j f 0 i = i := rfl
    rw [hred]
    exact ⟨fun q hq1 hq2 => by omega, hb, le_rfl⟩
  | succ fu ih =>
    intro i hb
    cases hfi : f i with
    | none =>
      have hred : skipScan j f (fu + 1) i = i := by
        simp only [skipScan]
        rw [hfi]
      rw [hred]
      refine ⟨fun q hq1 hq2 => by omega, fun x hx => ?_, le_rfl⟩
      rw [hfi] at hx
      exact Option.noConfusion hx
    | some x0 =>
      have hred : skipScan j f (fu + 1) i
          = if x0 ≤ j + 1 then skipScan j f fu (i + 1) else i := by
        simp only [skipScan]
        rw [hfi]
      rw [hred]
      by_cases hx0 : x0 ≤ j + 1
      · rw [if_pos hx0]
        obtain ⟨h1, h2, h3⟩ := ih (i + 1) (by
          intro x hx
          apply hb
          rw [show i + (fu + 1) = i + 1 + fu from by omega]
          exact hx)
        refine ⟨?_, h2, by omega⟩
        intro q hq1 hq2
        rcases Nat.eq_or_lt_of_le hq1 with rfl | hlt
        · exact ⟨x0, hfi, hx0⟩
        · exact h1 q (by omega) hq2
      · rw [if_neg hx0]
        refine ⟨fun q hq1 hq2 => by omega, fun x hx => ?_, le_rfl⟩
        rw [hfi] at hx
        injection hx with he
        omega

/-- Reduction of `mergeAdvance` when both iterators are exhausted. -/
lemma mergeAdvance_nn (f g : Nat → Option Nat) (s : Nat × Nat)
    (hf : f s.1 = none) (hg : g s.2 = none) : mergeAdvance f g s = s := by
  simp only [mergeAdvance]
  rw [hf, hg]

/-- Reduction of `mergeAdvance` when only the left iterator yields. -/
lemma mergeAdvance_sn (f g : Nat → Option Nat) (s : Nat × Nat) (a : Nat)
    (hf : f s.1 = some a) (hg : g s.2 = none) :
    mergeAdvance f g s = (s.1 + 1, s.2) := by
  simp only [mergeAdvance]
  rw [hf, hg]

/-- Reduction of `mergeAdvance` when only the right iterator yields. -/
lemma mergeAdvance_ns (f g : Nat → Option Nat) (s : Nat × Nat) (b : Nat)
    (hf : f s.1 = none) (hg : g s.2 = some b) :
    mergeAdvance f g s = (s.1, s.2 + 1) := by
  simp only [mergeAdvance]
  rw [hf, hg]

/-- Reduction of `mergeAdvance` when both iterators yield. -/
lemma mergeAdvance_ss (f g : Nat → Option Nat) (s : Nat × Nat) (a b : Nat)
    (hf : f s.1 = some a) (hg : g s.2 = some b) :
    mergeAdvance f g s
      = if a < b then (s.1 + 1, s.2)
        else if b < a then (s.1, s.2 + 1) else (s.1 + 1, s.2 + 1) := by
  simp only [mergeAdvance]
  rw [hf, hg]

/-- Reduction of `mergeOut` when both iterators are exhausted. -/
lemma mergeOut_nn (f g : Nat → Option Nat) (k : Nat)
    (hf : f (mergeState f g k).1 = none) (hg : g (mergeState f g k).2 = none) :
    mergeOut f g k = none := by
  simp only [mergeOut]
  rw [hf, hg]

/-- Reduction of `mergeOut` when only the left iterator yields. -/
lemma mergeOut_sn (f g : Nat → Option Nat) (k : Nat) (a : Nat)
    (hf : f (mergeState f g k).1 = some a) (hg : g (mergeState f g k).2 = none) :
    mergeOut f g k = some a := by
  simp only [mergeOut]
  rw [hf, hg]

/-- Reduction of `mergeOut` when only the right iterator yields. -/
lemma mergeOut_ns (f g : Nat → Option Nat) (k : Nat) (b : Nat)
    (hf : f (mergeState f g k).1 = none) (hg : g (mergeState f g k).2 = some b) :
    mergeOut f g k = some b := by
  simp only [mergeOut]
  rw [hf, hg]

/-- Reduction of `mergeOut` when both iterators yield. -/
lemma mergeOut_ss (f g : Nat → Option Nat) (k : Nat) (a b : Nat)
    (hf : f (mergeState f g k).1 = some a) (hg : g (mergeState f g k).2 = some b) :
    mergeOut f g k = some (min a b) := by
  simp only [mergeOut]
  rw [hf, hg]

/-- Every merged value is a value of one of the merged iterators. -/
lemma mergeOut_src (f g : Nat → Option Nat) (k v : Nat)
    (h : mergeOut f g k = some v) :
    (∃ i, f i = some v) ∨ (∃ i, g i = some v) := by
  cases hfv : f (mergeState f g k).1 with
  | none =>
    cases hgv : g (mergeState f g k).2 with
    | none =>
      rw [mergeOut_nn f g k hfv hgv] at h
      exact Option.noConfusion h
    | some b =>
      rw [mergeOut_ns f g k b hfv hgv] at h
      injection h with he
      exact Or.inr ⟨_, by rw [hgv, he]⟩
  | some a =>
    cases hgv : g (mergeState f g k).2 with
    | none =>
      rw [mergeOut_sn f g k a hfv hgv] at h
      injection h with he
      exact Or.inl ⟨_, by rw [hfv, he]⟩
    | some b =>
      rw [mergeOut_ss f g k a b hfv hgv] at h
      injection h with he
      have hmin : min a b = a ∨ min a b = b := by omega
      rcases hmin with hm | hm
      · exact Or.inl ⟨_, by rw [hfv, ← hm, he]⟩
      · exact Or.inr ⟨_, by rw [hgv, ← hm, he]⟩

/-- After emitting a value, both of the merge's current candidates
strictly exceed it. -/
lemma mergeOut_inv (f g : Nat → Option Nat) (hf : StreamOK f) (hg : StreamOK g)
    (k v : Nat) (hout : mergeOut f g k = some v) :
    (∀ a, f (mergeState f g (k + 1)).1 = some a → v < a)
      ∧ (∀ b, g (mergeState f g (k + 1)).2 = some b → v < b) := by
  have hst : mergeState f g (k + 1) = mergeAdvance f g (mergeState f g k) := rfl
  cases hfv : f (mergeState f g k).1 with
  | none =>
    cases hgv : g (mergeState f g k).2 with
    | none =>
      rw [mergeOut_nn f g k hfv hgv] at hout
      exact Option.noConfusion hout
    | some b =>
      rw [mergeOut_ns f g k b hfv hgv] at hout
      injection hout with he
      subst he
      rw [hst, mergeAdvance_ns f g _ b hfv hgv]
      constructor
      · intro a ha
        have ha' : f (mergeState f g k).1 = some a := ha
        rw [hfv] at ha'
        exact Option.noConfusion ha'
      · intro b' hb'
        have hb'' : g ((mergeState f g k).2 + 1) = some b' := hb'
        exact hg.2.2 _ _ _ _ (by omega) hgv hb''
  | some a =>
    cases hgv : g (mergeState f g k).2 with
    | none =>
      rw [mergeOut_sn f g k a hfv hgv] at hout
      injection hout with he
      subst he
      rw [hst, mergeAdvance_sn f g _ a hfv hgv]
      constructor
      · intro a' ha'
        have ha'' : f ((mergeState f g k).1 + 1) = some a' := ha'
        exact hf.2.2 _ _ _ _ (by omega) hfv ha''
      · intro b hb
        have hb' : g (mergeState f g k).2 = some b := hb
        rw [hgv] at hb'
        exact Option.noConfusion hb'
    | some b =>
      rw [mergeOut_ss f g k a b hfv hgv] at hout
      injection hout with he
      subst he
      rw [hst, mergeAdvance_ss f g _ a b hfv hgv]
      by_cases h1 : a < b
      · rw [if_pos h1]
        constructor
        · intro a' ha'
          have ha'' : f ((mergeState f g k).1 + 1) = some a' := ha'
          have := hf.2.2 _ _ _ _ (by omega) hfv ha''
          omega
        · intro b' hb'
          have hb'' : g (mergeState f g k).2 = some b' := hb'
          rw [hgv] at hb''
          injection hb'' with he2
          omega
      · by_cases h2 : b < a
        · rw [if_neg h1, if_pos h2]
          constructor
          · intro a' ha'
            have ha'' : f (mergeState f g k).1 = some a' := ha'
            rw [hfv] at ha''
            injection ha'' with he2
            omega
          · intro b' hb'
            have hb'' : g ((mergeState f g k).2 + 1) = some b' := hb'
            have := hg.2.2 _ _ _ _ (by omega) hgv hb''
            omega
        · rw [if_neg h1, if_neg h2]
          constructor
          · intro a' ha'
            have ha'' : f ((mergeState f g k).1 + 1) = some a' := ha'
            have := hf.2.2 _ _ _ _ (by omega) hfv ha''
            omega
          · intro b' hb'
            have hb'' : g ((mergeState f g k).2 + 1) = some b' := hb'
            have := hg.2.2 _ _ _ _ (by omega) hgv hb''
            omega

/-- An exhausted merge stays exhausted. -/
lemma mergeOut_noneClosed (f g : Nat → Option Nat) (k : Nat)
    (h : mergeOut f g k = none) : mergeOut f g (k + 1) = none := by
  cases hfv : f (mergeState f g k).1 with
  | some a =>
    cases hgv : g (mergeState f g k).2 with
    | none => rw [mergeOut_sn f g k a hfv hgv] at h; exact Option.noConfusion h
    | some b => rw [mergeOut_ss f g k a b hfv hgv] at h; exact Option.noConfusion h
  | none =>
    cases hgv : g (mergeState f g k).2 with
    | some b => rw [mergeOut_ns f g k b hfv hgv] at h; exact Option.noConfusion h
    | none =>
      have hst : mergeState f g (k + 1) = mergeState f g k := by
        show mergeAdvance f g (mergeState f g k) = _
        exact mergeAdvance_nn f g _ hfv hgv
      exact mergeOut_nn f g (k + 1) (by rw [hst]; exact hfv) (by rw [hst]; exact hgv)

/-- Adjacent merged values increase strictly. -/
lemma mergeOut_lt_succ (f g : Nat → Option Nat) (hf : StreamOK f) (hg : StreamOK g)
    (k v w : Nat) (hv : mergeOut f g k = some v) (hw : mergeOut f g (k + 1) = some w) :
    v < w := by
  obtain ⟨h1, h2⟩ := mergeOut_inv f g hf hg k v hv
  cases hfv : f (mergeState f g (k + 1)).1 with
  | none =>
    cases hgv : g (mergeState f g (k + 1)).2 with
    | none =>
      rw [mergeOut_nn f g (k + 1) hfv hgv] at hw
      exact Option.noConfusion hw
    | some b =>
      rw [mergeOut_ns f g (k + 1) b hfv hgv] at hw
      injection hw with he
      subst he
      exact h2 _ hgv
  | some a =>
    cases hgv : g (mergeState f g (k + 1)).2 with
    | none =>
      rw [mergeOut_sn f g (k + 1) a hfv hgv] at hw
      injection hw with he
      subst he
      exact h1 _ hfv
    | some b =>
      rw [mergeOut_ss f g (k + 1) a b hfv hgv] at hw
      injection hw with he
      subst he
      have := h1 _ hfv
      have := h2 _ hgv
      omega

/-- Generic consequence of exhaustion-stability and adjacent strict
growth: a stream's value at distance `d` exceeds its value at the
start by at least `d`. -/
lemma stream_some_le_of (F : Nat → Option Nat)
    (hnc : ∀ k, F k = none → F (k + 1) = none)
    (hlt : ∀ k v w, F k = some v → F (k + 1) = some w → v < w) :
    ∀ (d i : Nat) (y : Nat), F (i + d) = some y →
      ∃ x, F i = some x ∧ x + d ≤ y := by
  intro d
  induction d with
  | zero =>
    intro i y hy
    rw [Nat.add_zero] at hy
    exact ⟨y, hy, by omega⟩
  | succ e ih =>
    intro i y hy
    have hy' : F ((i + 1) + e) = some y := by
      rw [show (i + 1) + e = i + (e + 1) from by omega]
      exact hy
    obtain ⟨x1, hx1, hle1⟩ := ih (i + 1) y hy'
    cases hfi : F i with
    | none =>
      have hcon := hnc i hfi
      rw [hcon] at hx1
      exact Option.noConfusion hx1
    | some x0 =>
      have := hlt i x0 x1 hfi hx1
      exact ⟨x0, rfl, by omega⟩

/-- The merged stream of two well-behaved streams is well-behaved. -/
lemma mergeOut_streamOK (f g : Nat → Option Nat) (hf : StreamOK f)
    (hg : StreamOK g) : StreamOK (mergeOut f g) := by
  have hmono : ∀ k1 k2 v w, k1 < k2 → mergeOut f g k1 = some v →
      mergeOut f g k2 = some w → v < w := by
    intro k1 k2 v w hk h1 h2
    obtain ⟨d, rfl⟩ : ∃ d, k2 = k1 + (d + 1) := ⟨k2 - k1 - 1, by omega⟩
    clear hk
    induction d generalizing w with
    | zero => exact mergeOut_lt_succ f g hf hg k1 v w h1 h2
    | succ e ih =>
      cases hmid : mergeOut f g (k1 + (e + 1)) with
      | none =>
        have hnone := mergeOut_noneClosed f g (k1 + (e + 1)) hmid
        rw [show k1 + (e + 1) + 1 = k1 + (e + 1 + 1) from by omega] at hnone
        rw [hnone] at h2
        exact Option.noConfusion h2
      | some u =>
        have hvu := ih u hmid
        have huw := mergeOut_lt_succ f g hf hg (k1 + (e + 1)) u w hmid
          (by rw [show k1 + (e + 1) + 1 = k1 + (e + 1 + 1) from by omega]; exact h2)
        omega
  refine ⟨?_, fun k => mergeOut_noneClosed f g k, hmono⟩
  intro k x hx
  obtain ⟨y, hy, hxy⟩ := stream_some_le_of (mergeOut f g)
    (fun k => mergeOut_noneClosed f g k)
    (fun k v w => mergeOut_lt_succ f g hf hg k v w) k 0 x
    (by rw [Nat.zero_add]; exact hx)
  have h1y : 1 ≤ y := by
    cases hfv : f (mergeState f g 0).1 with
    | none =>
      cases hgv : g (mergeState f g 0).2 with
      | none =>
        rw [mergeOut_nn f g 0 hfv hgv] at hy
        exact Option.noConfusion hy
      | some b =>
        rw [mergeOut_ns f g 0 b hfv hgv] at hy
        injection hy with he
        have := hg.1 _ _ hgv
        omega
    | some a =>
      cases hgv : g (mergeState f g 0).2 with
      | none =>
        rw [mergeOut_sn f g 0 a hfv hgv] at hy
        injection hy with he
        have := hf.1 _ _ hfv
        omega
      | some b =>
        rw [mergeOut_ss f g 0 a b hfv hgv] at hy
        injection hy with he
        have := hf.1 _ _ hfv
        have := hg.1 _ _ hgv
        omega
  omega

/-- Every value of either iterator read before the merge's current
position has already been emitted. -/
lemma merge_consumed (f g : Nat → Option Nat) :
    ∀ k,
      (∀ i v, i < (mergeState f g k).1 → f i = some v →
        ∃ q, mergeOut f g q = some v)
        ∧ (∀ i v, i < (mergeState f g k).2 → g i = some v →
            ∃ q, mergeOut f g q = some v) := by
  intro k
  induction k with
  | zero =>
    exact ⟨fun i v hi _ => absurd hi (show ¬ i < 0 by omega),
      fun i v hi _ => absurd hi (show ¬ i < 0 by omega)⟩
  | succ k' ih =>
    have hst : mergeState f g (k' + 1) = mergeAdvance f g (mergeState f g k') := rfl
    cases hfv : f (mergeState f g k').1 with
    | none =>
      cases hgv : g (mergeState f g k').2 with
      | none =>
        rw [hst, mergeAdvance_nn f g _ hfv hgv]
        exact ih
      | some b =>
        rw [hst, mergeAdvance_ns f g _ b hfv hgv]
        refine ⟨fun i v hi hv => ih.1 i v hi hv, fun i v hi hv => ?_⟩
        have hi' : i < (mergeState f g k').2 + 1 := hi
        rcases Nat.lt_or_ge i (mergeState f g k').2 with hlt | hge
        · exact ih.2 i v hlt hv
        · have hie : i = (mergeState f g k').2 := by omega
          subst hie
          rw [hgv] at hv
          injection hv with he
          exact ⟨k', by rw [mergeOut_ns f g k' b hfv hgv, he]⟩
    | some a =>
      cases hgv : g (mergeState f g k').2 with
      | none =>
        rw [hst, mergeAdvance_sn f g _ a hfv hgv]
        refine ⟨fun i v hi hv => ?_, fun i v hi hv => ih.2 i v hi hv⟩
        have hi' : i < (mergeState f g k').1 + 1 := hi
        rcases Nat.lt_or_ge i (mergeState f g k').1 with hlt | hge
        · exact ih.1 i v hlt hv
        · have hie : i = (mergeState f g k').1 := by omega
          subst hie
          rw [hfv] at hv
          injection hv with he
          exact ⟨k', by rw [mergeOut_sn f g k' a hfv hgv, he]⟩
      | some b =>
        rw [hst, mergeAdvance_ss f g _ a b hfv hgv]
        have hout := mergeOut_ss f g k' a b hfv hgv
        by_cases h1 : a < b
        · rw [if_pos h1]
          refine ⟨fun i v hi hv => ?_, fun i v hi hv => ih.2 i v hi hv⟩
          have hi' : i < (mergeState f g k').1 + 1 := hi
          rcases Nat.lt_or_ge i (mergeState f g k').1 with hlt | hge
          · exact ih.1 i v hlt hv
          · have hie : i = (mergeState f g k').1 := by omega
            subst hie
            rw [hfv] at hv
            injection hv with he
            refine ⟨k', by rw [hout]; congr 1; omega⟩
        · by_cases h2 : b < a
          · rw [if_neg h1, if_pos h2]
            refine ⟨fun i v hi hv => ih.1 i v hi hv, fun i v hi hv => ?_⟩
            have hi' : i < (mergeState f g k').2 + 1 := hi
            rcases Nat.lt_or_ge i (mergeState f g k').2 with hlt | hge
            · exact ih.2 i v hlt hv
            · have hie : i = (mergeState f g k').2 := by omega
              subst hie
              rw [hgv] at hv
              injection hv with he
              refine ⟨k', by rw [hout]; congr 1; omega⟩
          · rw [if_neg h1, if_neg h2]
            refine ⟨fun i v hi hv => ?_, fun i v hi hv => ?_⟩
            · have hi' : i < (mergeState f g k').1 + 1 := hi
              rcases Nat.lt_or_ge i (mergeState f g k').1 with hlt | hge
              · exact ih.1 i v hlt hv
              · have hie : i = (mergeState f g k').1 := by omega
                subst hie
                rw [hfv] at hv
                injection hv with he
                refine ⟨k', by rw [hout]; congr 1; omega⟩
            · have hi' : i < (mergeState f g k').2 + 1 := hi
              rcases Nat.lt_or_ge i (mergeState f g k').2 with hlt | hge
              · exact ih.2 i v hlt hv
              · have hie : i = (mergeState f g k').2 := by omega
                subst hie
                rw [hgv] at hv
                injection hv with he
                refine ⟨k', by rw [hout]; congr 1; omega⟩

/-- While a candidate remains, the merge's position sum advances. -/
lemma merge_progress (f g : Nat → Option Nat) (k : Nat)
    (hcand : f (mergeState f g k).1 ≠ none ∨ g (mergeState f g k).2 ≠ none) :
    (mergeState f g k).1 + (mergeState f g k).2 + 1
      ≤ (mergeState f g (k + 1)).1 + (mergeState f g (k + 1)).2 := by
  have hst : mergeState f g (k + 1) = mergeAdvance f g (mergeState f g k) := rfl
  cases hfv : f (mergeState f g k).1 with
  | none =>
    cases hgv : g (mergeState f g k).2 with
    | none =>
      rcases hcand with hc | hc
      · exact absurd hfv hc
      · exact absurd hgv hc
    | some b =>
      rw [hst, mergeAdvance_ns f g _ b hfv hgv]
      omega
  | some a =>
    cases hgv : g (mergeState f g k).2 with
    | none =>
      rw [hst, mergeAdvance_sn f g _ a hfv hgv]
      omega
    | some b =>
      rw [hst, mergeAdvance_ss f g _ a b hfv hgv]
      by_cases h1 : a < b
      · rw [if_pos h1]
        omega
      · by_cases h2 : b < a
        · rw [if_neg h1, if_pos h2]
          omega
        · rw [if_neg h1, if_neg h2]
          omega

/-- Every value of the left iterator is eventually emitted by the
merge. -/
lemma merge_reaches_left (f g : Nat → Option Nat) (hf : StreamOK f)
    (hg : StreamOK g) (i v : Nat) (hfi : f i = some v) :
    ∃ q, mergeOut f g q = some v := by
  by_contra hno
  have hC1 : ∀ k, (mergeState f g k).1 ≤ i := by
    intro k
    by_contra hgt
    exact hno ((merge_consumed f g k).1 i v (by omega) hfi)
  have hFsome : ∀ k, f (mergeState f g k).1 ≠ none := by
    intro k hnone
    have := streamOK_none_ge f hf (mergeState f g k).1 i (hC1 k) hnone
    rw [this] at hfi
    exact Option.noConfusion hfi
  have hsum : ∀ k, k ≤ (mergeState f g k).1 + (mergeState f g k).2 := by
    intro k
    induction k with
    | zero => omega
    | succ k' ihs =>
      have := merge_progress f g k' (Or.inl (hFsome k'))
      omega
  have hFle : ∀ k a, f (mergeState f g k).1 = some a → a ≤ v := by
    intro k a ha
    obtain ⟨d, hd⟩ : ∃ d, i = (mergeState f g k).1 + d :=
      ⟨i - (mergeState f g k).1, by have := hC1 k; omega⟩
    obtain ⟨x, hx1, hx2⟩ := streamOK_some_le f hf d (mergeState f g k).1 v
      (by rw [← hd]; exact hfi)
    rw [ha] at hx1
    injection hx1 with he
    omega
  have hstep : ∀ k, v + 1 ≤ (mergeState f g k).2 →
      (mergeState f g k).1 + 1 ≤ (mergeState f g (k + 1)).1 := by
    intro k hbigk
    have hst : mergeState f g (k + 1) = mergeAdvance f g (mergeState f g k) := rfl
    cases hfv : f (mergeState f g k).1 with
    | none => exact absurd hfv (hFsome k)
    | some a =>
      cases hgv : g (mergeState f g k).2 with
      | none =>
        rw [hst, mergeAdvance_sn f g _ a hfv hgv]
      | some b =>
        have hb := hg.1 _ _ hgv
        have hab : a < b := by
          have := hFle k a hfv
          omega
        rw [hst, mergeAdvance_ss f g _ a b hfv hgv, if_pos hab]
  have hbig : ∀ k, i + v + 1 ≤ k → v + 1 ≤ (mergeState f g k).2 := by
    intro k hk
    have h1 := hsum k
    have h2 := hC1 k
    omega
  have hfin : ∀ d, (mergeState f g (i + v + 1)).1 + d
      ≤ (mergeState f g (i + v + 1 + d)).1 := by
    intro d
    induction d with
    | zero =>
      rw [Nat.add_zero, Nat.add_zero]
    | succ e ihd =>
      have := hstep (i + v + 1 + e) (hbig _ (by omega))
      rw [show i + v + 1 + (e + 1) = (i + v + 1 + e) + 1 from by omega]
      omega
  have h1 := hfin (i + 1)
  have h2 := hC1 (i + v + 1 + (i + 1))
  omega

/-- Every value of the right iterator is eventually emitted by the
merge. -/
lemma merge_reaches_right (f g : Nat → Option Nat) (hf : StreamOK f)
    (hg : StreamOK g) (i v : Nat) (hgi : g i = some v) :
    ∃ q, mergeOut f g q = some v := by
  by_contra hno
  have hC1 : ∀ k, (mergeState f g k).2 ≤ i := by
    intro k
    by_contra hgt
    exact hno ((merge_consumed f g k).2 i v (by omega) hgi)
  have hGsome : ∀ k, g (mergeState f g k).2 ≠ none := by
    intro k hnone
    have := streamOK_none_ge g hg (mergeState f g k).2 i (hC1 k) hnone
    rw [this] at hgi
    exact Option.noConfusion hgi
  have hsum : ∀ k, k ≤ (mergeState f g k).1 + (mergeState f g k).2 := by
    intro k
    induction k with
    | zero => omega
    | succ k' ihs =>
      have := merge_progress f g k' (Or.inr (hGsome k'))
      omega
  have hGle : ∀ k b, g (mergeState f g k).2 = some b → b ≤ v := by
    intro k b hb
    obtain ⟨d, hd⟩ : ∃ d, i = (mergeState f g k).2 + d :=
      ⟨i - (mergeState f g k).2, by have := hC1 k; omega⟩
    obtain ⟨x, hx1, hx2⟩ := streamOK_some_le g hg d (mergeState f g k).2 v
      (by rw [← hd]; exact hgi)
    rw [hb] at hx1
    injection hx1 with he
    omega
  have hstep : ∀ k, v + 1 ≤ (mergeState f g k).1 →
      (mergeState f g k).2 + 1 ≤ (mergeState f g (k + 1)).2 := by
    intro k hbigk
    have hst : mergeState f g (k + 1) = mergeAdvance f g (mergeState f g k) := rfl
    cases hgv : g (mergeState f g k).2 with
    | none => exact absurd hgv (hGsome k)
    | some b =>
      cases hfv : f (mergeState f g k).1 with
      | none =>
        rw [hst, mergeAdvance_ns f g _ b hfv hgv]
      | some a =>
        have ha := hf.1 _ _ hfv
        have hba : b < a := by
          have := hGle k b hgv
          omega
        rw [hst, mergeAdvance_ss f g _ a b hfv hgv, if_neg (by omega), if_pos hba]
  have hbig : ∀ k, i + v + 1 ≤ k → v + 1 ≤ (mergeState f g k).1 := by
    intro k hk
    have h1 := hsum k
    have h2 := hC1 k
    omega
  have hfin : ∀ d, (mergeState f g (i + v + 1)).2 + d
      ≤ (mergeState f g (i + v + 1 + d)).2 := by
    intro d
    induction d with
    | zero =>
      rw [Nat.add_zero, Nat.add_zero]
    | succ e ihd =>
      have := hstep (i + v + 1 + e) (hbig _ (by omega))
      rw [show i + v + 1 + (e + 1) = (i + v + 1 + e) + 1 from by omega]
      omega
  have h1 := hfin (i + 1)
  have h2 := hC1 (i + v + 1 + (i + 1))
  omega

/-- Every member of a chain-sorted list dominates the head. -/
lemma chain_headD_le {b : Nat} {l : List Nat} (h : List.Chain (· ≤ ·) b l) :
    ∀ x ∈ l, l.headD b ≤ x := by
  cases l with
  | nil => intro x hx; cases hx
  | cons y ys =>
    rcases List.chain_cons.mp h with ⟨_, hys⟩
    intro x hx
    rcases List.mem_cons.mp hx with rfl | hx
    · exact le_rfl
    · exact chain_le_of_mem hys x hx

/-- `getD` is monotone in the index on a chain-sorted list. -/
lemma chain_getD_mono : ∀ (b : Nat) (l : List Nat), List.Chain (· ≤ ·) b l →
    ∀ i j, i ≤ j → j < l.length → l.getD i 0 ≤ l.getD j 0 := by
  intro b l
  induction l generalizing b with
  | nil =>
    intro _ i j _ hj
    simp at hj
  | cons y ys ih =>
    intro h i j hij hj
    rcases List.chain_cons.mp h with ⟨hby, hys⟩
    cases i with
    | zero =>
      cases j with
      | zero => exact le_rfl
      | succ j' =>
        simp only [List.getD_cons_zero, List.getD_cons_succ]
        have hj' : j' < ys.length := by
          simp only [List.length_cons] at hj
          omega
        have hmem : ys.getD j' 0 ∈ ys := by
          rw [List.getD_eq_getElem ys 0 hj']
          exact List.getElem_mem hj'
        exact chain_le_of_mem hys _ hmem
    | succ i' =>
      cases j with
      | zero => omega
      | succ j' =>
        simp only [List.getD_cons_succ]
        exact ih y hys i' j' (by omega)
          (by simp only [List.length_cons] at hj; omega)

/-- On a chain-sorted list, the count of values at most `d` is the
boundary position: indices below it hold values at most `d`, the
others larger values. -/
lemma sorted_countP_le_iff : ∀ (b : Nat) (l : List Nat), List.Chain (· ≤ ·) b l →
    ∀ d i, i < l.length →
      (i < l.countP (fun x => decide (x ≤ d)) ↔ l.getD i 0 ≤ d) := by
  intro b l
  induction l generalizing b with
  | nil =>
    intro _ d i hi
    simp at hi
  | cons y ys ih =>
    intro h d i hi
    rcases List.chain_cons.mp h with ⟨hby, hys⟩
    rw [List.countP_cons]
    by_cases hyd : y ≤ d
    · rw [if_pos (by simp only [decide_eq_true_eq]; exact hyd)]
      cases i with
      | zero =>
        simp only [List.getD_cons_zero]
        constructor
        · intro _
          exact hyd
        · intro _
          omega
      | succ i' =>
        simp only [List.getD_cons_succ]
        have hiff := ih y hys d i' (by simp only [List.length_cons] at hi; omega)
        constructor
        · intro hlt
          exact hiff.mp (by omega)
        · intro hle
          have := hiff.mpr hle
          omega
    · rw [if_neg (by simp only [decide_eq_true_eq]; exact hyd)]
      have hz : ys.countP (fun x => decide (x ≤ d)) = 0 := by
        rw [List.countP_eq_zero]
        intro a ha
        simp only [decide_eq_true_eq]
        have := chain_le_of_mem hys a ha
        omega
      rw [hz]
      constructor
      · intro hlt
        omega
      · intro hle
        exfalso
        cases i with
        | zero =>
          simp only [List.getD_cons_zero] at hle
          omega
        | succ i' =>
          simp only [List.getD_cons_succ] at hle
          have hi' : i' < ys.length := by
            simp only [List.length_cons] at hi
            omega
          have hmem : ys.getD i' 0 ∈ ys := by
            rw [List.getD_eq_getElem ys 0 hi']
            exact List.getElem_mem hi'
          have := chain_le_of_mem hys _ hmem
          omega

/-- Elements produced by iterated extension lie at or above the
original last stored distance. -/
lemma curveExtendOnce_iterate_mem_split (X : List Nat) (hne : X ≠ [])
    (hch : List.Chain (· ≤ ·) 0 X) :
    ∀ d y, y ∈ curveExtendOnce^[d] X → y ∈ X ∨ X.getLastD 0 ≤ y := by
  intro d
  induction d with
  | zero =>
    intro y hy
    exact Or.inl hy
  | succ e ihe =>
    intro y hy
    rw [Function.iterate_succ_apply'] at hy
    simp only [curveExtendOnce] at hy
    rcases List.mem_append.mp hy with hy | hy
    · exact ihe y hy
    · rw [List.mem_singleton] at hy
      subst hy
      obtain ⟨hne', _, _, _, hlast⟩ := curveExtendOnce_iterate_invariants X hne hch e
      have := curveExtrapolateNext_ge (curveExtendOnce^[e] X) hne'
      right
      omega

/-- A distance of the extension below an iterate's last distance is
already stored in that iterate. -/
lemma ecIsVal_mem (md : List Nat) (hne : md ≠ []) (hch : List.Chain (· ≤ ·) 0 md)
    (v j : Nat) (hv : ecIsVal md v)
    (hlt : v < (curveExtendOnce^[j] md).getLastD 0) :
    v ∈ curveExtendOnce^[j] md := by
  obtain ⟨j', hj'⟩ := hv
  rcases Nat.le_total j' j with hle | hle
  · obtain ⟨t, ht⟩ := curveExtendOnce_iterate_isPr md j' j hle
    rw [← ht]
    exact List.mem_append_left t hj'
  · obtain ⟨hnej, hchj, _, _, _⟩ := curveExtendOnce_iterate_invariants md hne hch j
    have hcomp : curveExtendOnce^[j'] md
        = curveExtendOnce^[j' - j] (curveExtendOnce^[j] md) := by
      rw [← Function.iterate_add_apply]
      congr 1
      omega
    rw [hcomp] at hj'
    rcases curveExtendOnce_iterate_mem_split _ hnej hchj (j' - j) v hj' with h | h
    · exact h
    · omega

/-- Counting below a bound the last distance already meets is stable
under further extension. -/
lemma curve_iterate_countP_agree (X : List Nat) (hne : X ≠ [])
    (hch : List.Chain (· ≤ ·) 0 X) (Δ : Nat) (hΔ : Δ ≤ X.getLastD 0) :
    ∀ d, (curveExtendOnce^[d] X).countP (fun x => decide (x < Δ))
      = X.countP (fun x => decide (x < Δ)) := by
  intro d
  induction d with
  | zero => rfl
  | succ e ihe =>
    rw [Function.iterate_succ_apply']
    simp only [curveExtendOnce]
    rw [List.countP_append]
    obtain ⟨hne', _, _, _, hlast⟩ := curveExtendOnce_iterate_invariants X hne hch e
    have hnext := curveExtrapolateNext_ge (curveExtendOnce^[e] X) hne'
    have hz : ([curveExtrapolateNext (curveExtendOnce^[e] X)] : List Nat).countP
        (fun x => decide (x < Δ)) = 0 := by
      rw [List.countP_eq_zero]
      intro a ha
      rw [List.mem_singleton] at ha
      subst ha
      simp only [decide_eq_true_eq]
      omega
    rw [hz, ihe]
    omega

/-- `ExtrapolatingCurve::number_arrivals` of a positive window, read
off any iterate whose last stored distance exceeds the window: one
plus the number of stored distances inside the window. -/
lemma extrapolatingNA_repr (md : List Nat) (hne : md ≠ [])
    (hch : List.Chain (· ≤ ·) 0 md) (hlen : 2 ≤ md.length)
    (hD : 0 < md.getLastD 0) (Δ : Nat) (hΔ : 0 < Δ) (j : Nat)
    (hj : Δ < (curveExtendOnce^[j] md).getLastD 0) :
    extrapolatingNumberArrivals md Δ
      = 1 + (curveExtendOnce^[j] md).countP (fun x => decide (x < Δ)) := by
  simp only [extrapolatingNumberArrivals]
  rw [if_neg (by omega)]
  obtain ⟨j0, hj0⟩ := curveExtrapolate_iterate md (Δ + 1)
  have hreach := curveExtrapolate_reaches md (Δ + 1) hne hlen hD
  rw [hj0] at hreach ⊢
  obtain ⟨hne0, hch0, _, _, _⟩ := curveExtendOnce_iterate_invariants md hne hch j0
  rw [curveNumberArrivals_repr _ hne0 hch0 (by omega) Δ]
  rw [Nat.div_eq_of_lt (by omega), Nat.mod_eq_of_lt (by omega)]
  simp only [curveStepFn]
  rw [if_neg (by omega)]
  have hagree : (curveExtendOnce^[j0] md).countP (fun x => decide (x < Δ))
      = (curveExtendOnce^[j] md).countP (fun x => decide (x < Δ)) := by
    rcases Nat.le_total j0 j with hle | hle
    · have hcomp : curveExtendOnce^[j] md
          = curveExtendOnce^[j - j0] (curveExtendOnce^[j0] md) := by
        rw [← Function.iterate_add_apply]
        congr 1
        omega
      rw [hcomp, curve_iterate_countP_agree _ hne0 hch0 Δ (by omega)]
    · obtain ⟨hnej, hchj, _, _, _⟩ := curveExtendOnce_iterate_invariants md hne hch j
      have hcomp : curveExtendOnce^[j0] md
          = curveExtendOnce^[j0 - j] (curveExtendOnce^[j] md) := by
        rw [← Function.iterate_add_apply]
        congr 1
        omega
      rw [hcomp, curve_iterate_countP_agree _ hnej hchj Δ (by omega)]
  omega

/-- A window `v + 1 ≥ 2` is a step of the memoizing curve's arrival
bound exactly when `v` is a stored distance of the extension. -/
lemma ec_step_iff (md : List Nat) (hne : md ≠ [])
    (hch : List.Chain (· ≤ ·) 0 md) (hlen : 2 ≤ md.length)
    (hD : 0 < md.getLastD 0) (v : Nat) (hv : 1 ≤ v) :
    (extrapolatingNumberArrivals md v < extrapolatingNumberArrivals md (v + 1))
      ↔ ecIsVal md v := by
  obtain ⟨j, hj⟩ := curveExtrapolate_iterate md (v + 2)
  have hreach := curveExtrapolate_reaches md (v + 2) hne hlen hD
  rw [hj] at hreach
  rw [extrapolatingNA_repr md hne hch hlen hD v (by omega) j (by omega),
    extrapolatingNA_repr md hne hch hlen hD (v + 1) (by omega) j (by omega)]
  have hsplit := countP_lt_succ_split v (curveExtendOnce^[j] md)
  constructor
  · intro h
    have hcnt : 0 < (curveExtendOnce^[j] md).count v := by omega
    exact ⟨j, (count_pos_iff_mem_nat _ _).mp hcnt⟩
  · intro h
    have hmem := ecIsVal_mem md hne hch v j h (by omega)
    have hcnt := (count_pos_iff_mem_nat _ _).mpr hmem
    omega

/-- The window 1 is always a step of the memoizing curve's bound. -/
lemma ec_step_one (md : List Nat) (hne : md ≠ [])
    (hch : List.Chain (· ≤ ·) 0 md) (hlen : 2 ≤ md.length)
    (hD : 0 < md.getLastD 0) :
    extrapolatingNumberArrivals md 0 < extrapolatingNumberArrivals md 1 := by
  have h0 : extrapolatingNumberArrivals md 0 = 0 := rfl
  obtain ⟨j, hj⟩ := curveExtrapolate_iterate md 2
  have hreach := curveExtrapolate_reaches md 2 hne hlen hD
  rw [hj] at hreach
  rw [h0, extrapolatingNA_repr md hne hch hlen hD 1 (by omega) j (by omega)]
  omega

/-- What one `advance` of `ExtrapolatingCurve::steps_iter` produces: a
strictly larger stored distance of the extension, and the least such. -/
lemma ecDistNext_spec (md : List Nat) (hne : md ≠ [])
    (hch : List.Chain (· ≤ ·) 0 md) (hlen : 2 ≤ md.length)
    (hD : 0 < md.getLastD 0) (d : Nat) :
    d < ecDistNext md d ∧ ecIsVal md (ecDistNext md d)
      ∧ ∀ w, ecIsVal md w → d < w → ecDistNext md d ≤ w := by
  obtain ⟨j0, hj0⟩ := curveExtrapolate_iterate md (d + 1)
  have hreach := curveExtrapolate_reaches md (d + 1) hne hlen hD
  rw [hj0] at hreach
  obtain ⟨hne0, hch0, _, _, _⟩ := curveExtendOnce_iterate_invariants md hne hch j0
  have hunf : ecDistNext md d = (curveExtendOnce^[j0] md).getD
      ((curveExtendOnce^[j0] md).countP (fun x => decide (x ≤ d))) 0 := by
    simp only [ecDistNext]
    rw [hj0]
  rw [hunf]
  have hilen : (curveExtendOnce^[j0] md).countP (fun x => decide (x ≤ d))
      < (curveExtendOnce^[j0] md).length := by
    have hle := List.countP_le_length (fun x => decide (x ≤ d))
      (l := curveExtendOnce^[j0] md)
    rcases Nat.lt_or_ge ((curveExtendOnce^[j0] md).countP (fun x => decide (x ≤ d)))
      (curveExtendOnce^[j0] md).length with h | h
    · exact h
    · exfalso
      have heq : (curveExtendOnce^[j0] md).countP (fun x => decide (x ≤ d))
          = (curveExtendOnce^[j0] md).length := by omega
      have hall := List.countP_eq_length.mp heq
      have hmem := getLastD_mem hne0 0
      have := hall _ hmem
      simp only [decide_eq_true_eq] at this
      omega
  have hval : d < (curveExtendOnce^[j0] md).getD
      ((curveExtendOnce^[j0] md).countP (fun x => decide (x ≤ d))) 0 := by
    have hiff := sorted_countP_le_iff 0 _ hch0 d
      ((curveExtendOnce^[j0] md).countP (fun x => decide (x ≤ d))) hilen
    omega
  have hmem : (curveExtendOnce^[j0] md).getD
      ((curveExtendOnce^[j0] md).countP (fun x => decide (x ≤ d))) 0
      ∈ curveExtendOnce^[j0] md := by
    rw [List.getD_eq_getElem _ 0 hilen]
    exact List.getElem_mem hilen
  refine ⟨hval, ⟨j0, hmem⟩, ?_⟩
  intro w hw hdw
  have hvlast : (curveExtendOnce^[j0] md).getD
      ((curveExtendOnce^[j0] md).countP (fun x => decide (x ≤ d))) 0
      ≤ (curveExtendOnce^[j0] md).getLastD 0 :=
    chain_mem_le_getLastD hch0 _ hmem
  by_cases hwmem : w ∈ curveExtendOnce^[j0] md
  · obtain ⟨idx, hidx, heq⟩ := List.mem_iff_getElem.mp hwmem
    have hgd : (curveExtendOnce^[j0] md).getD idx 0 = w := by
      rw [List.getD_eq_getElem _ 0 hidx]
      exact heq
    have hnotlt : ¬ idx < (curveExtendOnce^[j0] md).countP (fun x => decide (x ≤ d)) := by
      intro hltc
      have := (sorted_countP_le_iff 0 _ hch0 d idx hidx).mp hltc
      omega
    have := chain_getD_mono 0 _ hch0
      ((curveExtendOnce^[j0] md).countP (fun x => decide (x ≤ d))) idx
      (by omega) hidx
    omega
  · have hwlast : (curveExtendOnce^[j0] md).getLastD 0 ≤ w := by
      by_contra hcon
      exact hwmem (ecIsVal_mem md hne hch w j0 hw (by omega))
    omega

/-- The cursor's next stop is determined by a gap: if `v` is a stored
distance above `u` and nothing stored lies strictly between, the next
stop after `u` is `v`. -/
lemma ecDistNext_eq (md : List Nat) (hne : md ≠ [])
    (hch : List.Chain (· ≤ ·) 0 md) (hlen : 2 ≤ md.length)
    (hD : 0 < md.getLastD 0) (u v : Nat)
    (hval : ecIsVal md v) (huv : u < v)
    (hgap : ∀ w, ecIsVal md w → u < w → v ≤ w) :
    ecDistNext md u = v := by
  have hspec := ecDistNext_spec md hne hch hlen hD u
  have h1 := hspec.2.2 v hval huv
  have h2 := hgap _ hspec.2.1 hspec.1
  omega

/-- The `max`-fold of a non-empty list of positive naturals is a
member. -/
lemma foldr_max_mem_aux : ∀ (l : List Nat), l ≠ [] → (∀ x ∈ l, 1 ≤ x) →
    l.foldr max 0 ∈ l := by
  intro l
  induction l with
  | nil =>
    intro h _
    exact absurd rfl h
  | cons y ys ih =>
    intro _ hpos
    simp only [List.foldr_cons]
    rcases Nat.le_total (ys.foldr max 0) y with h | h
    · rw [max_eq_left h]
      exact List.mem_cons_self _ _
    · rw [max_eq_right h]
      cases ys with
      | nil =>
        exfalso
        simp only [List.foldr_nil] at h
        have := hpos y (List.mem_cons_self _ _)
        omega
      | cons z zs =>
        exact List.mem_cons_of_mem _ (ih (by simp)
          (fun x hx => hpos x (List.mem_cons_of_mem _ hx)))

/-- Every positive stored distance of the extension is reached by the
advancing cursor of `ExtrapolatingCurve::steps_iter`. -/
lemma ecStepsDist_complete (md : List Nat) (hne : md ≠ [])
    (hch : List.Chain (· ≤ ·) 0 md) (hlen : 2 ≤ md.length)
    (hD : 0 < md.getLastD 0) :
    ∀ v, ecIsVal md v → 1 ≤ v → ∃ k, ecStepsDist md k = v := by
  intro v
  induction v using Nat.strong_induction_on with
  | _ v ih =>
    intro hval hv1
    obtain ⟨j0, hj0⟩ := curveExtrapolate_iterate md (v + 1)
    have hreach := curveExtrapolate_reaches md (v + 1) hne hlen hD
    rw [hj0] at hreach
    have hcand : ∀ w, ecIsVal md w → 0 < w → w < v →
        w ∈ (curveExtendOnce^[j0] md).filter
          (fun x => decide (0 < x) && decide (x < v)) := by
      intro w hw hw0 hwv
      rw [List.mem_filter]
      refine ⟨ecIsVal_mem md hne hch w j0 hw (by omega), ?_⟩
      simp only [Bool.and_eq_true, decide_eq_true_eq]
      exact ⟨hw0, hwv⟩
    by_cases hC : (curveExtendOnce^[j0] md).filter
        (fun x => decide (0 < x) && decide (x < v)) = []
    · refine ⟨1, ?_⟩
      have h1 : ecStepsDist md 1 = ecDistNext md 0 := rfl
      rw [h1]
      apply ecDistNext_eq md hne hch hlen hD 0 v hval (by omega)
      intro w hw hw0
      by_contra hcon
      have := hcand w hw hw0 (by omega)
      rw [hC] at this
      cases this
    · have hposall : ∀ x ∈ (curveExtendOnce^[j0] md).filter
          (fun x => decide (0 < x) && decide (x < v)), 1 ≤ x := by
        intro x hx
        rw [List.mem_filter] at hx
        simp only [Bool.and_eq_true, decide_eq_true_eq] at hx
        omega
      have humem := foldr_max_mem_aux _ hC hposall
      rw [List.mem_filter] at humem
      simp only [Bool.and_eq_true, decide_eq_true_eq] at humem
      obtain ⟨k, hk⟩ := ih _ humem.2.2 ⟨j0, humem.1⟩ (by
        have := hposall _ (foldr_max_mem_aux _ hC hposall)
        omega)
      refine ⟨k + 1, ?_⟩
      have hstep : ecStepsDist md (k + 1) = ecDistNext md (ecStepsDist md k) := rfl
      rw [hstep, hk]
      apply ecDistNext_eq md hne hch hlen hD _ v hval humem.2.2
      intro w hw hwu
      by_contra hcon
      have hwmem := hcand w hw (by omega) (by omega)
      have := le_foldr_max _ _ hwmem
      omega

/-- The arrival-bound function of every well-formed step model is a
single-entry periodic bound when the model is a one-distance curve. -/
lemma curveNumberArrivals_single (a : Nat) (ha : 0 < a) (Δ : Nat) :
    curveNumberArrivals [a] Δ = periodicNumberArrivals a Δ := by
  rcases Nat.eq_zero_or_pos Δ with h0 | h0
  · subst h0
    simp [curveNumberArrivals, periodicNumberArrivals, divideWithCeil]
  · simp only [curveNumberArrivals, periodicNumberArrivals, divideWithCeil, if_pos h0]
    rw [show [a].getLastD 0 = a from rfl]
    have hmod := Nat.mod_lt Δ ha
    rw [if_neg (by simp only [List.headD_cons]; omega)]
    simp only [List.length_cons, List.length_nil]
    by_cases hz : 0 < Δ % a
    · rw [if_pos hz]
      omega
    · rw [if_neg hz]
      omega

/-- Master correctness of the efficient step iterators (claim C7's
engine): for every well-formed model, `number_arrivals` vanishes on
the empty window and is monotone, the yielded stream is well-behaved
(values exceed their index, exhaustion is stable, values strictly
increase), every yielded value is a genuine step, and every step is
yielded. -/
lemma stepsIter_master (m : StepModel) (hwf : m.WF) :
    m.numberArrivals 0 = 0
      ∧ Monotone m.numberArrivals
      ∧ StreamOK m.steps
      ∧ (∀ k s, m.steps k = some s →
          0 < s ∧ m.numberArrivals (s - 1) < m.numberArrivals s)
      ∧ (∀ d, 0 < d → m.numberArrivals (d - 1) < m.numberArrivals d →
          ∃ k, m.steps k = some d) := by
  induction m with
  | periodic t =>
    have hT : 0 < t := hwf
    refine ⟨by simp [StepModel.numberArrivals, periodicNumberArrivals, divideWithCeil],
      fun x y hxy => divideWithCeil_mono t hT hxy, ⟨?_, ?_, ?_⟩, ?_, ?_⟩
    · intro k x hx
      simp only [StepModel.steps, Option.some.injEq] at hx
      have h1 : 1 * k ≤ t * k := Nat.mul_le_mul_right k hT
      omega
    · intro k h
      simp only [StepModel.steps] at h
      exact Option.noConfusion h
    · intro k1 k2 s1 s2 hk h1 h2
      simp only [StepModel.steps, Option.some.injEq] at h1 h2
      have := Nat.mul_le_mul_left t (show k1 + 1 ≤ k2 by omega)
      have he : t * (k1 + 1) = t * k1 + t := by ring
      omega
    · intro k s hs
      simp only [StepModel.steps, Option.some.injEq] at hs
      subst hs
      refine ⟨by omega, ?_⟩
      exact (periodic_step_iff t hT _ (by omega)).mpr ⟨k, rfl⟩
    · intro d hd hstep
      obtain ⟨k, rfl⟩ := (periodic_step_iff t hT d hd).mp hstep
      exact ⟨k, rfl⟩
  | sporadic t j =>
    have hT : 0 < t := hwf
    refine ⟨rfl, ?_, ⟨?_, ?_, ?_⟩, ?_, ?_⟩
    · intro x y hxy
      simp only [StepModel.numberArrivals, sporadicNumberArrivals]
      by_cases hx : 0 < x
      · rw [if_pos hx, if_pos (by omega)]
        exact divideWithCeil_mono t hT (by omega)
      · rw [if_neg hx]
        exact Nat.zero_le _
    · intro k x hx
      simp only [StepModel.steps] at hx
      by_cases hk0 : k = 0
      · subst hk0
        rw [if_pos rfl] at hx
        injection hx with he
        omega
      · rw [if_neg hk0] at hx
        injection hx with he
        obtain ⟨e, rfl⟩ : ∃ e, k = e + 1 := ⟨k - 1, by omega⟩
        have hj1 := Nat.div_add_mod j t
        have hmod := Nat.mod_lt j hT
        have he1 : t * (j / t + (e + 1)) = t * (j / t) + t * e + t := by ring
        have he3 : 1 * e ≤ t * e := Nat.mul_le_mul_right e hT
        omega
    · intro k h
      simp only [StepModel.steps] at h
      by_cases hk0 : k = 0
      · subst hk0
        rw [if_pos rfl] at h
        exact Option.noConfusion h
      · rw [if_neg hk0] at h
        exact Option.noConfusion h
    · intro k1 k2 s1 s2 hk h1 h2
      simp only [StepModel.steps] at h1 h2
      by_cases hk10 : k1 = 0
      · subst hk10
        rw [if_pos rfl] at h1
        rw [if_neg (by omega)] at h2
        simp only [Option.some.injEq] at h1 h2
        have := (sporadic_step_sound t j k2 hT (by omega)).1
        omega
      · rw [if_neg hk10] at h1
        rw [if_neg (by omega)] at h2
        simp only [Option.some.injEq] at h1 h2
        have hj1 := Nat.div_add_mod j t
        have hmod := Nat.mod_lt j hT
        have he1 : t * (j / t + k1) = t * (j / t) + t * k1 := by ring
        have he2 : t * (j / t + k2) = t * (j / t) + t * k2 := by ring
        have hk12 : t * (k1 + 1) ≤ t * k2 := Nat.mul_le_mul_left t (by omega)
        have he3 : t * (k1 + 1) = t * k1 + t := by ring
        have hTk1 : t * 1 ≤ t * k1 := Nat.mul_le_mul_left t (by omega)
        have hT1 : t * 1 = t := by ring
        omega
    · intro k s hs
      simp only [StepModel.steps] at hs
      by_cases hk0 : k = 0
      · subst hk0
        rw [if_pos rfl] at hs
        simp only [Option.some.injEq] at hs
        subst hs
        refine ⟨by omega, ?_⟩
        show sporadicNumberArrivals t j 0 < sporadicNumberArrivals t j 1
        simp only [sporadicNumberArrivals]
        rw [if_neg (by omega), if_pos (by omega)]
        exact divideWithCeil_pos _ _ (by omega) hT
      · rw [if_neg hk0] at hs
        simp only [Option.some.injEq] at hs
        subst hs
        have h := sporadic_step_sound t j k hT (by omega)
        exact ⟨by omega, h.2⟩
    · intro d hd hstep
      by_cases hd1 : d = 1
      · subst hd1
        exact ⟨0, rfl⟩
      · obtain ⟨k, hk1, hkd⟩ := sporadic_step_complete t j d hT (by omega) hstep
        refine ⟨k, ?_⟩
        simp only [StepModel.steps]
        rw [if_neg (by omega)]
        exact congrArg some hkd.symm
  | curve md =>
    obtain ⟨hne, hch, hD, huniq⟩ := hwf
    have hm := curveDiffs_length_pos md hch hD
    have hmono := curveStepsSeq_strictMono md hm
    have hgrow : ∀ k, curveStepsSeq md 0 + k ≤ curveStepsSeq md k := by
      intro k
      induction k with
      | zero => omega
      | succ e ihe =>
        have := hmono (show e < e + 1 by omega)
        omega
    refine ⟨rfl, curveNumberArrivals_mono md hne hch hD, ⟨?_, ?_, ?_⟩, ?_, ?_⟩
    · intro k x hx
      simp only [StepModel.steps, Option.some.injEq] at hx
      have h0 : curveStepsSeq md 0 = 1 := rfl
      have := hgrow k
      omega
    · intro k h
      simp only [StepModel.steps] at h
      exact Option.noConfusion h
    · intro k1 k2 s1 s2 hk h1 h2
      simp only [StepModel.steps, Option.some.injEq] at h1 h2
      subst h1
      subst h2
      exact hmono hk
    · intro k s hs
      simp only [StepModel.steps, Option.some.injEq] at hs
      subst hs
      exact curve_steps_sound md hne hch hD huniq k
    · intro d hd hstep
      obtain ⟨k, hk⟩ := curve_steps_complete md hne hch hD huniq d hd hstep
      exact ⟨k, congrArg some hk⟩
  | never =>
    refine ⟨rfl, monotone_const, ⟨?_, ?_, ?_⟩, ?_, ?_⟩
    · intro k x hx
      simp only [StepModel.steps] at hx
      exact Option.noConfusion hx
    · intro k _
      rfl
    · intro k1 k2 s1 s2 _ h1 _
      simp only [StepModel.steps] at h1
      exact Option.noConfusion h1
    · intro k s hs
      simp only [StepModel.steps] at hs
      exact Option.noConfusion hs
    · intro d hd hstep
      simp only [StepModel.numberArrivals] at hstep
      omega
  | propagated j inner ih =>
    obtain ⟨hwfi, hpos⟩ := hwf
    obtain ⟨hNA0, hmono, hok, hsound, hcompl⟩ := ih hwfi
    have hbig0 := skipScan_spec j inner.steps (j + 2) 0 (by
      intro x hx
      rw [Nat.zero_add] at hx
      have := hok.1 _ _ hx
      omega)
    obtain ⟨hsmall0, hskipbig0, _⟩ := hbig0
    have hsmall : ∀ q, q < propagatedSkip j inner.steps →
        ∃ x, inner.steps q = some x ∧ x ≤ j + 1 :=
      fun q hq => hsmall0 q (Nat.zero_le q) hq
    have hskipbig : ∀ x, inner.steps (propagatedSkip j inner.steps) = some x →
        j + 1 < x := hskipbig0
    have hbig : ∀ i x, propagatedSkip j inner.steps ≤ i →
        inner.steps i = some x → j + 1 < x := by
      intro i x hi hx
      obtain ⟨d, rfl⟩ : ∃ d, i = propagatedSkip j inner.steps + d :=
        ⟨i - propagatedSkip j inner.steps, by omega⟩
      obtain ⟨y, hy, hyd⟩ := streamOK_some_le inner.steps hok d _ x hx
      have := hskipbig y hy
      omega
    have hred0 : StepModel.steps (.propagated j inner) 0 = some 1 := rfl
    have hredk : ∀ k, k ≠ 0 → StepModel.steps (.propagated j inner) k
        = match inner.steps (k - 1 + propagatedSkip j inner.steps) with
          | some x => some (x - j)
          | none => none := by
      intro k hk
      simp only [StepModel.steps]
      rw [if_neg hk]
    refine ⟨rfl, ?_, ⟨?_, ?_, ?_⟩, ?_, ?_⟩
    · intro x y hxy
      simp only [StepModel.numberArrivals]
      by_cases hx : 0 < x
      · rw [if_pos hx, if_pos (by omega)]
        exact hmono (by omega)
      · rw [if_neg hx]
        exact Nat.zero_le _
    · intro k x hx
      by_cases hk0 : k = 0
      · subst hk0
        rw [hred0] at hx
        injection hx with he
        omega
      · rw [hredk k hk0] at hx
        cases hin : inner.steps (k - 1 + propagatedSkip j inner.steps) with
        | none =>
          rw [hin] at hx
          exact Option.noConfusion hx
        | some y =>
          rw [hin] at hx
          injection hx with he
          obtain ⟨y0, hy0, hy0d⟩ := streamOK_some_le inner.steps hok (k - 1)
            (propagatedSkip j inner.steps) y
            (by rw [show propagatedSkip j inner.steps + (k - 1)
                = k - 1 + propagatedSkip j inner.steps from by omega]; exact hin)
          have := hskipbig y0 hy0
          omega
    · intro k h
      by_cases hk0 : k = 0
      · rw [hk0, hred0] at h
        exact Option.noConfusion h
      · rw [hredk k hk0] at h
        cases hin : inner.steps (k - 1 + propagatedSkip j inner.steps) with
        | some y =>
          rw [hin] at h
          exact Option.noConfusion h
        | none =>
          have hnone : inner.steps (k + propagatedSkip j inner.steps) = none :=
            streamOK_none_ge inner.steps hok _ _ (by omega) hin
          rw [hredk (k + 1) (by omega),
            show k + 1 - 1 + propagatedSkip j inner.steps
              = k + propagatedSkip j inner.steps from by omega, hnone]
    · intro k1 k2 x1 x2 hk h1 h2
      by_cases hk10 : k1 = 0
      · subst hk10
        rw [hred0] at h1
        injection h1 with he1
        rw [hredk k2 (by omega)] at h2
        cases hin : inner.steps (k2 - 1 + propagatedSkip j inner.steps) with
        | none =>
          rw [hin] at h2
          exact Option.noConfusion h2
        | some y =>
          rw [hin] at h2
          injection h2 with he2
          have := hbig _ _ (by omega) hin
          omega
      · rw [hredk k1 hk10] at h1
        rw [hredk k2 (by omega)] at h2
        cases hin1 : inner.steps (k1 - 1 + propagatedSkip j inner.steps) with
        | none =>
          rw [hin1] at h1
          exact Option.noConfusion h1
        | some y1 =>
          cases hin2 : inner.steps (k2 - 1 + propagatedSkip j inner.steps) with
          | none =>
            rw [hin2] at h2
            exact Option.noConfusion h2
          | some y2 =>
            rw [hin1] at h1
            rw [hin2] at h2
            injection h1 with he1
            injection h2 with he2
            have hy12 := hok.2.2 _ _ _ _ (show k1 - 1 + propagatedSkip j inner.steps
              < k2 - 1 + propagatedSkip j inner.steps from by omega) hin1 hin2
            have hb1 := hbig _ _ (by omega) hin1
            omega
    · intro k s hs
      by_cases hk0 : k = 0
      · subst hk0
        rw [hred0] at hs
        injection hs with he
        subst he
        refine ⟨by omega, ?_⟩
        show StepModel.numberArrivals (.propagated j inner) 0
          < StepModel.numberArrivals (.propagated j inner) 1
        simp only [StepModel.numberArrivals]
        rw [if_neg (by omega), if_pos (by omega)]
        exact hpos
      · rw [hredk k hk0] at hs
        cases hin : inner.steps (k - 1 + propagatedSkip j inner.steps) with
        | none =>
          rw [hin] at hs
          exact Option.noConfusion hs
        | some y =>
          rw [hin] at hs
          injection hs with he
          have hyb := hbig _ _ (by omega) hin
          have hsnd := hsound _ _ hin
          refine ⟨by omega, ?_⟩
          simp only [StepModel.numberArrivals]
          rw [if_pos (by omega), if_pos (by omega)]
          rw [show s - 1 + j = y - 1 from by omega, show s + j = y from by omega]
          exact hsnd.2
    · intro d hd hstep
      by_cases hd1 : d = 1
      · subst hd1
        exact ⟨0, rfl⟩
      · simp only [StepModel.numberArrivals] at hstep
        rw [if_pos (by omega), if_pos (by omega)] at hstep
        rw [show d - 1 + j = d + j - 1 from by omega] at hstep
        obtain ⟨i, hi⟩ := hcompl (d + j) (by omega) hstep
        have hiskip : propagatedSkip j inner.steps ≤ i := by
          by_contra hcon
          obtain ⟨x, hxi, hxle⟩ := hsmall i (by omega)
          rw [hxi] at hi
          injection hi with he
          omega
        refine ⟨i - propagatedSkip j inner.steps + 1, ?_⟩
        rw [hredk _ (by omega),
          show i - propagatedSkip j inner.steps + 1 - 1 + propagatedSkip j inner.steps
            = i from by omega, hi]
        show some (d + j - j) = some d
        rw [show d + j - j = d from by omega]
  | sumOf a b iha ihb =>
    obtain ⟨hwa, hwb⟩ := hwf
    obtain ⟨hNA0a, hmonoa, hoka, hsounda, hcompla⟩ := iha hwa
    obtain ⟨hNA0b, hmonob, hokb, hsoundb, hcomplb⟩ := ihb hwb
    refine ⟨?_, ?_, ?_, ?_, ?_⟩
    · show a.numberArrivals 0 + b.numberArrivals 0 = 0
      omega
    · intro x y hxy
      exact Nat.add_le_add (hmonoa hxy) (hmonob hxy)
    · exact mergeOut_streamOK a.steps b.steps hoka hokb
    · intro k s hs
      have hs' : mergeOut a.steps b.steps k = some s := hs
      rcases mergeOut_src a.steps b.steps k s hs' with ⟨i, hi⟩ | ⟨i, hi⟩
      · obtain ⟨hspos, hstep⟩ := hsounda i s hi
        exact ⟨hspos, Nat.add_lt_add_of_lt_of_le hstep (hmonob (by omega))⟩
      · obtain ⟨hspos, hstep⟩ := hsoundb i s hi
        exact ⟨hspos, Nat.add_lt_add_of_le_of_lt (hmonoa (by omega)) hstep⟩
    · intro d hd hstep
      have hma := hmonoa (show d - 1 ≤ d by omega)
      have hmb := hmonob (show d - 1 ≤ d by omega)
      have hsum : a.numberArrivals (d - 1) + b.numberArrivals (d - 1)
          < a.numberArrivals d + b.numberArrivals d := hstep
      rcases Nat.lt_or_ge (a.numberArrivals (d - 1)) (a.numberArrivals d) with h | h
      · obtain ⟨i, hi⟩ := hcompla d hd h
        exact merge_reaches_left a.steps b.steps hoka hokb i d hi
      · obtain ⟨i, hi⟩ := hcomplb d hd (by omega)
        exact merge_reaches_right a.steps b.steps hoka hokb i d hi
  | extrapolating md =>
    obtain ⟨hne, hch, hD⟩ := hwf
    by_cases hlen : 2 ≤ md.length
    · have hspec := fun d => ecDistNext_spec md hne hch hlen hD d
      have hdlt : ∀ k, ecStepsDist md k < ecStepsDist md (k + 1) := fun k =>
        (hspec (ecStepsDist md k)).1
      have hdmono : StrictMono (ecStepsDist md) := strictMono_nat_of_lt_succ hdlt
      have hdge : ∀ k, k ≤ ecStepsDist md k := by
        intro k
        induction k with
        | zero => omega
        | succ e ihe =>
          have := hdlt e
          omega
      have hdval : ∀ k, 1 ≤ k → ecIsVal md (ecStepsDist md k) := by
        intro k hk
        obtain ⟨e, rfl⟩ : ∃ e, k = e + 1 := ⟨k - 1, by omega⟩
        exact (hspec (ecStepsDist md e)).2.1
      have hredk : ∀ k, StepModel.steps (.extrapolating md) k
          = some (1 + ecStepsDist md k) := by
        intro k
        simp only [StepModel.steps]
        rw [if_pos hlen]
      refine ⟨rfl, extrapolatingNumberArrivals_mono md hne hch hD, ⟨?_, ?_, ?_⟩, ?_, ?_⟩
      · intro k x hx
        rw [hredk] at hx
        injection hx with he
        have := hdge k
        omega
      · intro k h
        rw [hredk] at h
        exact Option.noConfusion h
      · intro k1 k2 x1 x2 hk h1 h2
        rw [hredk] at h1 h2
        injection h1 with he1
        injection h2 with he2
        have := hdmono hk
        omega
      · intro k s hs
        rw [hredk] at hs
        injection hs with he
        by_cases hk0 : k = 0
        · subst hk0
          have h00 : ecStepsDist md 0 = 0 := rfl
          rw [h00] at he
          refine ⟨by omega, ?_⟩
          rw [show s - 1 = 0 from by omega, show s = 1 from by omega]
          exact ec_step_one md hne hch hlen hD
        · have hval := hdval k (by omega)
          have hv1 : 1 ≤ ecStepsDist md k := by
            have := hdge k
            omega
          have := (ec_step_iff md hne hch hlen hD (ecStepsDist md k) hv1).mpr hval
          refine ⟨by omega, ?_⟩
          rw [show s - 1 = ecStepsDist md k from by omega,
            show s = ecStepsDist md k + 1 from by omega]
          exact this
      · intro d hd hstep
        by_cases hd1 : d = 1
        · subst hd1
          refine ⟨0, ?_⟩
          rw [hredk]
          rfl
        · have hstep' : extrapolatingNumberArrivals md (d - 1)
              < extrapolatingNumberArrivals md (d - 1 + 1) := by
            rw [show d - 1 + 1 = d from by omega]
            exact hstep
          have hval := (ec_step_iff md hne hch hlen hD (d - 1) (by omega)).mp hstep'
          obtain ⟨k, hk⟩ := ecStepsDist_complete md hne hch hlen hD (d - 1)
            hval (by omega)
          refine ⟨k, ?_⟩
          rw [hredk, hk]
          congr 1
          omega
    · obtain ⟨v, hv⟩ : ∃ v, md = [v] := by
        cases md with
        | nil => exact absurd rfl hne
        | cons y ys =>
          cases ys with
          | nil => exact ⟨y, rfl⟩
          | cons z zs =>
            exact absurd (by simp only [List.length_cons]; omega) hlen
      subst hv
      have hv0 : 0 < v := hD
      have hNA : ∀ Δ, StepModel.numberArrivals (.extrapolating [v]) Δ
          = periodicNumberArrivals v Δ := by
        intro Δ
        show extrapolatingNumberArrivals [v] Δ = _
        rcases Nat.eq_zero_or_pos Δ with h0 | h0
        · subst h0
          simp [extrapolatingNumberArrivals, periodicNumberArrivals, divideWithCeil]
        · simp only [extrapolatingNumberArrivals]
          rw [if_neg (by omega)]
          have hguard : curveExtrapolate [v] (Δ + 1) = [v] := by
            simp only [curveExtrapolate]
            rw [if_neg (by simp)]
          rw [hguard]
          exact curveNumberArrivals_single v hv0 Δ
      have hredk : ∀ k, StepModel.steps (.extrapolating [v]) k = some (v * k + 1) := by
        intro k
        simp only [StepModel.steps]
        rw [if_neg hlen]
        rfl
      refine ⟨by rw [hNA 0]; simp [periodicNumberArrivals, divideWithCeil],
        ?_, ⟨?_, ?_, ?_⟩, ?_, ?_⟩
      · intro x y hxy
        rw [hNA x, hNA y]
        exact divideWithCeil_mono v hv0 hxy
      · intro k x hx
        rw [hredk] at hx
        injection hx with he
        have h1 : 1 * k ≤ v * k := Nat.mul_le_mul_right k hv0
        omega
      · intro k h
        rw [hredk] at h
        exact Option.noConfusion h
      · intro k1 k2 s1 s2 hk h1 h2
        rw [hredk] at h1 h2
        injection h1 with he1
        injection h2 with he2
        have := Nat.mul_le_mul_left v (show k1 + 1 ≤ k2 by omega)
        have he : v * (k1 + 1) = v * k1 + v := by ring
        omega
      · intro k s hs
        rw [hredk] at hs
        injection hs with he
        subst he
        refine ⟨by omega, ?_⟩
        rw [hNA, hNA]
        exact (periodic_step_iff v hv0 _ (by omega)).mpr ⟨k, rfl⟩
      · intro d hd hstep
        rw [hNA, hNA] at hstep
        obtain ⟨k, rfl⟩ := (periodic_step_iff v hv0 d hd).mp hstep
        exact ⟨k, by rw [hredk]⟩

/-- C7 (amended): for every arrival model of the library whose
invariant holds — for `Curve`, a nonempty sorted prefix with a
positive largest distance that is stored exactly once; for
`Propagated`, a well-formed inner model bounding at least one arrival
in a window of length `1 + jitter`; for sums, the lazily extrapolating
curve, and the standalone models, their usual invariants — the
efficient `steps_iter` agrees with the brute-force step enumeration:
its yielded values are strictly increasing, every yielded `s` is
positive and satisfies `number_arrivals(s-1) < number_arrivals(s)`,
and conversely every such step is yielded.  Without the uniqueness of
the largest stored `Curve` distance, or without the `Propagated`
arrival condition, the claim is false (see the counterexample). -/
theorem claimC7_steps_iter_amended (m : StepModel) (hwf : m.WF) :
    (∀ k1 k2 s1 s2, k1 < k2 → m.steps k1 = some s1 → m.steps k2 = some s2 → s1 < s2)
      ∧ (∀ k s, m.steps k = some s →
          0 < s ∧ m.numberArrivals (s - 1) < m.numberArrivals s)
      ∧ (∀ d, 0 < d → m.numberArrivals (d - 1) < m.numberArrivals d →
          ∃ k, m.steps k = some d) := by
  obtain ⟨_, _, hok, hsound, hcompl⟩ := stepsIter_master m hwf
  exact ⟨hok.2.2, hsound, hcompl⟩

/-- Witness for C7: the curve storing distances `[1, 10]` satisfies the
invariant, and the second value yielded by its `steps_iter`, namely 2,
is a genuine step of `number_arrivals`. -/
theorem claimC7_witness :
    ((StepModel.curve [1, 10]).steps 1 = some 2
      ∧ 0 < 2
      ∧ (StepModel.curve [1, 10]).numberArrivals (2 - 1)
          < (StepModel.curve [1, 10]).numberArrivals 2)
      ∧ ((StepModel.sumOf (.propagated 2 (.periodic 5)) (.sporadic 3 1)).steps 2
            = some 4
        ∧ 0 < 4
        ∧ (StepModel.sumOf (.propagated 2 (.periodic 5))
              (.sporadic 3 1)).numberArrivals (4 - 1)
            < (StepModel.sumOf (.propagated 2 (.periodic 5))
                (.sporadic 3 1)).numberArrivals 4) := by
  have h1 := (claimC7_steps_iter_amended (StepModel.curve [1, 10])
      ⟨by decide,
        List.Chain.cons (by decide) (List.Chain.cons (by decide) List.Chain.nil),
        by decide, by decide⟩).2.1 1 2 (by decide)
  have h2 := (claimC7_steps_iter_amended
      (StepModel.sumOf (.propagated 2 (.periodic 5)) (.sporadic 3 1))
      ⟨⟨show 0 < 5 by decide, by decide⟩, show 0 < 3 by decide⟩).2.1 2 4 (by decide)
  exact ⟨⟨by decide, h1⟩, ⟨by decide, h2⟩⟩

/-- Counterexample to C7 as stated, in two parts.  First, for the curve
storing the distances `[2, 5, 5]` — sorted, nonempty, positive, but
with the largest distance stored twice — the value 5 is a genuine step
of `number_arrivals` (it rises from 2 to 3 arrivals there), yet
`steps_iter` never yields 5: it yields 1, 3, 6, ... and skips it.
Second, for `Propagated` over `Never`, `steps_iter` unconditionally
yields 1, yet the arrival bound is constantly zero, so 1 is not a
genuine step. -/
theorem claimC7_counterexample :
    ((StepModel.curve [2, 5, 5]).numberArrivals 4
        < (StepModel.curve [2, 5, 5]).numberArrivals 5
      ∧ ∀ k, (StepModel.curve [2, 5, 5]).steps k ≠ some 5)
      ∧ (StepModel.propagated 0 .never).steps 0 = some 1
      ∧ (StepModel.propagated 0 .never).numberArrivals (1 - 1)
          = (StepModel.propagated 0 .never).numberArrivals 1 := by
  refine ⟨⟨by decide, ?_⟩, by decide, by decide⟩
  intro k hk
  simp only [StepModel.steps, Option.some.injEq] at hk
  have hmono := curveStepsSeq_strictMono [2, 5, 5] (by decide)
  rcases Nat.lt_or_ge k 3 with h | h
  · interval_cases k <;> revert hk <;> decide
  · have h2 : curveStepsSeq [2, 5, 5] 2 = 6 := by decide
    have := hmono (show 2 < k by omega)
    omega

/-- The cached arrival prefix after any query history is some number of
single extensions of the wrapped curve. -/
lemma ecArrivalState_iterate (md : List Nat) :
    ∀ qs, ∃ k, ecArrivalState md qs = curveExtendOnce^[k] md := by
  have key : ∀ (qs : List Nat) (s : List Nat),
      ∃ k, List.foldl (fun s q => if q = 0 then s else curveExtrapolate s (q + 1)) s qs
        = curveExtendOnce^[k] s := by
    intro qs
    induction qs with
    | nil => exact fun s => ⟨0, rfl⟩
    | cons q rest ih =>
      intro s
      simp only [List.foldl_cons]
      by_cases hq : q = 0
      · rw [if_pos hq]
        exact ih s
      · rw [if_neg hq]
        obtain ⟨j, hj⟩ := curveExtrapolate_iterate s (q + 1)
        obtain ⟨k, hk⟩ := ih (curveExtrapolate s (q + 1))
        refine ⟨k + j, ?_⟩
        rw [hk, hj, Function.iterate_add_apply]
  exact fun qs => key qs md

/-- A wrapped arrival curve with fewer than two stored distances is
never extended by queries. -/
lemma ecArrivalState_const_of_short (md : List Nat) (h : md.length < 2) :
    ∀ qs, ecArrivalState md qs = md := by
  have hstep : ∀ q, (if q = 0 then md else curveExtrapolate md (q + 1)) = md := by
    intro q
    by_cases hq : q = 0
    · rw [if_pos hq]
    · rw [if_neg hq]
      simp only [curveExtrapolate]
      rw [if_neg (by omega)]
  intro qs
  induction qs with
  | nil => rfl
  | cons q rest ih =>
    show List.foldl _ _ (q :: rest) = md
    rw [List.foldl_cons, hstep q]
    exact ih

/-- Extending a cost prefix once grows it by one sample. -/
lemma wcetExtendOnce_length (w : List Nat) :
    (wcetExtendOnce w).length = w.length + 1 := by
  simp [wcetExtendOnce]

/-- Iterated extension grows the cost prefix linearly. -/
lemma wcetExtendOnce_iterate_length (w : List Nat) :
    ∀ k, (wcetExtendOnce^[k] w).length = w.length + k := by
  intro k
  induction k with
  | zero => rfl
  | succ j ih =>
    rw [Function.iterate_succ_apply', wcetExtendOnce_length, ih]
    omega

/-- The cost-extrapolation loop is some number of single extensions. -/
lemma wcetExtrapolateAux_iterate (t : Nat) :
    ∀ (fuel : Nat) (w : List Nat), ∃ k, wcetExtrapolateAux t fuel w = wcetExtendOnce^[k] w := by
  intro fuel
  induction fuel with
  | zero => exact fun w => ⟨0, rfl⟩
  | succ f ih =>
    intro w
    simp only [wcetExtrapolateAux]
    by_cases hc : w.length < t
    · rw [if_pos hc]
      obtain ⟨k, hk⟩ := ih (wcetExtendOnce w)
      refine ⟨k + 1, ?_⟩
      rw [hk, Function.iterate_add_apply]
      rfl
    · rw [if_neg hc]
      exact ⟨0, rfl⟩

/-- `wcet::Curve::extrapolate` is some number of single extensions. -/
lemma wcetExtrapolate_iterate (w : List Nat) (n : Nat) :
    ∃ k, wcetExtrapolate w n = wcetExtendOnce^[k] w := by
  simp only [wcetExtrapolate]
  by_cases hl : 3 ≤ w.length
  · rw [if_pos hl]
    exact wcetExtrapolateAux_iterate (n - 1) n w
  · rw [if_neg hl]
    exact ⟨0, rfl⟩

/-- With enough fuel the cost-extrapolation loop reaches its target
length. -/
lemma wcetExtrapolateAux_length_ge (t : Nat) :
    ∀ (fuel : Nat) (w : List Nat), t ≤ w.length + fuel →
      t ≤ (wcetExtrapolateAux t fuel w).length := by
  intro fuel
  induction fuel with
  | zero =>
    intro w h
    simpa using h
  | succ f ih =>
    intro w h
    simp only [wcetExtrapolateAux]
    by_cases hc : w.length < t
    · rw [if_pos hc]
      exact ih (wcetExtendOnce w) (by rw [wcetExtendOnce_length]; omega)
    · rw [if_neg hc]
      omega

/-- `wcet::Curve::extrapolate w n` stores at least `n - 1` samples
whenever the guard admits extrapolation. -/
lemma wcetExtrapolate_length_ge (w : List Nat) (n : Nat) (h3 : 3 ≤ w.length) :
    n - 1 ≤ (wcetExtrapolate w n).length := by
  simp only [wcetExtrapolate]
  rw [if_pos h3]
  exact wcetExtrapolateAux_length_ge (n - 1) n w (by omega)

/-- Iterated cost extension only appends: earlier iterates remain list
prefixes of later ones. -/
lemma wcetExtendOnce_iterate_isPr (w : List Nat) (j k : Nat) (h : j ≤ k) :
    ∃ t, wcetExtendOnce^[j] w ++ t = wcetExtendOnce^[k] w := by
  have hstep : ∀ (d : Nat) (x : List Nat), ∃ t, x ++ t = wcetExtendOnce^[d] x := by
    intro d
    induction d with
    | zero => exact fun x => ⟨[], by simp⟩
    | succ e ihe =>
      intro x
      obtain ⟨t, ht⟩ := ihe (wcetExtendOnce x)
      refine ⟨[wcetExtrapolateNext x] ++ t, ?_⟩
      rw [Function.iterate_succ_apply, ← ht]
      simp [wcetExtendOnce]
  obtain ⟨t, ht⟩ := hstep (k - j) (wcetExtendOnce^[j] w)
  refine ⟨t, ?_⟩
  rw [ht, ← Function.iterate_add_apply]
  congr 1
  omega

/-- The cached cost prefix after any query history is some number of
single extensions of the wrapped curve. -/
lemma ecWcetState_iterate (w : List Nat) :
    ∀ qs, ∃ k, ecWcetState w qs = wcetExtendOnce^[k] w := by
  have key : ∀ (qs : List Nat) (s : List Nat),
      ∃ k, List.foldl (fun s q => wcetExtrapolate s (q + 1)) s qs
        = wcetExtendOnce^[k] s := by
    intro qs
    induction qs with
    | nil => exact fun s => ⟨0, rfl⟩
    | cons q rest ih =>
      intro s
      simp only [List.foldl_cons]
      obtain ⟨j, hj⟩ := wcetExtrapolate_iterate s (q + 1)
      obtain ⟨k, hk⟩ := ih (wcetExtrapolate s (q + 1))
      refine ⟨k + j, ?_⟩
      rw [hk, hj, Function.iterate_add_apply]
  exact fun qs => key qs w

/-- A wrapped cost curve with fewer than three samples is never
extended by queries. -/
lemma ecWcetState_const_of_short (w : List Nat) (h : w.length < 3) :
    ∀ qs, ecWcetState w qs = w := by
  have hstep : ∀ q, wcetExtrapolate w (q + 1) = w := by
    intro q
    simp only [wcetExtrapolate]
    rw [if_neg (by omega)]
  intro qs
  induction qs with
  | nil => rfl
  | cons q rest ih =>
    show List.foldl _ _ (q :: rest) = w
    rw [List.foldl_cons, hstep q]
    exact ih

/-- On a prefix long enough to cover the query, `cost_of_jobs n` is
just the stored sample for `n` jobs. -/
lemma wcetCostOfJobs_getD (w : List Nat) (n : Nat) (h1 : 1 ≤ n)
    (h2 : n ≤ w.length) : wcetCostOfJobs w n = w.getD (n - 1) 0 := by
  have hne : w ≠ [] := by
    intro hcon
    rw [hcon] at h2
    simp at h2
    omega
  simp only [wcetCostOfJobs]
  rw [if_pos ⟨hne, by omega⟩]
  rcases Nat.lt_or_ge n w.length with hlt | hge
  · rw [Nat.div_eq_of_lt hlt, Nat.mod_eq_of_lt hlt]
    rw [if_neg (by omega), if_pos (by omega)]
    omega
  · have heq : n = w.length := by omega
    subst heq
    rw [Nat.div_self (by omega), Nat.mod_self]
    rw [if_pos (by omega), if_neg (by omega)]
    rw [getD_length_sub_one w hne 0]
    omega

/-- C9: the two lazily memoizing curves behave as pure functions of the
wrapped curve and the query argument.  For any two query histories, a
final `ExtrapolatingCurve::number_arrivals delta` (respectively
`wcet::ExtrapolatingCurve::cost_of_jobs n`) returns the same value.
The arrival side assumes the wrapped prefix is a sorted delta-min curve
whose largest stored distance is positive when extrapolation is
possible: a sorted prefix of two or more distances that are all zero
makes the source's extrapolation loop push zeroes forever on any
positive query, so no value is returned at all in that case. -/
theorem claimC9_memoization_pure (md w qs1 qs2 : List Nat)
    (hne : md ≠ []) (hch : List.Chain (· ≤ ·) 0 md)
    (hD : 2 ≤ md.length → 0 < md.getLastD 0) :
    (∀ delta, ecArrivalQuery md qs1 delta = ecArrivalQuery md qs2 delta)
      ∧ ∀ n, ecWcetQuery w qs1 n = ecWcetQuery w qs2 n := by
  constructor
  · intro delta
    simp only [ecArrivalQuery]
    by_cases h0 : delta = 0
    · rw [if_pos h0, if_pos h0]
    · rw [if_neg h0, if_neg h0]
      by_cases hlen : 2 ≤ md.length
      · obtain ⟨k1, hk1⟩ := ecArrivalState_iterate md qs1
        obtain ⟨k2, hk2⟩ := ecArrivalState_iterate md qs2
        rw [hk1, hk2]
        obtain ⟨hne1, hch1, hhd1, hlen1, hlast1⟩ :=
          curveExtendOnce_iterate_invariants md hne hch k1
        obtain ⟨hne2, hch2, hhd2, hlen2, hlast2⟩ :=
          curveExtendOnce_iterate_invariants md hne hch k2
        have hr1 := curveExtrapolate_reaches (curveExtendOnce^[k1] md) (delta + 1)
          hne1 (by omega) (by have := hD hlen; omega)
        have hr2 := curveExtrapolate_reaches (curveExtendOnce^[k2] md) (delta + 1)
          hne2 (by omega) (by have := hD hlen; omega)
        obtain ⟨i1, hi1⟩ := curveExtrapolate_iterate (curveExtendOnce^[k1] md) (delta + 1)
        obtain ⟨i2, hi2⟩ := curveExtrapolate_iterate (curveExtendOnce^[k2] md) (delta + 1)
        have he1 : curveExtrapolate (curveExtendOnce^[k1] md) (delta + 1)
            = curveExtendOnce^[i1 + k1] md := by
          rw [hi1, Function.iterate_add_apply]
        have he2 : curveExtrapolate (curveExtendOnce^[k2] md) (delta + 1)
            = curveExtendOnce^[i2 + k2] md := by
          rw [hi2, Function.iterate_add_apply]
        rw [he1] at hr1
        rw [he2] at hr2
        rw [he1, he2]
        exact curveNumberArrivals_iterate_agree md hne hch (i1 + k1) (i2 + k2)
          delta (by omega) (by omega)
      · rw [ecArrivalState_const_of_short md (by omega) qs1,
          ecArrivalState_const_of_short md (by omega) qs2]
  · intro n
    simp only [ecWcetQuery]
    by_cases hw3 : 3 ≤ w.length
    · obtain ⟨k1, hk1⟩ := ecWcetState_iterate w qs1
      obtain ⟨k2, hk2⟩ := ecWcetState_iterate w qs2
      rw [hk1, hk2]
      by_cases hn0 : n = 0
      · subst hn0
        simp only [wcetCostOfJobs]
        rw [if_neg (fun hcon => absurd hcon.2 (by omega)),
          if_neg (fun hcon => absurd hcon.2 (by omega))]
      · have hl1 : 3 ≤ (wcetExtendOnce^[k1] w).length := by
          rw [wcetExtendOnce_iterate_length]
          omega
        have hl2 : 3 ≤ (wcetExtendOnce^[k2] w).length := by
          rw [wcetExtendOnce_iterate_length]
          omega
        have hext1 := wcetExtrapolate_length_ge (wcetExtendOnce^[k1] w) (n + 1) hl1
        have hext2 := wcetExtrapolate_length_ge (wcetExtendOnce^[k2] w) (n + 1) hl2
        obtain ⟨i1, hi1⟩ := wcetExtrapolate_iterate (wcetExtendOnce^[k1] w) (n + 1)
        obtain ⟨i2, hi2⟩ := wcetExtrapolate_iterate (wcetExtendOnce^[k2] w) (n + 1)
        have he1 : wcetExtrapolate (wcetExtendOnce^[k1] w) (n + 1)
            = wcetExtendOnce^[i1 + k1] w := by
          rw [hi1, Function.iterate_add_apply]
        have he2 : wcetExtrapolate (wcetExtendOnce^[k2] w) (n + 1)
            = wcetExtendOnce^[i2 + k2] w := by
          rw [hi2, Function.iterate_add_apply]
        rw [he1] at hext1
        rw [he2] at hext2
        rw [he1, he2]
        rw [wcetCostOfJobs_getD _ n (by omega) (by omega),
          wcetCostOfJobs_getD _ n (by omega) (by omega)]
        rcases Nat.le_total (i1 + k1) (i2 + k2) with hle | hle
        · obtain ⟨t, ht⟩ := wcetExtendOnce_iterate_isPr w _ _ hle
          rw [← ht]
          exact (List.getD_append _ t 0 (n - 1) (by omega)).symm
        · obtain ⟨t, ht⟩ := wcetExtendOnce_iterate_isPr w _ _ hle
          rw [← ht]
          exact List.getD_append _ t 0 (n - 1) (by omega)
    · rw [ecWcetState_const_of_short w (by omega) qs1,
        ecWcetState_const_of_short w (by omega) qs2]

/-- Witness for C9: wrapping the arrival curve `[1, 2]` and the cost
curve `[3, 5, 6]`, a run that first queried 4 and a fresh run agree on
the final query at 2. -/
theorem claimC9_witness :
    ecArrivalQuery [1, 2] [4] 2 = ecArrivalQuery [1, 2] [] 2
      ∧ ecWcetQuery [3, 5, 6] [4] 2 = ecWcetQuery [3, 5, 6] [] 2 := by
  have h := claimC9_memoization_pure [1, 2] [3, 5, 6] [4] [] (by decide)
    (List.Chain.cons (by decide) (List.Chain.cons (by decide) List.Chain.nil))
    (fun _ => by decide)
  exact ⟨h.1 2, h.2 2⟩
